import Mathlib

/-!
# textlint: fix reconciliation, cache gating, backer chain, config and engine core

Shallow embedding of

* `src/lib/textlint-kernel/src/fixer/source-code-fixer.js`
  (`compareMessagesByLocation`, `SourceCodeFixer.applyFixes`,
  `SourceCodeFixer.sequentiallyApplyFixes`);
* `src/lib/engine/execute-file-backers/cache-backer.js`
  (`CacheBacker.shouldExecute`, `didExecute`, `afterAll`);
* `src/lib/textlint/src/engine/execute-file-backer-manager.js`
  (`ExecuteFileBackerManager.process`);
* `src/lib/textlint/src/config/config.js` (the `Config` constructor,
  `Config.initWithAutoLoading`);
* `src/lib/textlint/src/shared/type/SeverityLevel.js` and
  `src/lib/engine/textlint-engine-core.js`
  (`executeOnText`, `isErrorMessage`, `isErrorResults`, `resetRules`).

Conventions.

* A JavaScript string is the list of its UTF-16 code units; one `Char` stands for one code
  unit, so `length`, `split("")`, `slice` and indexing are per element of the list.
* Offsets, lines and columns are `Int` (the code compares and subtracts them, and a negative
  start is meaningful).
* `Array.prototype.sort` is a builtin of the JavaScript engine, not code of the repository.
  `applyFixes` takes it as its first argument. General theorems assume only `IsSort`
  (the result is a permutation of the input, and it is ordered whenever the comparator is
  consistent on the input), which `insertionSort` is proved to meet; `insertionSort`
  (V8 up to 6.x, short arrays) and `runInsertionSort` (V8 from 7.0 on, short arrays) are
  two executable engines used for concrete evaluations.
* What lies outside the repository is modelled by its behaviour and named as such where it
  is defined: `splice`, `path.extname`, the own keys of an object and their enumeration
  order, the packages `file-entry-cache` (with the cache file it loads and saves) and
  `unique-concat`. The order in which promises settle is an argument (`completion`).
* The calls that `process` makes are kept in a list (`ProcessRun.calls`), which the code does
  not have; it is what the statements about the order of calls are about.
-/

namespace Textlint

/-! ## Data model -/

/-- A JavaScript string, as the list of its UTF-16 code units. -/
abbrev JSString := List Char

/-- The constant `BOM = "\uFEFF"` (line 5 of source-code-fixer.js), a single code unit. -/
def BOM : Char := Char.ofNat 0xFEFF

/-- The `fix` object of a message: `range = [start, end]` and the replacement `text`. -/
structure TextlintFixCommand where
  range : Int × Int
  text : JSString
deriving DecidableEq

/-- A lint message. `fix = none` stands for `problem.fix === undefined`. -/
structure TextlintMessage where
  ruleId : String
  message : String
  line : Int
  column : Int
  severity : Int
  fix : Option TextlintFixCommand
deriving DecidableEq

/-- The two fields of a `SourceCode` object that the fixer reads. -/
structure SourceCode where
  text : JSString
  hasBOM : Bool
deriving DecidableEq

/-- The object returned by `applyFixes`. -/
structure FixResult where
  fixed : Bool
  messages : List TextlintMessage
  applyingMessages : List TextlintMessage
  remainingMessages : List TextlintMessage
  output : JSString
deriving DecidableEq

/-! ## `Array.prototype` builtins -/

/-- The type of `Array.prototype.sort` on arrays of messages: comparator first. -/
abbrev SortFn := (TextlintMessage → TextlintMessage → Int) →
  List TextlintMessage → List TextlintMessage

/-- A comparator is consistent on a list when its answers for any two positions of the list
agree in sign (one is before the other exactly when the other is after it), and `cmp x y ≤ 0`
is transitive on the elements. Nothing is asked of the answer for an element compared with
itself, which the comparator of `fixes.sort` never answers with `0`. -/
def Consistent {α : Type} (cmp : α → α → Int) (l : List α) : Prop :=
  l.Pairwise (fun x y => (cmp x y < 0 ↔ 0 < cmp y x) ∧ (0 < cmp x y ↔ cmp y x < 0)) ∧
  ∀ x ∈ l, ∀ y ∈ l, ∀ z ∈ l, cmp x y ≤ 0 → cmp y z ≤ 0 → cmp x z ≤ 0

/-- What is assumed of the engine's `Array.prototype.sort`: the result is a permutation of the
array, and when the comparator is consistent on the array no element of the result sorts
after an element that follows it (`cmp x y ≤ 0` for `x` before `y`). -/
structure IsSort (sortFn : SortFn) : Prop where
  perm : ∀ cmp l, (sortFn cmp l).Perm l
  sorted : ∀ cmp l, Consistent cmp l → (sortFn cmp l).Pairwise (fun x y => cmp x y ≤ 0)

/-- Inner loop of a straight insertion sort, on the already sorted part held last element
first: `tmp` moves one place to the right while `cmp tmp element > 0`. -/
def insertFromRight {α : Type} (cmp : α → α → Int) (element : α) : List α → List α
  | [] => [element]
  | tmp :: rest =>
    if 0 < cmp tmp element then tmp :: insertFromRight cmp element rest
    else element :: tmp :: rest

/-- Straight insertion sort (the `InsertionSort` that V8 up to 6.x runs on short arrays):
elements are taken left to right and each is moved left past every element `tmp` with
`cmp tmp element > 0`. -/
def insertionSort {α : Type} (cmp : α → α → Int) (a : List α) : List α :=
  (a.foldl (fun sortedRev element => insertFromRight cmp element sortedRev) []).reverse

/-- Binary search of V8's `BinaryInsertionSort`: the place of `pivot` in the sorted part `a`,
between `left` and `right`; `fuel` bounds the number of halvings. -/
def binarySearch {α : Type} (cmp : α → α → Int) (pivot : α) (a : List α) :
    Nat → Nat → Nat → Nat
  | 0, left, _ => left
  | fuel + 1, left, right =>
    if left < right then
      let mid := left + (right - left) / 2
      match a.get? mid with
      | some x =>
        if cmp pivot x < 0 then binarySearch cmp pivot a fuel left mid
        else binarySearch cmp pivot a fuel (mid + 1) right
      | none => left
    else left

/-- One step of `BinaryInsertionSort`: `pivot` is inserted into the sorted part at the place
found by `binarySearch`. -/
def binaryInsert {α : Type} (cmp : α → α → Int) (sortedPart : List α) (pivot : α) : List α :=
  let left := binarySearch cmp pivot sortedPart (sortedPart.length + 1) 0 sortedPart.length
  sortedPart.take left ++ pivot :: sortedPart.drop left

/-- The scan of V8's `CountAndMakeRun` after the first two elements: the run goes on while the
answers of `cmp current previous` keep the direction of the run. Returns the run and the
rest. -/
def extendRun {α : Type} (cmp : α → α → Int) (isDescending : Bool) :
    α → List α → List α × List α
  | _, [] => ([], [])
  | previous, current :: rest =>
    let order := cmp current previous
    if (isDescending && decide (0 ≤ order)) || (!isDescending && decide (order < 0)) then
      ([], current :: rest)
    else
      let r := extendRun cmp isDescending current rest
      (current :: r.1, r.2)

/-- The sort of V8 from 7.0 on (TimSort) on an array shorter than 64 elements, where the
minimal run length is the array length: `CountAndMakeRun` finds the initial run (reversed in
place when it is strictly descending) and `BinaryInsertionSort` inserts the other elements. -/
def runInsertionSort {α : Type} (cmp : α → α → Int) : List α → List α
  | [] => []
  | [x] => [x]
  | elementHigh :: elementLow :: rest =>
    let isDescending := decide (cmp elementLow elementHigh < 0)
    let r := extendRun cmp isDescending elementLow rest
    let run := elementHigh :: elementLow :: r.1
    let run := if isDescending then run.reverse else run
    r.2.foldl (binaryInsert cmp) run

/-- `Array.prototype.splice(start, deleteCount, item)` with one inserted item: the array after
the call and the array of removed elements. -/
def splice {α : Type} (arr : List α) (start deleteCount : Int) (item : α) : List α × List α :=
  let len : Int := arr.length
  let actualStart : Nat := (if start < 0 then max (len + start) 0 else min start len).toNat
  let actualDeleteCount : Nat := (min (max deleteCount 0) (len - actualStart)).toNat
  (arr.take actualStart ++ item :: arr.drop (actualStart + actualDeleteCount),
   (arr.drop actualStart).take actualDeleteCount)

/-! ## source-code-fixer.js -/

/-- `compareMessagesByLocation(a, b)` (lines 13-21). -/
def compareMessagesByLocation (a b : TextlintMessage) : Int :=
  let lineDiff := a.line - b.line
  if lineDiff = 0 then a.column - b.column else lineDiff

/-- The comparator given to `fixes.sort` (lines 61-68): `1` when `a.fix.range[1] <=
b.fix.range[0]`, else `-1`. Every element of `fixes` has a `fix`; a message without one never
reaches the comparator (in JavaScript the property access would throw), and the last case
only makes the function total. -/
def compareFixes (a b : TextlintMessage) : Int :=
  match a.fix, b.fix with
  | some fa, some fb => if fa.range.2 ≤ fb.range.1 then 1 else -1
  | _, _ => -1

/-- The variables that the `fixes.forEach` callback of `applyFixes` reads and writes.
`accepted` is a ghost variable: the problems for which the branch `end < lastFixPos` ran, in
processing order (the code keeps only their rewritten copies in `applyingMessages`). -/
structure FixLoop where
  chars : List JSString
  lastFixPos : Int
  prefixBOM : JSString
  applyingMessages : List TextlintMessage
  remainingMessages : List TextlintMessage
  accepted : List TextlintMessage
deriving DecidableEq

/-- The body of `fixes.forEach(function (problem) ...)` (lines 71-100). -/
def applyFix (st : FixLoop) (problem : TextlintMessage) : FixLoop :=
  match problem.fix with
  | none => st
  | some fix =>
    let start := fix.range.1
    let end_ := fix.range.2
    let insertionText := fix.text
    if end_ < st.lastFixPos then
      let removeBOM := decide (start < 0)
      let prefix1 := if removeBOM then [] else st.prefixBOM
      let start := if removeBOM then 0 else start
      let setBOM := decide (start = 0) && decide (insertionText.head? = some BOM)
      let prefix2 := if setBOM then [BOM] else prefix1
      let insertionText := if setBOM then insertionText.drop 1 else insertionText
      let spliced := splice st.chars start (end_ - start) insertionText
      let copyOfMessage : TextlintMessage :=
        { problem with
          fix := some { range := (start, start + insertionText.length),
                        text := spliced.2.flatten } }
      { chars := spliced.1
        lastFixPos := start
        prefixBOM := prefix2
        applyingMessages := st.applyingMessages ++ [copyOfMessage]
        remainingMessages := st.remainingMessages
        accepted := st.accepted ++ [problem] }
    else
      { st with remainingMessages := st.remainingMessages ++ [problem] }

/-- The state of `applyFixes` when `fixes.forEach` has run (lines 41-100), for a message list
with at least one fix: partition of the messages, `fixes.sort`, then the loop. -/
def applyFixesLoop (sortFn : SortFn) (sourceCode : SourceCode)
    (messages : List TextlintMessage) : FixLoop :=
  let text := sourceCode.text
  let cloneMessages := messages
  let fixes := cloneMessages.filter (fun problem => problem.fix.isSome)
  let remainingMessages := cloneMessages.filter (fun problem => problem.fix.isNone)
  let lastFixPos : Int := text.length + 1
  let prefixBOM : JSString := if sourceCode.hasBOM then [BOM] else []
  let sorted := sortFn compareFixes fixes
  let chars := text.map (fun c => [c])
  sorted.foldl applyFix
    { chars := chars, lastFixPos := lastFixPos, prefixBOM := prefixBOM,
      applyingMessages := [], remainingMessages := remainingMessages, accepted := [] }

/-- `SourceCodeFixer.applyFixes(sourceCode, messages)` (lines 39-119); `sortFn` is the
engine's `Array.prototype.sort`. -/
def applyFixes (sortFn : SortFn) (sourceCode : SourceCode)
    (messages : List TextlintMessage) : FixResult :=
  let text := sourceCode.text
  let cloneMessages := messages
  let fixes := cloneMessages.filter (fun problem => problem.fix.isSome)
  let remainingMessages := cloneMessages.filter (fun problem => problem.fix.isNone)
  let prefixBOM : JSString := if sourceCode.hasBOM then [BOM] else []
  if fixes.length ≠ 0 then
    let st := applyFixesLoop sortFn sourceCode messages
    { fixed := true
      messages := cloneMessages
      applyingMessages := st.applyingMessages.reverse
      remainingMessages := sortFn compareMessagesByLocation st.remainingMessages
      output := st.prefixBOM ++ st.chars.flatten }
  else
    { fixed := false
      messages := cloneMessages
      applyingMessages := []
      remainingMessages := remainingMessages
      output := prefixBOM ++ text }

/-- The problems whose fix `applyFixes` applies, in processing order, with their fix as
given (ranges in the coordinates of the original text). -/
def acceptedFixes (sortFn : SortFn) (sourceCode : SourceCode)
    (messages : List TextlintMessage) : List TextlintMessage :=
  if (messages.filter (fun problem => problem.fix.isSome)).length ≠ 0 then
    (applyFixesLoop sortFn sourceCode messages).accepted
  else []

/-- Modelled from the spec: the `SourceCode` constructor of `../core/source-code`, which is
not among the source files. The spec's data model has the text together with a flag marking
the presence of a leading BOM; the text kept is the content after that BOM. -/
def SourceCode.create (text : JSString) : SourceCode :=
  if text.head? = some BOM then { text := text.drop 1, hasBOM := true }
  else { text := text, hasBOM := false }

/-- `SourceCodeFixer.sequentiallyApplyFixes(sourceCode, applyingMessages)` (lines 126-140). -/
def sequentiallyApplyFixes (sortFn : SortFn) (sourceCode : SourceCode)
    (applyingMessages : List TextlintMessage) : JSString :=
  applyingMessages.foldl
    (fun text message => (applyFixes sortFn (SourceCode.create text) [message]).output)
    sourceCode.text

/-! ## Reference functions and predicates used in the statements -/

/-- Two half-open ranges `[start, end)` share an offset. -/
def overlaps (a b : TextlintFixCommand) : Prop :=
  max a.range.1 b.range.1 < min a.range.2 b.range.2

instance (a b : TextlintFixCommand) : Decidable (overlaps a b) := by
  unfold overlaps; infer_instance

/-- The text between the offsets `pos` and `hi` of `text` in which every range `[start, end)`
of `edits` (listed from left to right) is replaced by the replacement text of its edit. -/
def replaceFrom (pos hi : Nat) (text : JSString) : List TextlintFixCommand → JSString
  | [] => (text.take hi).drop pos
  | f :: fs =>
    (text.take f.range.1.toNat).drop pos ++ f.text ++ replaceFrom f.range.2.toNat hi text fs

/-- The text in which every range `[start, end)` of `edits` (listed from left to right) is
replaced by the replacement text of its edit. -/
def replaceRanges (text : JSString) (edits : List TextlintFixCommand) : JSString :=
  replaceFrom 0 text.length text edits

/-- Messages are sorted by line, then by column. -/
def SortedByLocation (l : List TextlintMessage) : Prop :=
  l.Pairwise (fun a b => a.line < b.line ∨ (a.line = b.line ∧ a.column ≤ b.column))

instance (l : List TextlintMessage) : Decidable (SortedByLocation l) := by
  unfold SortedByLocation; infer_instance

/-- A message of rule `r` at the given line and column whose fix replaces the range
`[start, stop]` by `text`. -/
def fixMessage (line column start stop : Int) (text : String) : TextlintMessage :=
  { ruleId := "r", message := "m", line := line, column := column, severity := 2,
    fix := some { range := (start, stop), text := text.toList } }

/-- A message of rule `r` at the given line and column that carries no fix. -/
def plainMessage (line column : Int) : TextlintMessage :=
  { ruleId := "r", message := "m", line := line, column := column, severity := 1, fix := none }

/-- The fixes of two messages have overlapping half-open ranges. -/
def fixesOverlap (a b : TextlintMessage) : Prop :=
  match a.fix, b.fix with
  | some fa, some fb => overlaps fa fb
  | _, _ => False

instance (a b : TextlintMessage) : Decidable (fixesOverlap a b) := by
  unfold fixesOverlap; split <;> infer_instance

/-- The fix of a message, if any, satisfies `p`. -/
def fixSatisfies (p : TextlintFixCommand → Prop) (m : TextlintMessage) : Prop :=
  match m.fix with
  | some f => p f
  | none => True

instance (p : TextlintFixCommand → Prop) [DecidablePred p] (m : TextlintMessage) :
    Decidable (fixSatisfies p m) := by
  unfold fixSatisfies; split <;> infer_instance

/-- A message without its `fix` property. -/
def withoutFix (m : TextlintMessage) : TextlintMessage := { m with fix := none }

/-- The fix of `a` ends strictly before the fix of `b` starts. -/
def fixBefore (a b : TextlintMessage) : Prop :=
  match a.fix, b.fix with
  | some fa, some fb => fa.range.2 < fb.range.1
  | _, _ => False

instance (a b : TextlintMessage) : Decidable (fixBefore a b) := by
  unfold fixBefore; split <;> infer_instance

/-- The fix of a message lies in a text of length `n`: `0 ≤ start ≤ end ≤ n`. -/
def fixInText (n : Nat) (m : TextlintMessage) : Prop :=
  fixSatisfies (fun f => 0 ≤ f.range.1 ∧ f.range.1 ≤ f.range.2 ∧ f.range.2 ≤ n) m

instance (n : Nat) (m : TextlintMessage) : Decidable (fixInText n m) := by
  unfold fixInText; infer_instance

/-- The replacement text of the fix of a message does not begin with a BOM. -/
def fixTextNoBOM (m : TextlintMessage) : Prop :=
  fixSatisfies (fun f => f.text.head? ≠ some BOM) m

instance (m : TextlintMessage) : Decidable (fixTextNoBOM m) := by
  unfold fixTextNoBOM; infer_instance

/-! ## cache-backer.js -/

/-- The `meta` object of a descriptor of `file-entry-cache`; `hashOfConfig = none` stands for a
property that was never set. -/
structure DescriptorMeta where
  hashOfConfig : Option String
deriving DecidableEq

/-- What `shouldExecute` reads of the object returned by `fileCache.getFileDescriptor`:
`changed` is the truth value of `descriptor.changed`, and `meta = none` stands for a descriptor
without `meta`. -/
structure FileDescriptor where
  changed : Bool
  meta : Option DescriptorMeta
deriving DecidableEq

/-- The fields of a `CacheBacker` (lines 10-20). `fileCache` is the store of the external
package `file-entry-cache`, seen through its `getFileDescriptor`. -/
structure CacheBacker where
  isEnabled : Bool
  fileCache : String → FileDescriptor
  hashOfConfig : String

/-- `CacheBacker.prototype.shouldExecute({filePath})` (lines 25-36). -/
def CacheBacker.shouldExecute (self : CacheBacker) (filePath : String) : Bool :=
  if !self.isEnabled then true
  else
    let descriptor := self.fileCache filePath
    let meta : DescriptorMeta := descriptor.meta.getD { hashOfConfig := none }
    let isNotChanged := descriptor.changed || decide (meta.hashOfConfig ≠ some self.hashOfConfig)
    isNotChanged


/-- A lint result: the path of the file and its messages. -/
structure TextlintResult where
  filePath : String
  messages : List TextlintMessage
deriving DecidableEq

/-- What `fs.statSync` reports of a file, as far as `file-entry-cache` compares it. -/
structure FileStat where
  size : Nat
  mtime : Nat
deriving DecidableEq

/-- A metadata object of `file-entry-cache`: the size and modification time it recorded for
the file, and the properties added by the user of the store (here `hashOfConfig`). -/
structure CacheMeta where
  stat : FileStat
  props : DescriptorMeta
deriving DecidableEq

/-- The store created by `fileEntryCache.create(config.cacheLocation)` (line 15), a package
outside the repository, with the state its operations act on: `cache` holds the metadata
object kept in memory under each file path (the object of `flat-cache`), `normalizedEntries`
the metadata object of the descriptor handed out for each path since the store was created,
with `entryNames` the own keys of that object, `saved` is the content of the cache file on
disk, which only `save` writes, and `fs` is the file system (`none`: `fs.statSync` throws). A
metadata object present under the same path in `cache` and in `normalizedEntries` is one
shared JavaScript object. -/
structure FileEntryCache where
  cache : String → Option CacheMeta
  normalizedEntries : String → Option CacheMeta
  entryNames : List String
  saved : String → Option CacheMeta
  fs : String → Option FileStat

/-- `removeNotFoundFiles()` of the package: the paths whose file cannot be read are removed
from the metadata kept in memory. -/
def FileEntryCache.removeNotFoundFiles (s : FileEntryCache) : String → Option CacheMeta :=
  fun file =>
    match s.fs file with
    | none => none
    | some _ => s.cache file

/-- `fileEntryCache.create(cacheId)`: the metadata are loaded from the cache file, no
descriptor is handed out yet, and the paths whose file cannot be read are removed. -/
def FileEntryCache.create (saved : String → Option CacheMeta) (fs : String → Option FileStat) :
    FileEntryCache :=
  { cache := fun file =>
      match fs file with
      | none => none
      | some _ => saved file
    normalizedEntries := fun _ => none
    entryNames := []
    saved := saved
    fs := fs }

/-- `fileCache.removeEntry(entryName)`: `delete normalizedEntries[entryName]` and
`cache.removeKey(entryName)`. The cache file is not written. -/
def FileEntryCache.removeEntry (s : FileEntryCache) (entryName : String) : FileEntryCache :=
  { s with
    normalizedEntries := Function.update s.normalizedEntries entryName none
    entryNames := s.entryNames.filter (fun name => name ≠ entryName)
    cache := Function.update s.cache entryName none }

/-- `fileCache.getFileDescriptor(file)`: the descriptor returned and the store after the call.
A file that cannot be read loses its entry and gets `{key, notFound: true, err}`, which has
neither `changed` nor `meta`. A file without metadata in memory gets a new metadata object and
`changed: true`; a file with metadata gets that object, and `changed` tells whether its size
or modification time differ from the recorded ones. In both cases the descriptor is kept
under `normalizedEntries[file]`. -/
def FileEntryCache.getFileDescriptor (s : FileEntryCache) (file : String) :
    FileDescriptor × FileEntryCache :=
  match s.fs file with
  | none => ({ changed := false, meta := none }, s.removeEntry file)
  | some fstat =>
    let entryNames := if file ∈ s.entryNames then s.entryNames else s.entryNames ++ [file]
    match s.cache file with
    | none =>
      let meta : CacheMeta := { stat := fstat, props := { hashOfConfig := none } }
      ({ changed := true, meta := some meta.props },
       { s with
         normalizedEntries := Function.update s.normalizedEntries file (some meta)
         entryNames := entryNames })
    | some meta =>
      ({ changed := decide (fstat.mtime ≠ meta.stat.mtime) || decide (fstat.size ≠ meta.stat.size),
         meta := some meta.props },
       { s with
         normalizedEntries := Function.update s.normalizedEntries file (some meta)
         entryNames := entryNames })

/-- The assignment `meta.hashOfConfig = hash` on the metadata object of the descriptor last
handed out for `file`: the object is the one under `normalizedEntries`, and the one under
`cache` when the path has metadata in memory. -/
def FileEntryCache.assignHashOfConfig (s : FileEntryCache) (file : String) (hash : String) :
    FileEntryCache :=
  let assign : Option CacheMeta → Option CacheMeta :=
    Option.map (fun meta => { meta with props := { hashOfConfig := some hash } })
  { s with
    normalizedEntries := Function.update s.normalizedEntries file (assign (s.normalizedEntries file))
    cache := Function.update s.cache file (assign (s.cache file)) }

/-- `fileCache.reconcile()`: paths whose file is gone are removed from the metadata in
memory; when no descriptor is handed out (`Object.keys(normalizedEntries).length === 0`) the
function returns there, and the cache file is not written. Otherwise, for every descriptor
handed out whose file can be read, its metadata object, with the current size and
modification time assigned to it, is set under the path, and the metadata in memory are saved
to the cache file. -/
def FileEntryCache.reconcile (s : FileEntryCache) : FileEntryCache :=
  if s.entryNames.length = 0 then { s with cache := s.removeNotFoundFiles }
  else
    let updated : String → Option CacheMeta := fun file =>
      match s.normalizedEntries file, s.fs file with
      | some meta, some fstat => some { meta with stat := fstat }
      | _, _ => none
    let cache : String → Option CacheMeta := fun file =>
      match s.fs file with
      | none => none
      | some _ => (updated file).orElse (fun _ => s.cache file)
    { s with
      cache := cache
      normalizedEntries := fun file =>
        (updated file).orElse (fun _ => s.normalizedEntries file)
      saved := cache }

/-- A `CacheBacker` object with its store as a state (lines 10-20). -/
structure CacheBackerState where
  isEnabled : Bool
  fileCache : FileEntryCache
  hashOfConfig : String

/-- The constructor of `CacheBacker` (lines 10-20), for a cache file with the content `saved`
and the file system `fs`: `config.cache`, the store created from the cache file, and
`config.hash`. -/
def CacheBackerState.create (cache : Bool) (hash : String) (saved : String → Option CacheMeta)
    (fs : String → Option FileStat) : CacheBackerState :=
  { isEnabled := cache
    fileCache := FileEntryCache.create saved fs
    hashOfConfig := hash }

/-- The backer as `shouldExecute` reads it: the store seen through `getFileDescriptor`. -/
def CacheBackerState.view (self : CacheBackerState) : CacheBacker :=
  { isEnabled := self.isEnabled
    fileCache := fun filePath => (self.fileCache.getFileDescriptor filePath).1
    hashOfConfig := self.hashOfConfig }

/-- `CacheBacker.prototype.didExecute({result})` (lines 40-61): the backer after the call.
`meta = descriptor.meta || {}` is the metadata object of the store when the descriptor has
one, and otherwise a new object that nothing else holds, so that assigning to it leaves the
store as it is. -/
def CacheBackerState.didExecute (self : CacheBackerState) (result : TextlintResult) :
    CacheBackerState :=
  if !self.isEnabled then self
  else
    let filePath := result.filePath
    let got := self.fileCache.getFileDescriptor filePath
    let descriptor := got.1
    let fileCache := got.2
    if result.messages.length > 0 then
      { self with fileCache := fileCache.removeEntry filePath }
    else
      match descriptor.meta with
      | some _ => { self with fileCache := fileCache.assignHashOfConfig filePath self.hashOfConfig }
      | none => { self with fileCache := fileCache }

/-- `CacheBacker.prototype.afterAll()` (lines 68-71): the store is reconciled. -/
def CacheBackerState.afterAll (self : CacheBackerState) : CacheBackerState :=
  { self with fileCache := self.fileCache.reconcile }

/-- The file system of the examples: the file `a.md` (size 10, modification time 5) and no
other file. -/
def exampleFs : String → Option FileStat :=
  fun file => if file = "a.md" then some { size := 10, mtime := 5 } else none

/-- A cache file that holds `recorded` for `a.md` and nothing else. -/
def exampleSaved (recorded : Option CacheMeta) : String → Option CacheMeta :=
  fun file => if file = "a.md" then recorded else none

/-- A store for the example file `a.md` (size 10, modification time 5): `recorded` is the
metadata recorded for it, in memory as in the cache file, no descriptor has been handed out,
and no other file exists. -/
def exampleStore (recorded : Option CacheMeta) : FileEntryCache :=
  { cache := fun file => if file = "a.md" then recorded else none
    normalizedEntries := fun _ => none
    entryNames := []
    saved := exampleSaved recorded
    fs := fun file => if file = "a.md" then some { size := 10, mtime := 5 } else none }

/-! ## execute-file-backer-manager.js -/

/-- A backer, as far as the control flow of `process` depends on it: its answer to
`shouldExecute({filePath})`. What `didExecute` and `afterAll` do is the backer's own; the
calls made to them are recorded. -/
structure AbstractBacker where
  shouldExecute : String → Bool

/-- A call made by `process`: to a method of a backer, given by its position in `_backers`,
or to the lint function `executeFile`. -/
inductive Call where
  | shouldExecute (backer : Nat) (filePath : String)
  | executeFile (filePath : String)
  | didExecute (backer : Nat) (result : TextlintResult)
  | afterAll (backer : Nat)
deriving DecidableEq

/-- The file of a call to the lint function. -/
def Call.executedFile : Call → Option String
  | Call.executeFile filePath => some filePath
  | _ => none

/-- The result passed by a call to `didExecute` of the backer at position `backer`. -/
def Call.didExecuteResult (backer : Nat) : Call → Option TextlintResult
  | Call.didExecute i result => if i = backer then some result else none
  | _ => none

/-- The call is a call to `afterAll`. -/
def Call.isAfterAll : Call → Bool
  | Call.afterAll _ => true
  | _ => false

/-- The call is a call to `didExecute`. -/
def Call.isDidExecute : Call → Bool
  | Call.didExecute _ _ => true
  | _ => false

/-- The manager object (lines 10-13): the array `_backers`, in registration order. -/
structure ExecuteFileBackerManager where
  backers : List AbstractBacker

/-- The placeholder of `_createFakeResult(filePath)` (lines 71-76). -/
def ExecuteFileBackerManager.createFakeResult (filePath : String) : TextlintResult :=
  { filePath := filePath, messages := [] }

/-- `_backers.every(backer => backer.shouldExecute({filePath}))` (lines 39-41) on the backers
from position `index` on: the answer, and the calls made. `every` stops at the first backer
that answers false. -/
def everyShouldExecute (filePath : String) : Nat → List AbstractBacker → Bool × List Call
  | _, [] => (true, [])
  | index, backer :: rest =>
    if backer.shouldExecute filePath then
      ((everyShouldExecute filePath (index + 1) rest).1,
       Call.shouldExecute index filePath :: (everyShouldExecute filePath (index + 1) rest).2)
    else (false, [Call.shouldExecute index filePath])

/-- A run of `process`: the calls made, in order (a ghost record); the array
`unExecutedResults`; and the value with which the returned promise is fulfilled (`none`: the
promise is rejected). -/
structure ProcessRun where
  calls : List Call
  unExecutedResults : List TextlintResult
  results : Option (List TextlintResult)

/-- `ExecuteFileBackerManager.prototype.process(files, executeFile)` (lines 34-64).
`executeFile filePath` is the outcome of the promise returned by the lint function (`none`: it
is rejected). `completion` is the order in which the lint tasks settle, which the scheduler
decides: it rearranges the list of the started tasks. The callback of a fulfilled task calls
`didExecute` on every backer in turn; `afterAll` is called on every backer when `Promise.all`
is fulfilled, that is, when no task is rejected. `Promise.all` is fulfilled with the values of
the promises in the order of the array `resultPromises`, whatever the order in which they
settle. -/
def ExecuteFileBackerManager.process (self : ExecuteFileBackerManager)
    (completion : List (String × Option TextlintResult) → List (String × Option TextlintResult))
    (files : List String) (executeFile : String → Option TextlintResult) : ProcessRun :=
  let n := self.backers.length
  let gate := files.map (fun filePath => (filePath, everyShouldExecute filePath 0 self.backers))
  let executed := (gate.filter (fun g => g.2.1)).map (fun g => g.1)
  let unExecutedResults := (gate.filter (fun g => !g.2.1)).map
    (fun g => ExecuteFileBackerManager.createFakeResult g.1)
  let gateCalls := (gate.map (fun g => g.2.2)).flatten
  let tasks := executed.map (fun filePath => (filePath, executeFile filePath))
  let lintCalls := executed.map Call.executeFile
  let didExecuteCalls := ((completion tasks).map (fun task =>
    match task.2 with
    | some result => (List.range n).map (fun i => Call.didExecute i result)
    | none => [])).flatten
  let fulfilled := tasks.all (fun task => task.2.isSome)
  let afterAllCalls := if fulfilled then (List.range n).map Call.afterAll else []
  let results := if fulfilled then some (tasks.filterMap (fun task => task.2) ++ unExecutedResults)
    else none
  { calls := gateCalls ++ lintCalls ++ didExecuteCalls ++ afterAllCalls
    unExecutedResults := unExecutedResults
    results := results }

/-- The backer at position 0 skips `b.md`, the backer at position 1 skips nothing. -/
def exampleBackers : List AbstractBacker :=
  [{ shouldExecute := fun filePath => filePath != "b.md" }, { shouldExecute := fun _ => true }]

/-- A lint function that finds one message in `a.md` and none elsewhere. -/
def exampleLint (filePath : String) : Option TextlintResult :=
  some { filePath := filePath, messages := if filePath = "a.md" then [plainMessage 1 1] else [] }

/-- The files that pass the gate of `process`: every backer answers true. -/
def executedFiles (self : ExecuteFileBackerManager) (files : List String) : List String :=
  files.filter (fun filePath => self.backers.all (fun backer => backer.shouldExecute filePath))

/-- The files that do not pass the gate of `process`: some backer answers false. -/
def skippedFiles (self : ExecuteFileBackerManager) (files : List String) : List String :=
  files.filter (fun filePath => !self.backers.all (fun backer => backer.shouldExecute filePath))

/-- The calls of `didExecute` made by the callbacks of the settled tasks, `n` backers. -/
def didExecuteCalls (n : Nat) (settled : List (String × Option TextlintResult)) : List Call :=
  (settled.map (fun task =>
    match task.2 with
    | some result => (List.range n).map (fun i => Call.didExecute i result)
    | none => [])).flatten

/-! ## config.js -/

/-- The values of `arr` that are not in `seen`, each at its first occurrence only. With
`seen = []` this is `arr` with duplicates removed, keeping the first occurrence. -/
def uniqueFrom (seen : List String) : List String → List String
  | [] => []
  | x :: xs => if x ∈ seen then uniqueFrom seen xs else x :: uniqueFrom (x :: seen) xs

/-- The array index that a property key names in JavaScript, if any: the key is the canonical
decimal numeral (digits only, no leading zero) of an integer below `2^32 - 1`. -/
def arrayIndex (key : String) : Option Nat :=
  match key.toList with
  | [] => none
  | first :: rest =>
    if (first :: rest).all Char.isDigit && (first != '0' || rest.isEmpty) then
      let n := (first :: rest).foldl (fun acc digit => 10 * acc + (digit.toNat - 48)) 0
      if n < 4294967295 then some n else none
    else none

/-- The assignment `index[item] = item` on an ordinary object, given by the list of its own
keys in the order of their creation: a new key is created last, an existing key keeps its
place, and the key `__proto__` is not created, since the assignment goes to the setter of
`Object.prototype`, which ignores a string. -/
def indexAssign (ownKeys : List String) (item : String) : List String :=
  if item = "__proto__" then ownKeys
  else if item ∈ ownKeys then ownKeys
  else ownKeys ++ [item]

/-- The own keys of an ordinary object in the order in which JavaScript enumerates them
(`Object.keys`, `for in`): the keys that are array indices in ascending numeric order, then
the other keys in the order of their creation. -/
def enumerateKeys (ownKeys : List String) : List String :=
  (ownKeys.filter (fun key => (arrayIndex key).isSome)).insertionSort
      (fun a b => (arrayIndex a).getD 0 ≤ (arrayIndex b).getD 0) ++
    ownKeys.filter (fun key => (arrayIndex key).isNone)

/-- `concat(arr1, arr2)` of the package `unique-concat` (line 9), which is outside the
repository, on arrays of strings: every item of `arr1`, then every item of `arr2`, is stored
in an index object under its own name, and the array returned holds the values of the object
in the order in which its keys are enumerated. The value under a key is the string that names
it. -/
def uniqueConcat (arr1 arr2 : List String) : List String :=
  enumerateKeys ((arr1 ++ arr2).foldl indexAssign [])

/-- The options object given to `Config` (`TextlintConfig`), without the three maps
`rulesConfig`, `filterRulesConfig` and `pluginsConfig`. `none` stands for a property that is
absent or `undefined`. -/
structure TextlintConfig where
  configFile : Option String := none
  rulesBaseDirectory : Option String := none
  rules : Option (List String) := none
  disabledRules : Option (List String) := none
  filterRules : Option (List String) := none
  disabledFilterRules : Option (List String) := none
  presets : Option (List String) := none
  plugins : Option (List String) := none
  extensions : Option (List String) := none
  rulePaths : Option (List String) := none
  formatterName : Option String := none
  quiet : Option Bool := none
  color : Option Bool := none
  cache : Option Bool := none
  cacheLocation : Option String := none
deriving DecidableEq

/-- The fields that the `Config` constructor sets (lines 99-191), without the three maps. -/
structure Config where
  configFile : Option String
  rulesBaseDirectory : Option String
  rules : List String
  disabledRules : List String
  filterRules : List String
  disabledFilterRules : List String
  presets : List String
  plugins : List String
  extensions : List String
  rulePaths : List String
  formatterName : Option String
  quiet : Bool
  color : Bool
  cache : Bool
  cacheLocation : String
deriving DecidableEq

/-- What the `Config` constructor asks of its surroundings: `path.isAbsolute`; whether
`loadRulesConfigFromPresets` returns for a list of presets (it throws when a preset cannot be
resolved); the extensions that `loadAvailableExtensions` returns for a list of plugins
(`none`: it throws); whether `fs.lstatSync` finds a directory at a path; and the default of
`cacheLocation`, `path.resolve(process.cwd(), ".textlintcache")`. -/
structure ConfigEnv where
  isAbsolute : String → Bool
  presetsResolve : List String → Bool
  loadAvailableExtensions : List String → Option (List String)
  isDirectory : String → Bool
  defaultCacheLocation : String

/-- The ways in which the `Config` constructor throws. -/
inductive ConfigError where
  | configFileNotAbsolute
  | moduleNotFound
  | cacheLocationIsDirectory
deriving DecidableEq

/-- The value of `s ? s : undefined` for an optional string: the empty string is falsy. -/
def truthyString (s : Option String) : Option String :=
  s.filter (fun value => value != "")

/-- The constructor `new Config(options)` (lines 99-191), with the defaults of `defaultOptions`
(lines 48-90). -/
def Config.create (env : ConfigEnv) (options : TextlintConfig) : Except ConfigError Config :=
  let configFile := options.configFile
  if (truthyString configFile).any (fun file => !env.isAbsolute file) then
    Except.error ConfigError.configFileNotAbsolute
  else
    let rulesBaseDirectory := truthyString options.rulesBaseDirectory
    let rules := options.rules.getD []
    let disabledRules := options.disabledRules.getD []
    let filterRules := options.filterRules.getD []
    let disabledFilterRules := options.disabledFilterRules.getD []
    let presets := options.presets.getD []
    let plugins := options.plugins.getD []
    if !env.presetsResolve presets then Except.error ConfigError.moduleNotFound
    else
      let extensions := options.extensions.getD []
      match env.loadAvailableExtensions plugins with
      | none => Except.error ConfigError.moduleNotFound
      | some additionalExtensions =>
        let extensions := extensions ++ additionalExtensions
        let rulePaths := options.rulePaths.getD []
        let formatterName := truthyString options.formatterName
        let quiet := options.quiet.getD false
        let color := options.color.getD true
        let cache := options.cache.getD false
        let cacheLocation := options.cacheLocation.getD env.defaultCacheLocation
        if env.isDirectory cacheLocation then Except.error ConfigError.cacheLocationIsDirectory
        else
          Except.ok
            { configFile := configFile
              rulesBaseDirectory := rulesBaseDirectory
              rules := rules
              disabledRules := disabledRules
              filterRules := filterRules
              disabledFilterRules := disabledFilterRules
              presets := presets
              plugins := plugins
              extensions := extensions
              rulePaths := rulePaths
              formatterName := formatterName
              quiet := quiet
              color := color
              cache := cache
              cacheLocation := cacheLocation }

/-- What `initWithAutoLoading` takes from the config file (lines 297-308): the path found by
`loadConfig`, the lists that `separateAvailableOrDisable` makes of the `rules` and `filters`
of the file, and the plugin names given by `getPluginNames`. These functions are not among
the source files; their values are taken as given. -/
structure LoadedConfigFile where
  filePath : Option String := none
  rulesAvailable : List String := []
  rulesDisable : List String := []
  presets : List String := []
  filterRulesAvailable : List String := []
  filterRulesDisable : List String := []
  plugins : List String := []
deriving DecidableEq

/-- `Config.initWithAutoLoading(options)` (lines 286-345), without the three maps: the lists of
the call site and of the config file are merged with `concat`, and the constructor is called
with the merged options. -/
def Config.initWithAutoLoading (env : ConfigEnv) (options : TextlintConfig)
    (loaded : LoadedConfigFile) : Except ConfigError Config :=
  let optionRules := options.rules.getD []
  let optionFilterRules := options.filterRules.getD []
  let optionDisabledRules := options.disabledRules.getD []
  let optionDisabledFilterRules := options.disabledFilterRules.getD []
  let optionPlugins := options.plugins.getD []
  let optionPresets := options.presets.getD []
  let rules := uniqueConcat optionRules loaded.rulesAvailable
  let disabledRules := uniqueConcat optionDisabledRules loaded.rulesDisable
  let filterRules := uniqueConcat optionFilterRules loaded.filterRulesAvailable
  let disabledFilterRules := uniqueConcat optionDisabledFilterRules loaded.filterRulesDisable
  let plugins := uniqueConcat optionPlugins loaded.plugins
  let presets := uniqueConcat optionPresets loaded.presets
  let mergedOptions : TextlintConfig :=
    { options with
      rules := some rules
      disabledRules := some disabledRules
      filterRules := some filterRules
      disabledFilterRules := some disabledFilterRules
      plugins := some plugins
      presets := some presets
      configFile := loaded.filePath }
  Config.create env mergedOptions

/-- Surroundings in which every path is absolute, every module resolves, plugins add no
extension, and no path is a directory. -/
def exampleEnv : ConfigEnv :=
  { isAbsolute := fun _ => true
    presetsResolve := fun _ => true
    loadAvailableExtensions := fun _ => some []
    isDirectory := fun _ => false
    defaultCacheLocation := "/cwd/.textlintcache" }

/-! ## SeverityLevel.js and textlint-engine-core.js -/

/-- `SeverityLevel.none` (line 10). -/
def SeverityLevel.none : Int := 0

/-- `SeverityLevel.info` (line 11). -/
def SeverityLevel.info : Int := 0

/-- `SeverityLevel.warning` (line 12). -/
def SeverityLevel.warning : Int := 1

/-- `SeverityLevel.error` (line 13). -/
def SeverityLevel.error : Int := 2

/-- The variables of the loop of Node's `path.extname` (POSIX), which scans the path from its
last code unit to its first; `stop` is the variable `end`, and `done` tells that the loop was
left by `break`. -/
structure ExtnameLoop where
  i : Int
  startDot : Int
  startPart : Int
  stop : Int
  matchedSlash : Bool
  preDotState : Int
  done : Bool
deriving DecidableEq

/-- One iteration of the loop of `path.extname` on the code unit `code` at index `i`. -/
def extnameStep (st : ExtnameLoop) (code : Char) : ExtnameLoop :=
  if st.done then st
  else
    let next := { st with i := st.i - 1 }
    if code = '/' then
      if !st.matchedSlash then { next with startPart := st.i + 1, done := true } else next
    else
      let next := if st.stop = -1 then { next with matchedSlash := false, stop := st.i + 1 }
        else next
      if code = '.' then
        if next.startDot = -1 then { next with startDot := st.i }
        else if next.preDotState ≠ 1 then { next with preDotState := 1 } else next
      else if next.startDot ≠ -1 then { next with preDotState := -1 } else next

/-- `path.extname(path)` of Node (a builtin, POSIX flavour): the extension of the last portion
of the path, from its last `.` to its end, and the empty string when that portion has no `.`,
or none but a leading one. -/
def extname (path : JSString) : JSString :=
  let st := path.reverse.foldl extnameStep
    { i := (path.length : Int) - 1, startDot := -1, startPart := 0, stop := -1,
      matchedSlash := true, preDotState := 0, done := false }
  if st.startDot = -1 ∨ st.stop = -1 ∨ st.preDotState = 0 ∨
      (st.preDotState = 1 ∧ st.startDot = st.stop - 1 ∧ st.startDot = st.startPart + 1) then []
  else (path.take st.stop.toNat).drop st.startDot.toNat

deriving instance DecidableEq for Except

/-- `TextLintEngineCore.prototype.executeOnText(text, ext)` (lines 214-230). `execText` is the
lint function `executor.onText(textlint)` or `textlint.lintText`, given by the outcome of the
promise it returns (`none`: rejected). The value is the error thrown, or the outcome of the
promise returned. `ext = none` stands for an argument that is `undefined`. -/
def executeOnText (execText : JSString → JSString → Option TextlintResult) (text : JSString)
    (ext : Option JSString) : Except String (Option (List TextlintResult)) :=
  let ext := ext.getD ".txt".toList
  let actualExt := if ext.head? = some '.' then ext else extname ext
  if actualExt.length = 0 then Except.error "should specify the extension.\nex) .md"
  else Except.ok ((execText text actualExt).map (fun result => [result]))

/-- `TextLintEngineCore.prototype.isErrorMessage(message)` (lines 253-255). -/
def isErrorMessage (message : TextlintMessage) : Bool :=
  decide (message.severity = SeverityLevel.error)

/-- `TextLintEngineCore.prototype.isErrorResults(results)` (lines 262-267). -/
def isErrorResults (results : List TextlintResult) : Bool :=
  results.any (fun result => result.messages.any isErrorMessage)

/-- Modelled from the spec: the registry `RuleMap` of `./rule-map`, which is not among the
source files. The spec's data model has a registry as a map from a name to an executable
handle that is populated by load events and may be reset; here the handle is a name. -/
structure RuleMap where
  rules : List (String × String)
deriving DecidableEq

/-- Modelled from the spec: `RuleMap.defineRule(ruleName, ruleCreator)`, which registers the
handle under the name. -/
def RuleMap.defineRule (self : RuleMap) (ruleName ruleCreator : String) : RuleMap :=
  { rules := self.rules.filter (fun entry => entry.1 != ruleName) ++ [(ruleName, ruleCreator)] }

/-- Modelled from the spec: `RuleMap.resetRules()`, which resets the registry to empty. -/
def RuleMap.resetRules (_self : RuleMap) : RuleMap :=
  { rules := [] }

/-- The properties of a `TextLintEngineCore` that `resetRules` reads. `textlintRules` stands
for the rules set up in the `TextLintCore` object `this.textlint`. `filerRuleMap` is the
property of that name, which `resetRules` reads (line 179) and which no code assigns: the
constructor assigns `ruleMap` (line 77) and `filterRuleMap` (line 82). `none` stands for
`undefined`. -/
structure TextLintEngineCore where
  textlintRules : RuleMap
  ruleMap : RuleMap
  filterRuleMap : RuleMap
  filerRuleMap : Option RuleMap
deriving DecidableEq

/-- The registries after the constructor (lines 37-109): the module loader announces the
rules and the filter rules of the config, each is defined in its registry (lines 93-100), and
`_setupRules` hands the rules to `this.textlint`. -/
def TextLintEngineCore.create (rules filterRules : List (String × String)) :
    TextLintEngineCore :=
  let ruleMap := rules.foldl (fun map rule => map.defineRule rule.1 rule.2) { rules := [] }
  let filterRuleMap :=
    filterRules.foldl (fun map rule => map.defineRule rule.1 rule.2) { rules := [] }
  { textlintRules := ruleMap
    ruleMap := ruleMap
    filterRuleMap := filterRuleMap
    filerRuleMap := none }

/-- `TextLintEngineCore.prototype.resetRules()` (lines 176-180): the engine when the call ends,
and the error thrown, if any. Reading `resetRules` of `this.filerRuleMap` throws a `TypeError`
when that property is `undefined`. -/
def TextLintEngineCore.resetRules (self : TextLintEngineCore) :
    TextLintEngineCore × Option String :=
  let self := { self with textlintRules := self.textlintRules.resetRules }
  let self := { self with ruleMap := self.ruleMap.resetRules }
  match self.filerRuleMap with
  | none => (self, some "TypeError: this.filerRuleMap is undefined")
  | some filerRuleMap => ({ self with filerRuleMap := some filerRuleMap.resetRules }, none)

/-! ## The insertion sort meets the assumptions on `Array.prototype.sort` -/

theorem insertFromRight_perm {α : Type} (cmp : α → α → Int) (element : α) (l : List α) :
    (insertFromRight cmp element l).Perm (element :: l) := by
  induction l with
  | nil => simp [insertFromRight]
  | cons tmp rest ih =>
    unfold insertFromRight
    split
    · exact (ih.cons tmp).trans (List.Perm.swap _ _ _)
    · exact List.Perm.refl _

theorem insertFold_perm {α : Type} (cmp : α → α → Int) (a acc : List α) :
    (a.foldl (fun sortedRev element => insertFromRight cmp element sortedRev) acc).Perm
      (a ++ acc) := by
  induction a generalizing acc with
  | nil => simp
  | cons x xs ih =>
    simp only [List.foldl_cons]
    refine (ih _).trans ?_
    refine ((insertFromRight_perm cmp x acc).append_left xs).trans ?_
    simp

theorem insertionSort_perm {α : Type} (cmp : α → α → Int) (a : List α) :
    (insertionSort cmp a).Perm a := by
  unfold insertionSort
  refine (List.reverse_perm _).trans ?_
  simpa using insertFold_perm cmp a []

theorem insertFromRight_sorted {α : Type} (cmp : α → α → Int) (element : α) (acc : List α)
    (hacc : acc.Pairwise (fun x y => cmp y x ≤ 0))
    (hanti : ∀ t ∈ acc, 0 < cmp t element → cmp element t ≤ 0)
    (htrans : ∀ x ∈ acc, ∀ y ∈ acc, cmp x y ≤ 0 → cmp y element ≤ 0 → cmp x element ≤ 0) :
    (insertFromRight cmp element acc).Pairwise (fun x y => cmp y x ≤ 0) := by
  induction acc with
  | nil => simp [insertFromRight]
  | cons tmp rest ih =>
    rw [List.pairwise_cons] at hacc
    unfold insertFromRight
    split
    · rename_i hlt
      rw [List.pairwise_cons]
      refine ⟨?_, ih hacc.2 (fun t ht => hanti t (List.mem_cons_of_mem _ ht))
        (fun x hx y hy => htrans x (List.mem_cons_of_mem _ hx) y (List.mem_cons_of_mem _ hy))⟩
      intro z hz
      rcases List.mem_cons.1 ((insertFromRight_perm cmp element rest).subset hz) with rfl | hz
      · exact hanti tmp (List.mem_cons_self _ _) hlt
      · exact hacc.1 z hz
    · rename_i hlt
      rw [List.pairwise_cons]
      refine ⟨?_, List.pairwise_cons.2 hacc⟩
      intro z hz
      rcases List.mem_cons.1 hz with rfl | hz
      · exact not_lt.1 hlt
      · exact htrans z (List.mem_cons_of_mem _ hz) tmp (List.mem_cons_self _ _)
          (hacc.1 z hz) (not_lt.1 hlt)

theorem insertFold_sorted {α : Type} (cmp : α → α → Int) (a acc : List α)
    (hacc : acc.Pairwise (fun x y => cmp y x ≤ 0))
    (ha : a.Pairwise (fun x y => (0 < cmp x y → cmp y x ≤ 0) ∧ (0 < cmp y x → cmp x y ≤ 0)))
    (hcross : ∀ x ∈ acc, ∀ y ∈ a, 0 < cmp x y → cmp y x ≤ 0)
    (htrans : ∀ x ∈ a ++ acc, ∀ y ∈ a ++ acc, ∀ z ∈ a ++ acc,
      cmp x y ≤ 0 → cmp y z ≤ 0 → cmp x z ≤ 0) :
    (a.foldl (fun sortedRev element => insertFromRight cmp element sortedRev) acc).Pairwise
      (fun x y => cmp y x ≤ 0) := by
  induction a generalizing acc with
  | nil => simpa using hacc
  | cons el rest ih =>
    simp only [List.foldl_cons]
    rw [List.pairwise_cons] at ha
    have hmem : ∀ x, x ∈ insertFromRight cmp el acc ↔ x = el ∨ x ∈ acc := fun x => by
      rw [(insertFromRight_perm cmp el acc).mem_iff, List.mem_cons]
    apply ih
    · apply insertFromRight_sorted cmp el acc hacc
      · intro t ht; exact hcross t ht el (List.mem_cons_self _ _)
      · intro x hx y hy
        exact htrans x (by simp [hx]) y (by simp [hy]) el (by simp)
    · exact ha.2
    · intro x hx y hy
      rcases (hmem x).1 hx with rfl | hx
      · exact (ha.1 y hy).1
      · exact hcross x hx y (List.mem_cons_of_mem _ hy)
    · intro x hx y hy z hz
      have key : ∀ w, w ∈ rest ++ insertFromRight cmp el acc → w ∈ el :: rest ++ acc := by
        intro w hw
        rcases List.mem_append.1 hw with h | h
        · simp [h]
        · rcases (hmem w).1 h with rfl | h <;> simp [*]
      exact htrans x (key x hx) y (key y hy) z (key z hz)

theorem insertionSort_sorted {α : Type} (cmp : α → α → Int) (a : List α)
    (h : Consistent cmp a) : (insertionSort cmp a).Pairwise (fun x y => cmp x y ≤ 0) := by
  unfold insertionSort
  rw [List.pairwise_reverse]
  apply insertFold_sorted cmp a [] List.Pairwise.nil
    (h.1.imp (fun hxy => ⟨fun h1 => by omega, fun h1 => by omega⟩))
  · intro x hx; simp at hx
  · intro x hx y hy z hz
    simp only [List.append_nil] at hx hy hz
    exact h.2 x hx y hy z hz

/-- The straight insertion sort meets the assumptions made of `Array.prototype.sort`. -/
theorem insertionSort_isSort : IsSort insertionSort :=
  ⟨fun cmp l => insertionSort_perm cmp l, fun cmp l h => insertionSort_sorted cmp l h⟩

/-! ## The loop of `applyFixes` -/

/-- An invariant of the loop body that holds before `fixes.forEach` holds after it. -/
theorem foldl_applyFix_inv (P : FixLoop → Prop) (l : List TextlintMessage)
    (hstep : ∀ st, ∀ x ∈ l, P st → P (applyFix st x)) :
    ∀ st, P st → P (l.foldl applyFix st) := by
  induction l with
  | nil => intro st h; simpa using h
  | cons x xs ih =>
    intro st h
    simp only [List.foldl_cons]
    exact ih (fun st y hy => hstep st y (List.mem_cons_of_mem _ hy)) _
      (hstep st x (List.mem_cons_self _ _) h)

theorem sort_singleton {sortFn : SortFn} (hs : IsSort sortFn)
    (cmp : TextlintMessage → TextlintMessage → Int) (m : TextlintMessage) :
    sortFn cmp [m] = [m] :=
  List.perm_singleton.1 (hs.perm cmp [m])

theorem sort_nil {sortFn : SortFn} (hs : IsSort sortFn)
    (cmp : TextlintMessage → TextlintMessage → Int) : sortFn cmp [] = [] :=
  List.perm_nil.1 (hs.perm cmp [])

theorem mem_sort_fixes {sortFn : SortFn} (hs : IsSort sortFn)
    (messages : List TextlintMessage) (m : TextlintMessage) :
    m ∈ sortFn compareFixes (messages.filter (fun problem => problem.fix.isSome)) ↔
      m ∈ messages ∧ m.fix.isSome = true := by
  rw [(hs.perm _ _).mem_iff, List.mem_filter]

/-- The accepting branch of the loop body when neither BOM case applies. -/
theorem applyFix_accept (st : FixLoop) (problem : TextlintMessage) (f : TextlintFixCommand)
    (hf : problem.fix = some f) (h : f.range.2 < st.lastFixPos) (h0 : 0 ≤ f.range.1)
    (hb : ¬ (f.range.1 = 0 ∧ f.text.head? = some BOM)) :
    applyFix st problem =
      { chars := (splice st.chars f.range.1 (f.range.2 - f.range.1) f.text).1
        lastFixPos := f.range.1
        prefixBOM := st.prefixBOM
        applyingMessages := st.applyingMessages ++
          [{ problem with
             fix := some { range := (f.range.1, f.range.1 + f.text.length),
                           text := (splice st.chars f.range.1 (f.range.2 - f.range.1)
                             f.text).2.flatten } }]
        remainingMessages := st.remainingMessages
        accepted := st.accepted ++ [problem] } := by
  have h0' : ¬ f.range.1 < 0 := not_lt.2 h0
  by_cases hs : f.range.1 = 0
  · have hb' : ¬ f.text.head? = some BOM := fun hh => hb ⟨hs, hh⟩
    simp [applyFix, hf, h, h0', hs, hb']
  · simp [applyFix, hf, h, h0', hs]

theorem flatten_map_singleton (l : List Char) : (l.map (fun c => [c])).flatten = l := by
  induction l with
  | nil => rfl
  | cons x xs ih => simp [List.flatten, ih]

/-- Splicing inside the part of the array that still holds one code unit per element. -/
theorem splice_singles (text : JSString) (q s e : Nat) (rest : List JSString) (ins : JSString)
    (hse : s ≤ e) (heq : e ≤ q) (hq : q ≤ text.length) :
    splice ((text.take q).map (fun c => [c]) ++ rest) (s : Int) ((e : Int) - s) ins =
      ((text.take s).map (fun c => [c]) ++
        (ins :: (((text.take q).drop e).map (fun c => [c]) ++ rest)),
       ((text.take e).drop s).map (fun c => [c])) := by
  have hlen : ((text.take q).map (fun c => [c]) ++ rest).length = q + rest.length := by
    simp [hq]
  have h1 : ¬ ((s : Int) < 0) := by omega
  have hs : (min (s : Int) ((q + rest.length : Nat) : Int)).toNat = s := by
    rw [min_eq_left (by push_cast; omega)]; simp
  have hd : (min (max ((e : Int) - s) 0) (((q + rest.length : Nat) : Int) - (s : Nat))).toNat
      = e - s := by
    rw [max_eq_left (by omega), min_eq_left (by push_cast; omega)]; omega
  unfold splice
  simp only [hlen, h1, if_false, hs, hd]
  have hse' : s + (e - s) = e := by omega
  rw [hse']
  have ht : ((text.take q).map (fun c => [c])).length = q := by simp [hq]
  congr 1
  · congr 1
    · rw [List.take_append_of_le_length (by rw [ht]; omega), ← List.map_take,
        List.take_take, min_eq_left (by omega)]
    · congr 1
      rw [List.drop_append_of_le_length (by rw [ht]; omega), List.map_drop]
  · rw [List.drop_append_of_le_length (by rw [ht]; omega),
      List.take_append_of_le_length (by simp; omega), ← List.map_drop, ← List.map_take]
    congr 1
    rw [List.take_drop, List.take_take]
    congr 2
    omega


theorem replaceFrom_snoc (pos hi : Nat) (text : JSString) (l : List TextlintFixCommand)
    (f : TextlintFixCommand) :
    replaceFrom pos hi text (l ++ [f]) =
      replaceFrom pos f.range.1.toNat text l ++ f.text ++ (text.take hi).drop f.range.2.toNat := by
  induction l generalizing pos with
  | nil => simp [replaceFrom]
  | cons g gs ih => simp [replaceFrom, ih]

/-- The loop of `applyFixes` on fixes that lie inside the untouched part `[0, q)` of the text,
each strictly to the left of the ones before it: every fix is applied, and the array of
strings spells the text with the ranges replaced. -/
theorem foldl_applyFix_descending (text : JSString) :
    ∀ (d : List TextlintMessage) (st : FixLoop) (q : Nat) (rest : List JSString),
      st.chars = (text.take q).map (fun c => [c]) ++ rest → q ≤ text.length →
      (∀ m ∈ d, ∃ f, m.fix = some f ∧ 0 ≤ f.range.1 ∧ f.range.1 ≤ f.range.2 ∧
        f.range.2 ≤ q ∧ f.range.2 < st.lastFixPos ∧ f.text.head? ≠ some BOM) →
      d.Pairwise (fun x y => ∀ fx fy, x.fix = some fx → y.fix = some fy →
        fy.range.2 < fx.range.1) →
      (d.foldl applyFix st).chars.flatten =
          replaceFrom 0 q text (d.reverse.filterMap (fun m => m.fix)) ++ rest.flatten ∧
        (d.foldl applyFix st).accepted = st.accepted ++ d ∧
        (d.foldl applyFix st).remainingMessages = st.remainingMessages ∧
        (d.foldl applyFix st).prefixBOM = st.prefixBOM ∧
        (d.foldl applyFix st).applyingMessages.length = st.applyingMessages.length + d.length := by
  intro d
  induction d with
  | nil =>
    intro st q rest hc _ _ _
    simp [hc, replaceFrom]
    rw [← List.map_take, flatten_map_singleton]
  | cons m d ih =>
    intro st q rest hc hq hall hpw
    obtain ⟨f, hf, h0, hse, heq, hlt, hbom⟩ := hall m (List.mem_cons_self _ _)
    rw [List.pairwise_cons] at hpw
    obtain ⟨s, hs⟩ : ∃ s : Nat, f.range.1 = (s : Int) := ⟨f.range.1.toNat, by omega⟩
    obtain ⟨e, he⟩ : ∃ e : Nat, f.range.2 = (e : Int) := ⟨f.range.2.toNat, by omega⟩
    have hse' : s ≤ e := by omega
    have heq' : e ≤ q := by omega
    have hstep := applyFix_accept st m f hf hlt h0 (fun h => hbom h.2)
    rw [hc, hs, he, splice_singles text q s e rest f.text hse' heq' hq] at hstep
    simp only [List.foldl_cons]
    have hIH := ih (applyFix st m) s
      (f.text :: (((text.take q).drop e).map (fun c => [c]) ++ rest))
      (by rw [hstep]) (by omega)
      (by
        intro m' hm'
        obtain ⟨f', hf', h0', hse2, heq2, _, hbom'⟩ := hall m' (List.mem_cons_of_mem _ hm')
        have := hpw.1 m' hm' f f' hf hf'
        refine ⟨f', hf', h0', hse2, by omega, ?_, hbom'⟩
        rw [hstep]; simp only; omega)
      hpw.2
    obtain ⟨h1, h2, h3, h4, h5⟩ := hIH
    refine ⟨?_, ?_, ?_, ?_, ?_⟩
    · rw [h1, List.reverse_cons, List.filterMap_append]
      simp only [List.filterMap_cons, hf, List.filterMap_nil]
      rw [replaceFrom_snoc]
      simp [hs, he]
      rw [← List.map_take, ← List.map_drop, flatten_map_singleton]
    · rw [h2, hstep]; simp
    · rw [h3, hstep]
    · rw [h4, hstep]
    · rw [h5, hstep]; simp; omega


theorem filter_isSome_of_all (messages : List TextlintMessage)
    (hfix : ∀ m ∈ messages, m.fix.isSome = true) :
    messages.filter (fun problem => problem.fix.isSome) = messages ∧
      messages.filter (fun problem => problem.fix.isNone) = [] := by
  constructor
  · exact List.filter_eq_self.2 hfix
  · rw [List.filter_eq_nil_iff]
    intro m hm
    have := hfix m hm
    cases h : m.fix <;> simp_all

/-- The comparator of `fixes.sort` is consistent on fixes that are pairwise strictly
separated, and a list ordered by it then runs from right to left in the text. -/
theorem compareFixes_consistent (l : List TextlintMessage)
    (hall : ∀ m ∈ l, ∃ f, m.fix = some f ∧ f.range.1 ≤ f.range.2)
    (hsep : l.Pairwise (fun x y => ∀ fx fy, x.fix = some fx → y.fix = some fy →
      fx.range.2 < fy.range.1 ∨ fy.range.2 < fx.range.1)) :
    Consistent compareFixes l := by
  have hsymm : Symmetric (fun x y : TextlintMessage => ∀ fx fy, x.fix = some fx →
      y.fix = some fy → fx.range.2 < fy.range.1 ∨ fy.range.2 < fx.range.1) := by
    intro x y h fy fx hy hx
    exact (h fx fy hx hy).symm
  constructor
  · refine hsep.imp_of_mem ?_
    intro x y hx hy h
    obtain ⟨fx, hfx, hx1⟩ := hall x hx
    obtain ⟨fy, hfy, hy1⟩ := hall y hy
    have := h fx fy hfx hfy
    simp only [compareFixes, hfx, hfy]
    constructor <;> constructor <;> intro h1 <;> split at h1 <;> split <;> omega
  · intro x hx y hy z hz hxy hyz
    obtain ⟨fx, hfx, hx1⟩ := hall x hx
    obtain ⟨fy, hfy, hy1⟩ := hall y hy
    obtain ⟨fz, hfz, hz1⟩ := hall z hz
    by_cases exy : x = y
    · subst exy; exact hyz
    by_cases eyz : y = z
    · subst eyz; exact hxy
    have h1 := hsep.forall hsymm hx hy exy fx fy hfx hfy
    have h2 := hsep.forall hsymm hy hz eyz fy fz hfy hfz
    simp only [compareFixes, hfx, hfy, hfz] at hxy hyz ⊢
    split at hxy <;> split at hyz <;> split <;> omega

theorem compareFixes_le_zero (x y : TextlintMessage) (fx fy : TextlintFixCommand)
    (hx : x.fix = some fx) (hy : y.fix = some fy) (h : compareFixes x y ≤ 0) :
    fy.range.1 < fx.range.2 := by
  simp only [compareFixes, hx, hy] at h
  split at h <;> omega


/-- The loop of `applyFixes`, from its initial state, on messages that all carry a fix, whose
fixes lie in the text, are pairwise strictly separated and do not begin with a BOM: the
processing order is the right-to-left arrangement, every fix is applied and the array spells
the text with the ranges replaced. -/
theorem applyFixesLoop_separated (sortFn : SortFn) (hs : IsSort sortFn) (text : JSString)
    (hasBOM : Bool) (messages : List TextlintMessage) (asc : List TextlintFixCommand)
    (hfix : ∀ m ∈ messages, m.fix.isSome = true)
    (hperm : (messages.filterMap (fun m => m.fix)).Perm asc)
    (hsep : asc.Pairwise (fun a b => a.range.2 < b.range.1))
    (hrange : ∀ f ∈ asc, 0 ≤ f.range.1 ∧ f.range.1 ≤ f.range.2 ∧ f.range.2 ≤ text.length)
    (hbom : ∀ f ∈ asc, f.text.head? ≠ some BOM) :
    (applyFixesLoop sortFn ⟨text, hasBOM⟩ messages).chars.flatten = replaceRanges text asc ∧
      (applyFixesLoop sortFn ⟨text, hasBOM⟩ messages).accepted =
        sortFn compareFixes messages ∧
      (applyFixesLoop sortFn ⟨text, hasBOM⟩ messages).remainingMessages = [] ∧
      (applyFixesLoop sortFn ⟨text, hasBOM⟩ messages).prefixBOM =
        (if hasBOM then [BOM] else []) ∧
      (applyFixesLoop sortFn ⟨text, hasBOM⟩ messages).applyingMessages.length =
        messages.length := by
  obtain ⟨hfil, hnone⟩ := filter_isSome_of_all messages hfix
  have hmemfix : ∀ m ∈ messages, ∃ f, m.fix = some f ∧ f ∈ asc := by
    intro m hm
    have := hfix m hm
    cases h : m.fix with
    | none => simp [h] at this
    | some f =>
      exact ⟨f, rfl, hperm.subset (List.mem_filterMap.2 ⟨m, hm, h⟩)⟩
  -- separation, position-wise on the messages
  have hsepM : messages.Pairwise (fun x y => ∀ fx fy, x.fix = some fx → y.fix = some fy →
      fx.range.2 < fy.range.1 ∨ fy.range.2 < fx.range.1) := by
    have h1 : asc.Pairwise (fun a b => a.range.2 < b.range.1 ∨ b.range.2 < a.range.1) :=
      hsep.imp (fun h => Or.inl h)
    have h2 := (hperm.pairwise_iff (R := fun a b : TextlintFixCommand =>
      a.range.2 < b.range.1 ∨ b.range.2 < a.range.1) (fun h => h.symm)).2 h1
    rw [List.pairwise_filterMap] at h2
    exact h2.imp (fun h fx fy hx hy => h fx (by simp [hx]) fy (by simp [hy]))
  have hcons : Consistent compareFixes messages :=
    compareFixes_consistent messages
      (fun m hm => by
        obtain ⟨f, hf, hfa⟩ := hmemfix m hm
        exact ⟨f, hf, (hrange f hfa).2.1⟩) hsepM
  have hp := hs.perm compareFixes messages
  have hsorted := hs.sorted compareFixes messages hcons
  have hsepD : (sortFn compareFixes messages).Pairwise (fun x y => ∀ fx fy,
      x.fix = some fx → y.fix = some fy →
      fx.range.2 < fy.range.1 ∨ fy.range.2 < fx.range.1) :=
    (hp.pairwise_iff (fun h fx fy hx hy => (h fy fx hy hx).symm)).2 hsepM
  have hdesc : (sortFn compareFixes messages).Pairwise (fun x y => ∀ fx fy,
      x.fix = some fx → y.fix = some fy → fy.range.2 < fx.range.1) := by
    refine (hsorted.and hsepD).imp_of_mem ?_
    intro x y hx hy h fx fy hfx hfy
    have h1 := compareFixes_le_zero x y fx fy hfx hfy h.1
    have h2 := h.2 fx fy hfx hfy
    obtain ⟨f, hf, hfa⟩ := hmemfix y (hp.subset hy)
    have := (hrange f hfa).2.1
    rw [hfy] at hf
    cases hf
    omega
  have hmain := foldl_applyFix_descending text (sortFn compareFixes messages)
    { chars := text.map (fun c => [c]), lastFixPos := (text.length : Int) + 1,
      prefixBOM := if hasBOM then [BOM] else [], applyingMessages := [],
      remainingMessages := [], accepted := [] }
    text.length [] (by simp) le_rfl
    (by
      intro m hm
      obtain ⟨f, hf, hfa⟩ := hmemfix m (hp.subset hm)
      obtain ⟨h1, h2, h3⟩ := hrange f hfa
      exact ⟨f, hf, h1, h2, h3, by simp only; omega, hbom f hfa⟩)
    hdesc
  have hloop : applyFixesLoop sortFn ⟨text, hasBOM⟩ messages =
      (sortFn compareFixes messages).foldl applyFix
        { chars := text.map (fun c => [c]), lastFixPos := (text.length : Int) + 1,
          prefixBOM := if hasBOM then [BOM] else [], applyingMessages := [],
          remainingMessages := [], accepted := [] } := by
    simp only [applyFixesLoop, hfil, hnone]
  rw [hloop]
  obtain ⟨h1, h2, h3, h4, h5⟩ := hmain
  refine ⟨?_, by simpa using h2, h3, h4, by simpa [hp.length_eq] using h5⟩
  rw [h1]
  simp only [List.flatten_nil, List.append_nil, replaceRanges]
  congr 1
  -- the reversed processing order is the left-to-right arrangement
  have hpermR : ((sortFn compareFixes messages).reverse.filterMap (fun m => m.fix)).Perm asc :=
    (((List.reverse_perm _).trans hp).filterMap _).trans hperm
  have hascR : ((sortFn compareFixes messages).reverse.filterMap (fun m => m.fix)).Pairwise
      (fun a b => a.range.2 < b.range.1) := by
    rw [List.pairwise_filterMap, List.pairwise_reverse]
    exact hdesc.imp (fun h fy hy fx hx => h fx fy (by simpa using hx) (by simpa using hy))
  refine List.Perm.eq_of_sorted ?_ hascR hsep hpermR
  intro a b ha hb hab hba
  have := (hrange a (hpermR.subset ha)).2.1
  have := (hrange b hb).2.1
  omega


/-- The branch of `applyFixes` taken when some message carries a fix. -/
theorem applyFixes_of_fix (sortFn : SortFn) (sourceCode : SourceCode)
    (messages : List TextlintMessage)
    (h : (messages.filter (fun problem => problem.fix.isSome)).length ≠ 0) :
    applyFixes sortFn sourceCode messages =
      { fixed := true
        messages := messages
        applyingMessages := (applyFixesLoop sortFn sourceCode messages).applyingMessages.reverse
        remainingMessages := sortFn compareMessagesByLocation
          (applyFixesLoop sortFn sourceCode messages).remainingMessages
        output := (applyFixesLoop sortFn sourceCode messages).prefixBOM ++
          (applyFixesLoop sortFn sourceCode messages).chars.flatten } := by
  unfold applyFixes
  exact if_pos h

/-- The branch of `applyFixes` taken when no message carries a fix. -/
theorem applyFixes_of_no_fix (sortFn : SortFn) (sourceCode : SourceCode)
    (messages : List TextlintMessage)
    (h : ¬ (messages.filter (fun problem => problem.fix.isSome)).length ≠ 0) :
    applyFixes sortFn sourceCode messages =
      { fixed := false
        messages := messages
        applyingMessages := []
        remainingMessages := messages.filter (fun problem => problem.fix.isNone)
        output := (if sourceCode.hasBOM then [BOM] else []) ++ sourceCode.text } := by
  unfold applyFixes
  exact if_neg h

theorem filter_isSome_length_ne_zero (messages : List TextlintMessage) :
    (messages.filter (fun problem => problem.fix.isSome)).length ≠ 0 ↔
      ∃ m ∈ messages, m.fix.isSome = true := by
  rw [Nat.ne_zero_iff_zero_lt, List.length_pos, ne_eq, List.filter_eq_nil_iff]
  push_neg
  rfl

theorem fixSatisfies_some {p : TextlintFixCommand → Prop} {m : TextlintMessage}
    {f : TextlintFixCommand} (hf : m.fix = some f) : fixSatisfies p m ↔ p f := by
  simp [fixSatisfies, hf]

/-- What the accepting branch of the loop body does to the cursor and to the lists. -/
theorem applyFix_of_lt (st : FixLoop) (problem : TextlintMessage) (f : TextlintFixCommand)
    (hf : problem.fix = some f) (h : f.range.2 < st.lastFixPos) :
    (applyFix st problem).accepted = st.accepted ++ [problem] ∧
      (applyFix st problem).lastFixPos = (if f.range.1 < 0 then 0 else f.range.1) ∧
      (applyFix st problem).remainingMessages = st.remainingMessages ∧
      (applyFix st problem).applyingMessages.map withoutFix =
        st.applyingMessages.map withoutFix ++ [withoutFix problem] := by
  simp [applyFix, hf, h, withoutFix]

/-- What the rejecting branch of the loop body does to the cursor and to the lists. -/
theorem applyFix_of_not_lt (st : FixLoop) (problem : TextlintMessage) (f : TextlintFixCommand)
    (hf : problem.fix = some f) (h : ¬ f.range.2 < st.lastFixPos) :
    (applyFix st problem).accepted = st.accepted ∧
      (applyFix st problem).lastFixPos = st.lastFixPos ∧
      (applyFix st problem).remainingMessages = st.remainingMessages ++ [problem] ∧
      (applyFix st problem).applyingMessages = st.applyingMessages ∧
      (applyFix st problem).chars = st.chars ∧
      (applyFix st problem).prefixBOM = st.prefixBOM := by
  simp [applyFix, hf, h]

theorem applyFix_of_none (st : FixLoop) (problem : TextlintMessage) (hf : problem.fix = none) :
    applyFix st problem = st := by
  simp [applyFix, hf]

/-- The ghost list `accepted` and `applyingMessages` hold the same messages, apart from the
rewritten `fix`. -/
theorem applyFix_ghost (st : FixLoop) (problem : TextlintMessage)
    (h : st.applyingMessages.map withoutFix = st.accepted.map withoutFix) :
    (applyFix st problem).applyingMessages.map withoutFix =
      (applyFix st problem).accepted.map withoutFix := by
  cases hf : problem.fix with
  | none => rw [applyFix_of_none st problem hf]; exact h
  | some f =>
    by_cases hlt : f.range.2 < st.lastFixPos
    · obtain ⟨h1, _, _, h4⟩ := applyFix_of_lt st problem f hf hlt
      rw [h4, h1, h]; simp
    · obtain ⟨h1, _, _, h4, _⟩ := applyFix_of_not_lt st problem f hf hlt
      rw [h4, h1, h]

theorem applyFixesLoop_ghost (sortFn : SortFn) (sourceCode : SourceCode)
    (messages : List TextlintMessage) :
    (applyFixesLoop sortFn sourceCode messages).applyingMessages.map withoutFix =
      (applyFixesLoop sortFn sourceCode messages).accepted.map withoutFix := by
  unfold applyFixesLoop
  exact foldl_applyFix_inv
    (fun st => st.applyingMessages.map withoutFix = st.accepted.map withoutFix) _
    (fun st x _ h => applyFix_ghost st x h) _ rfl

/-- The messages that `applyFixes` returns in `applyingMessages` are, apart from the rewritten
`fix`, the accepted problems in the order of the text. -/
theorem applyingMessages_eq_accepted (sortFn : SortFn) (sourceCode : SourceCode)
    (messages : List TextlintMessage) :
    (applyFixes sortFn sourceCode messages).applyingMessages.map withoutFix =
      (acceptedFixes sortFn sourceCode messages).reverse.map withoutFix := by
  by_cases h : (messages.filter (fun problem => problem.fix.isSome)).length ≠ 0
  · rw [applyFixes_of_fix sortFn sourceCode messages h, acceptedFixes, if_pos h]
    simp only [List.map_reverse, applyFixesLoop_ghost]
  · rw [applyFixes_of_no_fix sortFn sourceCode messages h, acceptedFixes, if_neg h]
    rfl

/-- Loop invariant behind C1: the accepted fixes do not overlap pairwise, and each starts at
or after the cursor unless the cursor is at `0`. -/
theorem applyFix_noOverlap (st : FixLoop) (problem : TextlintMessage)
    (hp : fixSatisfies (fun f => f.range.1 ≤ f.range.2 ∧ 0 ≤ f.range.2) problem)
    (h : st.accepted.Pairwise (fun a b => ¬ fixesOverlap a b) ∧
      ∀ a ∈ st.accepted, ∀ fa, a.fix = some fa →
        st.lastFixPos ≤ fa.range.1 ∨ st.lastFixPos ≤ 0) :
    (applyFix st problem).accepted.Pairwise (fun a b => ¬ fixesOverlap a b) ∧
      ∀ a ∈ (applyFix st problem).accepted, ∀ fa, a.fix = some fa →
        (applyFix st problem).lastFixPos ≤ fa.range.1 ∨ (applyFix st problem).lastFixPos ≤ 0 := by
  cases hf : problem.fix with
  | none => rw [applyFix_of_none st problem hf]; exact h
  | some f =>
    rw [fixSatisfies_some hf] at hp
    by_cases hlt : f.range.2 < st.lastFixPos
    · obtain ⟨h1, h2, _, _⟩ := applyFix_of_lt st problem f hf hlt
      rw [h1, h2]
      constructor
      · rw [List.pairwise_append]
        refine ⟨h.1, List.pairwise_singleton _ _, ?_⟩
        intro a ha b hb
        rw [List.mem_singleton] at hb
        subst hb
        cases hfa : a.fix with
        | none => simp [fixesOverlap, hfa]
        | some fa =>
          have := h.2 a ha fa hfa
          simp only [fixesOverlap, hfa, hf, overlaps]
          omega
      · intro a ha fa hfa
        rcases List.mem_append.1 ha with ha | ha
        · have := h.2 a ha fa hfa
          split <;> omega
        · rw [List.mem_singleton] at ha
          subst ha
          rw [hf] at hfa
          cases hfa
          split <;> omega
    · obtain ⟨h1, h2, _⟩ := applyFix_of_not_lt st problem f hf hlt
      rw [h1, h2]; exact h


/-- The loop body never removes an accepted problem. -/
theorem applyFix_accepted_ne_nil (st : FixLoop) (problem : TextlintMessage)
    (h : st.accepted ≠ []) : (applyFix st problem).accepted ≠ [] := by
  cases hf : problem.fix with
  | none => rw [applyFix_of_none st problem hf]; exact h
  | some f =>
    by_cases hlt : f.range.2 < st.lastFixPos
    · rw [(applyFix_of_lt st problem f hf hlt).1]; simp
    · rw [(applyFix_of_not_lt st problem f hf hlt).1]; exact h

/-- When every fix ends inside the text, the first fix processed is accepted, so some fix is
accepted as soon as one message carries a fix. -/
theorem applyFixesLoop_accepted_ne_nil (sortFn : SortFn) (hs : IsSort sortFn)
    (sourceCode : SourceCode) (messages : List TextlintMessage)
    (hex : (messages.filter (fun problem => problem.fix.isSome)).length ≠ 0)
    (hend : ∀ m ∈ messages, fixSatisfies (fun f => f.range.2 ≤ sourceCode.text.length) m) :
    (applyFixesLoop sortFn sourceCode messages).accepted ≠ [] := by
  unfold applyFixesLoop
  simp only
  have hp := hs.perm compareFixes (messages.filter (fun problem => problem.fix.isSome))
  cases hsorted : sortFn compareFixes (messages.filter (fun problem => problem.fix.isSome)) with
  | nil =>
    rw [hsorted] at hp
    exact absurd (by rw [← hp.length_eq]; rfl) hex
  | cons x xs =>
    have hx := (mem_sort_fixes hs messages x).1 (by rw [hsorted]; exact List.mem_cons_self _ _)
    simp only [List.foldl_cons]
    apply foldl_applyFix_inv (fun st => st.accepted ≠ []) xs
      (fun st y _ h => applyFix_accepted_ne_nil st y h)
    cases hf : x.fix with
    | none => rw [hf] at hx; simp at hx
    | some f =>
      have h1 := hend x hx.1
      rw [fixSatisfies_some hf] at h1
      rw [(applyFix_of_lt _ x f hf (by simp only; omega)).1]
      simp


/-- The loop of `applyFixes` on a single message that carries a fix. -/
theorem applyFixesLoop_single (sortFn : SortFn) (hs : IsSort sortFn) (sourceCode : SourceCode)
    (m : TextlintMessage) (hm : m.fix.isSome = true) :
    applyFixesLoop sortFn sourceCode [m] =
      applyFix
        { chars := sourceCode.text.map (fun c => [c])
          lastFixPos := (sourceCode.text.length : Int) + 1
          prefixBOM := if sourceCode.hasBOM then [BOM] else []
          applyingMessages := []
          remainingMessages := []
          accepted := [] } m := by
  have h1 : [m].filter (fun problem => problem.fix.isSome) = [m] := by simp [hm]
  have h2 : [m].filter (fun problem => problem.fix.isNone) = [] := by
    cases h : m.fix <;> simp_all
  simp only [applyFixesLoop, h1, h2, sort_singleton hs, List.foldl_cons, List.foldl_nil]


theorem SourceCode.create_of_no_bom (text : JSString) (h : text.head? ≠ some BOM) :
    SourceCode.create text = ⟨text, false⟩ := by
  simp [SourceCode.create, h]

/-- The output of `applyFixes` for one message whose fix lies in the text and does not begin
with a BOM, on a source without BOM: the range is replaced. -/
theorem applyFixes_single_output (sortFn : SortFn) (hs : IsSort sortFn) (text : JSString)
    (m : TextlintMessage) (f : TextlintFixCommand) (hf : m.fix = some f)
    (h0 : 0 ≤ f.range.1) (hse : f.range.1 ≤ f.range.2) (hlen : f.range.2 ≤ text.length)
    (hbom : f.text.head? ≠ some BOM) :
    (applyFixes sortFn ⟨text, false⟩ [m]).output =
      text.take f.range.1.toNat ++ f.text ++ text.drop f.range.2.toNat := by
  have hsome : ∀ x ∈ [m], x.fix.isSome = true := by
    intro x hx; rw [List.mem_singleton] at hx; subst hx; simp [hf]
  obtain ⟨h1, _, _, h4, _⟩ := applyFixesLoop_separated sortFn hs text false [m] [f] hsome
    (by simp [hf]) (List.pairwise_singleton _ _)
    (by intro g hg; rw [List.mem_singleton] at hg; subst hg; exact ⟨h0, hse, hlen⟩)
    (by intro g hg; rw [List.mem_singleton] at hg; subst hg; exact hbom)
  rw [applyFixes_of_fix _ _ _ (by simp [hf])]
  simp only [h1, h4]
  simp [replaceRanges, replaceFrom]

theorem drop_eq_drop_take_append (T : JSString) (e q : Nat) (h : e ≤ q) :
    T.drop e = (T.take q).drop e ++ T.drop q := by
  conv_lhs => rw [← List.take_append_drop q T]
  by_cases hq : q ≤ T.length
  · rw [List.drop_append_of_le_length (by rw [List.length_take]; omega)]
  · have h1 : T.take q = T := List.take_of_length_le (by omega)
    have h2 : T.drop q = [] := List.drop_of_length_le (by omega)
    rw [h1, h2]
    simp

/-- The loop of `sequentiallyApplyFixes` on fixes listed from right to left, each strictly to
the left of the ones before it, all inside the part `[0, q)` of the current text that is
still the original text. -/
theorem sequential_descending (sortFn : SortFn) (hs : IsSort sortFn) (text : JSString) :
    ∀ (d : List TextlintMessage) (T : JSString) (q : Nat),
      q ≤ text.length → q ≤ T.length → T.take q = text.take q →
      (d = [] ∨ T.head? ≠ some BOM) →
      (∀ m ∈ d, ∃ f, m.fix = some f ∧ 0 ≤ f.range.1 ∧ f.range.1 ≤ f.range.2 ∧
        f.range.2 ≤ q ∧ f.text.head? ≠ some BOM) →
      d.Pairwise (fun x y => ∀ fx fy, x.fix = some fx → y.fix = some fy →
        fy.range.2 < fx.range.1) →
      d.foldl
          (fun text message => (applyFixes sortFn (SourceCode.create text) [message]).output) T
        = replaceFrom 0 q text (d.reverse.filterMap (fun m => m.fix)) ++ T.drop q := by
  intro d
  induction d with
  | nil =>
    intro T q _ _ hT _ _ _
    simp only [List.foldl_nil, List.reverse_nil, List.filterMap_nil, replaceFrom, List.drop_zero]
    rw [← hT, List.take_append_drop]
  | cons m d ih =>
    intro T q hq hqT hT hhead hall hpw
    obtain ⟨f, hf, h0, hse, heq, hbom⟩ := hall m (List.mem_cons_self _ _)
    rw [List.pairwise_cons] at hpw
    have hTh : T.head? ≠ some BOM := by
      rcases hhead with h | h
      · simp at h
      · exact h
    obtain ⟨s, hs'⟩ : ∃ s : Nat, f.range.1 = (s : Int) := ⟨f.range.1.toNat, by omega⟩
    obtain ⟨e, he⟩ : ∃ e : Nat, f.range.2 = (e : Int) := ⟨f.range.2.toNat, by omega⟩
    have hstep := applyFixes_single_output sortFn hs T m f hf h0 hse (by omega) hbom
    simp only [hs', he, Int.toNat_ofNat] at hstep
    simp only [List.foldl_cons, SourceCode.create_of_no_bom T hTh, hstep]
    have hsT : s ≤ T.length := by omega
    have htake : (T.take s ++ f.text ++ T.drop e).take s = text.take s := by
      rw [List.append_assoc, List.take_append_of_le_length (by rw [List.length_take]; omega),
        List.take_take, min_eq_left (le_refl s)]
      have : T.take s = (T.take q).take s := by
        rw [List.take_take, min_eq_left (by omega)]
      rw [this, hT, List.take_take, min_eq_left (by omega)]
    have hdrop : (T.take s ++ f.text ++ T.drop e).drop s = f.text ++ T.drop e := by
      rw [List.append_assoc, List.drop_append_of_le_length (by rw [List.length_take]; omega)]
      have : (T.take s).drop s = [] := List.drop_of_length_le (by rw [List.length_take]; omega)
      rw [this, List.nil_append]
    rw [ih (T.take s ++ f.text ++ T.drop e) s (by omega)
      (by simp only [List.length_append, List.length_take]; omega) htake
      (by
        by_cases hd : d = []
        · exact Or.inl hd
        · right
          obtain ⟨m', hm'⟩ := List.exists_mem_of_ne_nil d hd
          obtain ⟨f', hf', h0', hse2, _, _⟩ := hall m' (List.mem_cons_of_mem _ hm')
          have := hpw.1 m' hm' f f' hf hf'
          have hspos : 0 < s := by omega
          cases T with
          | nil => simp at hsT; omega
          | cons c cs =>
            obtain ⟨s', rfl⟩ : ∃ s', s = s' + 1 := ⟨s - 1, by omega⟩
            simpa using hTh)
      (by
        intro m' hm'
        obtain ⟨f', hf', h0', hse2, _, hbom'⟩ := hall m' (List.mem_cons_of_mem _ hm')
        have := hpw.1 m' hm' f f' hf hf'
        exact ⟨f', hf', h0', hse2, by omega, hbom'⟩)
      hpw.2]
    rw [hdrop, List.reverse_cons, List.filterMap_append]
    simp only [List.filterMap_cons, hf, List.filterMap_nil]
    rw [replaceFrom_snoc]
    simp only [hs', he, Int.toNat_ofNat, List.append_assoc]
    rw [drop_eq_drop_take_append T e q (by omega), hT]


theorem fixBefore_some {a b : TextlintMessage} {fa fb : TextlintFixCommand}
    (ha : a.fix = some fa) (hb : b.fix = some fb) :
    fixBefore a b ↔ fa.range.2 < fb.range.1 := by
  simp [fixBefore, ha, hb]

/-- Unfolding of the hypotheses "every message carries a fix that lies in the text and whose
replacement text does not begin with a BOM". -/
theorem exists_fix_of_hyps (n : Nat) (l : List TextlintMessage)
    (hfix : ∀ m ∈ l, m.fix.isSome = true) (hrange : ∀ m ∈ l, fixInText n m)
    (hbom : ∀ m ∈ l, fixTextNoBOM m) :
    ∀ m ∈ l, ∃ f, m.fix = some f ∧ 0 ≤ f.range.1 ∧ f.range.1 ≤ f.range.2 ∧
      f.range.2 ≤ n ∧ f.text.head? ≠ some BOM := by
  intro m hm
  have h1 := hfix m hm
  cases hf : m.fix with
  | none => simp [hf] at h1
  | some f =>
    have h2 := hrange m hm
    have h3 := hbom m hm
    simp only [fixInText, fixTextNoBOM, fixSatisfies_some hf] at h2 h3
    exact ⟨f, rfl, h2.1, h2.2.1, h2.2.2, h3⟩


theorem perm_pair {α : Type} {l : List α} {a b : α} (h : l.Perm [a, b]) :
    l = [a, b] ∨ l = [b, a] := by
  have hlen := h.length_eq
  match l, hlen with
  | [x, y], _ =>
    have hx : x ∈ [a, b] := h.subset (List.mem_cons_self _ _)
    simp only [List.mem_cons, List.mem_singleton, List.not_mem_nil, or_false] at hx
    rcases hx with rfl | rfl
    · left
      have := List.perm_singleton.1 (List.Perm.cons_inv h)
      simp_all
    · right
      have h2 : [x, y].Perm [x, a] := h.trans (List.Perm.swap _ _ _)
      have := List.perm_singleton.1 (List.Perm.cons_inv h2)
      simp_all

/-- The order in which `applyFixes` processes two abutting fixes `[a,b]` and `[b,c]`: the
comparator is consistent on them, and the right one comes first. -/
theorem sort_abutting (sortFn : SortFn) (hs : IsSort sortFn) (mA mB : TextlintMessage)
    (fA fB : TextlintFixCommand) (hA : mA.fix = some fA) (hB : mB.fix = some fB)
    (hAse : fA.range.1 < fA.range.2) (hab : fA.range.2 = fB.range.1)
    (hBse : fB.range.1 < fB.range.2) (l : List TextlintMessage)
    (hl : l = [mA, mB] ∨ l = [mB, mA]) :
    sortFn compareFixes l = [mB, mA] := by
  have hcAA : compareFixes mA mA = -1 := by simp [compareFixes, hA]; omega
  have hcBB : compareFixes mB mB = -1 := by simp [compareFixes, hB]; omega
  have hcAB : compareFixes mA mB = 1 := by simp [compareFixes, hA, hB]; omega
  have hcBA : compareFixes mB mA = -1 := by simp [compareFixes, hA, hB]; omega
  have hcons : Consistent compareFixes l := by
    constructor
    · rcases hl with rfl | rfl <;> simp [hcAB, hcBA]
    · intro x hx y hy z hz
      have hx' : x = mA ∨ x = mB := by rcases hl with rfl | rfl <;> simp at hx <;> tauto
      have hy' : y = mA ∨ y = mB := by rcases hl with rfl | rfl <;> simp at hy <;> tauto
      have hz' : z = mA ∨ z = mB := by rcases hl with rfl | rfl <;> simp at hz <;> tauto
      rcases hx' with rfl | rfl <;> rcases hy' with rfl | rfl <;> rcases hz' with rfl | rfl <;>
        simp [hcAA, hcBB, hcAB, hcBA]
  have hsorted := hs.sorted compareFixes l hcons
  have hperm : (sortFn compareFixes l).Perm [mB, mA] := by
    refine (hs.perm compareFixes l).trans ?_
    rcases hl with rfl | rfl
    · exact List.Perm.swap _ _ _
    · exact List.Perm.refl _
  rcases perm_pair hperm with h | h
  · exact h
  · rw [h] at hsorted
    simp [hcAB] at hsorted



/-- Two overlapping fixes that lie in the text: whichever of the two the engine's sort puts
first is accepted, and the other is rejected into `remainingMessages`. -/
theorem overlapping_pair_first_processed_wins (sortFn : SortFn) (hs : IsSort sortFn)
    (sourceCode : SourceCode) (x y : TextlintMessage) (fx fy : TextlintFixCommand)
    (hx : x.fix = some fx) (hy : y.fix = some fy)
    (hxr : 0 ≤ fx.range.1 ∧ fx.range.1 ≤ fx.range.2 ∧ fx.range.2 ≤ sourceCode.text.length)
    (hyr : 0 ≤ fy.range.1 ∧ fy.range.1 ≤ fy.range.2 ∧ fy.range.2 ≤ sourceCode.text.length)
    (hov : overlaps fx fy) :
    ∃ p q, sortFn compareFixes [x, y] = [p, q] ∧ (p = x ∧ q = y ∨ p = y ∧ q = x) ∧
      acceptedFixes sortFn sourceCode [x, y] = [p] ∧
      (applyFixes sortFn sourceCode [x, y]).remainingMessages = [q] := by
  have hfil : [x, y].filter (fun problem => problem.fix.isSome) = [x, y] := by simp [hx, hy]
  have hnone : [x, y].filter (fun problem => problem.fix.isNone) = [] := by simp [hx, hy]
  have hlen : ([x, y].filter (fun problem => problem.fix.isSome)).length ≠ 0 := by
    rw [hfil]; simp
  unfold overlaps at hov
  have key : ∀ p q fp fq, p.fix = some fp → q.fix = some fq →
      0 ≤ fp.range.1 → fp.range.2 ≤ (sourceCode.text.length : Int) →
      fp.range.1 < fq.range.2 →
      sortFn compareFixes [x, y] = [p, q] →
      acceptedFixes sortFn sourceCode [x, y] = [p] ∧
        (applyFixes sortFn sourceCode [x, y]).remainingMessages = [q] := by
    intro p q fp fq hp hq h0 hlenp hlt hsort
    have hloop : applyFixesLoop sortFn sourceCode [x, y] =
        applyFix (applyFix
          { chars := sourceCode.text.map (fun c => [c])
            lastFixPos := (sourceCode.text.length : Int) + 1
            prefixBOM := if sourceCode.hasBOM then [BOM] else []
            applyingMessages := [], remainingMessages := [], accepted := [] } p) q := by
      simp only [applyFixesLoop, hfil, hnone, hsort, List.foldl_cons, List.foldl_nil]
    obtain ⟨a1, a2, a3, _⟩ := applyFix_of_lt
      { chars := sourceCode.text.map (fun c => [c])
        lastFixPos := (sourceCode.text.length : Int) + 1
        prefixBOM := if sourceCode.hasBOM then [BOM] else []
        applyingMessages := [], remainingMessages := [], accepted := [] } p fp hp
      (by simp only; omega)
    obtain ⟨b1, _, b3, _⟩ := applyFix_of_not_lt _ q fq hq
      (by rw [a2, if_neg (by omega)]; omega)
    rw [← hloop, a1] at b1
    rw [← hloop, a3] at b3
    constructor
    · rw [acceptedFixes, if_pos hlen, b1]; rfl
    · rw [applyFixes_of_fix _ _ _ hlen]
      simp only [b3, List.nil_append, sort_singleton hs]
  rcases perm_pair (hs.perm compareFixes [x, y]) with h | h
  · exact ⟨x, y, h, Or.inl ⟨rfl, rfl⟩,
      key x y fx fy hx hy hxr.1 hxr.2.2 (by omega) h⟩
  · exact ⟨y, x, h, Or.inr ⟨rfl, rfl⟩,
      key y x fy fx hy hx hyr.1 hyr.2.2 (by omega) h⟩

/-- `compareMessagesByLocation` is consistent on every list. -/
theorem compareMessagesByLocation_consistent (l : List TextlintMessage) :
    Consistent compareMessagesByLocation l := by
  constructor
  · apply List.pairwise_of_forall
    intro x y
    simp only [compareMessagesByLocation]
    constructor <;> constructor <;> intro h <;> split at h <;> split <;> omega
  · intro x _ y _ z _ hxy hyz
    simp only [compareMessagesByLocation] at hxy hyz ⊢
    split at hxy <;> split at hyz <;> split <;> omega

theorem sortedByLocation_sort {sortFn : SortFn} (hs : IsSort sortFn)
    (l : List TextlintMessage) : SortedByLocation (sortFn compareMessagesByLocation l) := by
  unfold SortedByLocation
  refine (hs.sorted compareMessagesByLocation l (compareMessagesByLocation_consistent l)).imp ?_
  intro a b h
  simp only [compareMessagesByLocation] at h
  split at h <;> omega

/-- Whether `applyFixes` accepts the fix of a single message depends on its end offset and on
the length of the text alone. -/
theorem acceptedFixes_single_iff (sortFn : SortFn) (hs : IsSort sortFn) (sourceCode : SourceCode)
    (m : TextlintMessage) (f : TextlintFixCommand) (hf : m.fix = some f) :
    acceptedFixes sortFn sourceCode [m] = [m] ↔ f.range.2 ≤ sourceCode.text.length := by
  have hsome : m.fix.isSome = true := by simp [hf]
  rw [acceptedFixes, if_pos (by simp [hsome]), applyFixesLoop_single sortFn hs _ _ hsome]
  by_cases hlt : f.range.2 < (sourceCode.text.length : Int) + 1
  · rw [(applyFix_of_lt _ m f hf hlt).1]
    simp only [List.nil_append, true_iff]
    omega
  · rw [(applyFix_of_not_lt _ m f hf hlt).1]
    constructor
    · intro h; exact absurd h (by simp)
    · intro h; omega


/-- What `shouldExecute` answers, in terms of the recorded metadata and of the file system. -/
theorem CacheBackerState.shouldExecute_eq (self : CacheBackerState) (filePath : String) :
    self.view.shouldExecute filePath =
      (if !self.isEnabled then true
       else
        match self.fileCache.fs filePath, self.fileCache.cache filePath with
        | none, _ => true
        | some _, none => true
        | some fstat, some meta =>
          (decide (fstat.mtime ≠ meta.stat.mtime) || decide (fstat.size ≠ meta.stat.size)) ||
            decide (meta.props.hashOfConfig ≠ some self.hashOfConfig)) := by
  unfold CacheBacker.shouldExecute CacheBackerState.view FileEntryCache.getFileDescriptor
  cases hfs : self.fileCache.fs filePath with
  | none => simp [hfs]
  | some fstat =>
    cases hc : self.fileCache.cache filePath with
    | none => simp [hfs, hc]
    | some meta => simp [hfs, hc]

/-- The store after `didExecute` for a result with messages. -/
theorem CacheBackerState.didExecute_of_messages (self : CacheBackerState)
    (result : TextlintResult) (henabled : self.isEnabled = true) (hmsg : result.messages ≠ []) :
    (self.didExecute result).isEnabled = true ∧
      (self.didExecute result).hashOfConfig = self.hashOfConfig ∧
      (self.didExecute result).fileCache.fs = self.fileCache.fs ∧
      (self.didExecute result).fileCache.cache result.filePath = none ∧
      (self.didExecute result).fileCache.normalizedEntries result.filePath = none := by
  have hlen : result.messages.length > 0 := List.length_pos.2 hmsg
  unfold CacheBackerState.didExecute
  simp only [henabled, Bool.not_true, Bool.false_eq_true, if_false, hlen, if_true]
  unfold FileEntryCache.getFileDescriptor
  cases hfs : self.fileCache.fs result.filePath with
  | none => simp [hfs, FileEntryCache.removeEntry]
  | some fstat =>
    cases hc : self.fileCache.cache result.filePath with
    | none => simp [hfs, hc, FileEntryCache.removeEntry]
    | some meta => simp [hfs, hc, FileEntryCache.removeEntry]

/-- The store after `didExecute` for a result without message, for a file that can be read. -/
theorem CacheBackerState.didExecute_of_no_message (self : CacheBackerState)
    (result : TextlintResult) (henabled : self.isEnabled = true) (hmsg : result.messages = [])
    (fstat : FileStat) (hfile : self.fileCache.fs result.filePath = some fstat) :
    (self.didExecute result).isEnabled = true ∧
      (self.didExecute result).hashOfConfig = self.hashOfConfig ∧
      (self.didExecute result).fileCache.fs = self.fileCache.fs ∧
      (self.didExecute result).fileCache.cache result.filePath =
        (self.fileCache.cache result.filePath).map
          (fun meta => { meta with props := { hashOfConfig := some self.hashOfConfig } }) ∧
      (self.didExecute result).fileCache.normalizedEntries result.filePath =
        some { stat := ((self.fileCache.cache result.filePath).map (fun meta => meta.stat)).getD
                 fstat
               props := { hashOfConfig := some self.hashOfConfig } } := by
  unfold CacheBackerState.didExecute
  simp only [henabled, Bool.not_true, Bool.false_eq_true, if_false, hmsg, List.length_nil,
    gt_iff_lt, lt_self_iff_false]
  unfold FileEntryCache.getFileDescriptor
  rw [hfile]
  cases hc : self.fileCache.cache result.filePath with
  | none => simp [FileEntryCache.assignHashOfConfig, hc]
  | some meta => simp [FileEntryCache.assignHashOfConfig, hc]


/-- What `afterAll` leaves in memory for a path. -/
theorem CacheBackerState.afterAll_cache (self : CacheBackerState) (filePath : String) :
    self.afterAll.isEnabled = self.isEnabled ∧
      self.afterAll.hashOfConfig = self.hashOfConfig ∧
      self.afterAll.fileCache.fs = self.fileCache.fs ∧
      self.afterAll.fileCache.cache filePath =
        (match self.fileCache.fs filePath with
         | none => none
         | some fstat =>
           if self.fileCache.entryNames.length = 0 then self.fileCache.cache filePath
           else
             match self.fileCache.normalizedEntries filePath with
             | some meta => some { meta with stat := fstat }
             | none => self.fileCache.cache filePath) := by
  have hstate : self.afterAll.fileCache = self.fileCache.reconcile := rfl
  by_cases hk : self.fileCache.entryNames.length = 0
  · have hr : self.fileCache.reconcile =
        { self.fileCache with cache := self.fileCache.removeNotFoundFiles } := by
      unfold FileEntryCache.reconcile
      rw [if_pos hk]
    refine ⟨rfl, rfl, by rw [hstate, hr], ?_⟩
    rw [hstate, hr]
    simp only [FileEntryCache.removeNotFoundFiles, hk, if_true]
  · refine ⟨rfl, rfl, ?_, ?_⟩
    · rw [hstate]
      unfold FileEntryCache.reconcile
      rw [if_neg hk]
    · rw [hstate]
      unfold FileEntryCache.reconcile
      rw [if_neg hk]
      simp only [hk, if_false]
      cases hfs : self.fileCache.fs filePath with
      | none => rfl
      | some fstat =>
        cases hn : self.fileCache.normalizedEntries filePath with
        | none => simp
        | some meta => simp

/-- What `afterAll` writes to the cache file: nothing when no descriptor is handed out, and
the metadata in memory otherwise. -/
theorem CacheBackerState.afterAll_saved (self : CacheBackerState) :
    self.afterAll.fileCache.saved =
      (if self.fileCache.entryNames.length = 0 then self.fileCache.saved
       else self.afterAll.fileCache.cache) := by
  have hstate : self.afterAll.fileCache = self.fileCache.reconcile := rfl
  by_cases hk : self.fileCache.entryNames.length = 0
  · rw [hstate, if_pos hk]
    unfold FileEntryCache.reconcile
    rw [if_pos hk]
  · rw [hstate, if_neg hk]
    unfold FileEntryCache.reconcile
    rw [if_neg hk]

/-- The descriptors handed out and the cache file after `didExecute` for a result with
messages: the descriptor of the file is deleted, and the cache file is as it was. -/
theorem CacheBackerState.didExecute_of_messages_entries (self : CacheBackerState)
    (result : TextlintResult) (henabled : self.isEnabled = true) (hmsg : result.messages ≠ []) :
    (self.didExecute result).fileCache.entryNames =
        self.fileCache.entryNames.filter (fun name => name ≠ result.filePath) ∧
      (self.didExecute result).fileCache.saved = self.fileCache.saved := by
  have hlen : result.messages.length > 0 := List.length_pos.2 hmsg
  unfold CacheBackerState.didExecute
  simp only [henabled, Bool.not_true, Bool.false_eq_true, if_false, hlen, if_true]
  unfold FileEntryCache.getFileDescriptor
  cases hfs : self.fileCache.fs result.filePath with
  | none => simp [hfs, FileEntryCache.removeEntry]
  | some fstat =>
    by_cases hmem : result.filePath ∈ self.fileCache.entryNames
    · cases hc : self.fileCache.cache result.filePath with
      | none => simp [hfs, hc, hmem, FileEntryCache.removeEntry]
      | some meta => simp [hfs, hc, hmem, FileEntryCache.removeEntry]
    · cases hc : self.fileCache.cache result.filePath with
      | none => simp [hfs, hc, hmem, FileEntryCache.removeEntry, List.filter_append]
      | some meta => simp [hfs, hc, hmem, FileEntryCache.removeEntry, List.filter_append]

/-- After `didExecute` for a result without message, for a file that can be read, the
descriptor of the file is among those handed out. -/
theorem CacheBackerState.didExecute_of_no_message_entries (self : CacheBackerState)
    (result : TextlintResult) (henabled : self.isEnabled = true) (hmsg : result.messages = [])
    (fstat : FileStat) (hfile : self.fileCache.fs result.filePath = some fstat) :
    result.filePath ∈ (self.didExecute result).fileCache.entryNames := by
  unfold CacheBackerState.didExecute
  simp only [henabled, Bool.not_true, Bool.false_eq_true, if_false, hmsg, List.length_nil,
    gt_iff_lt, lt_self_iff_false]
  unfold FileEntryCache.getFileDescriptor
  rw [hfile]
  by_cases hmem : result.filePath ∈ self.fileCache.entryNames
  · cases hc : self.fileCache.cache result.filePath with
    | none => simp [FileEntryCache.assignHashOfConfig, hc, hmem]
    | some meta => simp [FileEntryCache.assignHashOfConfig, hc, hmem]
  · cases hc : self.fileCache.cache result.filePath with
    | none => simp [FileEntryCache.assignHashOfConfig, hc, hmem]
    | some meta => simp [FileEntryCache.assignHashOfConfig, hc, hmem]

/-- What `shouldExecute` of a newly constructed backer answers, in terms of the cache file and
of the file system. -/
theorem CacheBackerState.create_shouldExecute (hash : String)
    (saved : String → Option CacheMeta) (fs : String → Option FileStat) (filePath : String) :
    (CacheBackerState.create true hash saved fs).view.shouldExecute filePath =
      (match fs filePath, saved filePath with
       | none, _ => true
       | some _, none => true
       | some fstat, some meta =>
         (decide (fstat.mtime ≠ meta.stat.mtime) || decide (fstat.size ≠ meta.stat.size)) ||
           decide (meta.props.hashOfConfig ≠ some hash)) := by
  rw [CacheBackerState.shouldExecute_eq]
  simp only [CacheBackerState.create, FileEntryCache.create, Bool.not_true, Bool.false_eq_true,
    if_false]
  cases hfs : fs filePath with
  | none => rfl
  | some fstat =>
    cases hs : saved filePath <;> rfl


theorem everyShouldExecute_fst (filePath : String) (index : Nat) (backers : List AbstractBacker) :
    (everyShouldExecute filePath index backers).1 =
      backers.all (fun backer => backer.shouldExecute filePath) := by
  induction backers generalizing index with
  | nil => rfl
  | cons b rest ih =>
    unfold everyShouldExecute
    by_cases h : b.shouldExecute filePath = true
    · simp [h, ih]
    · simp [h]

theorem everyShouldExecute_calls (filePath : String) (index : Nat)
    (backers : List AbstractBacker) :
    ∀ c ∈ (everyShouldExecute filePath index backers).2,
      ∃ i, c = Call.shouldExecute i filePath := by
  induction backers generalizing index with
  | nil => intro c hc; simp [everyShouldExecute] at hc
  | cons b rest ih =>
    intro c hc
    unfold everyShouldExecute at hc
    by_cases h : b.shouldExecute filePath = true
    · simp only [h, if_true, List.mem_cons] at hc
      rcases hc with rfl | hc
      · exact ⟨index, rfl⟩
      · exact ih _ c hc
    · simp only [h, Bool.false_eq_true, if_false, List.mem_singleton] at hc
      exact ⟨index, hc⟩

theorem gate_executed (backers : List AbstractBacker) (files : List String) :
    ((files.map (fun filePath => (filePath, everyShouldExecute filePath 0 backers))).filter
        (fun g => g.2.1)).map (fun g => g.1) =
      files.filter (fun filePath => backers.all (fun backer => backer.shouldExecute filePath)) := by
  induction files with
  | nil => rfl
  | cons f fs ih =>
    simp only [List.map_cons, List.filter_cons, everyShouldExecute_fst]
    by_cases h : backers.all (fun backer => backer.shouldExecute f) = true
    · simp only [h, if_true, List.map_cons]
      rw [← ih]
    · simp only [h, Bool.false_eq_true, if_false]
      rw [← ih]

theorem gate_skipped (backers : List AbstractBacker) (files : List String) :
    ((files.map (fun filePath => (filePath, everyShouldExecute filePath 0 backers))).filter
        (fun g => !g.2.1)).map (fun g => ExecuteFileBackerManager.createFakeResult g.1) =
      (files.filter (fun filePath =>
        !backers.all (fun backer => backer.shouldExecute filePath))).map
        ExecuteFileBackerManager.createFakeResult := by
  induction files with
  | nil => rfl
  | cons f fs ih =>
    simp only [List.map_cons, List.filter_cons, everyShouldExecute_fst]
    by_cases h : backers.all (fun backer => backer.shouldExecute f) = true
    · simp only [h, Bool.not_true, Bool.false_eq_true, if_false]
      rw [← ih]
    · simp only [h, Bool.not_false, if_true, List.map_cons]
      rw [← ih]

theorem gate_calls (backers : List AbstractBacker) (files : List String) :
    ∀ c ∈ ((files.map (fun filePath =>
        (filePath, everyShouldExecute filePath 0 backers))).map (fun g => g.2.2)).flatten,
      ∃ i filePath, c = Call.shouldExecute i filePath := by
  intro c hc
  rw [List.mem_flatten] at hc
  obtain ⟨l, hl, hcl⟩ := hc
  rw [List.map_map, List.mem_map] at hl
  obtain ⟨f, _, rfl⟩ := hl
  obtain ⟨i, hi⟩ := everyShouldExecute_calls f 0 backers c hcl
  exact ⟨i, f, hi⟩

theorem tasks_all (executeFile : String → Option TextlintResult) (l : List String) :
    (l.map (fun filePath => (filePath, executeFile filePath))).all (fun task => task.2.isSome) =
      l.all (fun filePath => (executeFile filePath).isSome) := by
  induction l with
  | nil => rfl
  | cons f fs ih => simp only [List.map_cons, List.all_cons, ih]

theorem tasks_filterMap (executeFile : String → Option TextlintResult) (l : List String) :
    (l.map (fun filePath => (filePath, executeFile filePath))).filterMap (fun task => task.2) =
      l.filterMap executeFile := by
  induction l with
  | nil => rfl
  | cons f fs ih =>
    simp only [List.map_cons, List.filterMap_cons, ih]

/-- The run of `process`, part by part. -/
theorem process_eq (self : ExecuteFileBackerManager)
    (completion : List (String × Option TextlintResult) → List (String × Option TextlintResult))
    (files : List String) (executeFile : String → Option TextlintResult) :
    ∃ gateCalls : List Call, (∀ c ∈ gateCalls, ∃ i filePath, c = Call.shouldExecute i filePath) ∧
      (self.process completion files executeFile).calls =
        gateCalls ++ (executedFiles self files).map Call.executeFile ++
          didExecuteCalls self.backers.length
            (completion ((executedFiles self files).map
              (fun filePath => (filePath, executeFile filePath)))) ++
          (if (executedFiles self files).all (fun filePath => (executeFile filePath).isSome)
            then (List.range self.backers.length).map Call.afterAll else []) ∧
      (self.process completion files executeFile).unExecutedResults =
        (skippedFiles self files).map ExecuteFileBackerManager.createFakeResult ∧
      (self.process completion files executeFile).results =
        (if (executedFiles self files).all (fun filePath => (executeFile filePath).isSome)
          then some ((executedFiles self files).filterMap executeFile ++
            (skippedFiles self files).map ExecuteFileBackerManager.createFakeResult)
          else none) := by
  refine ⟨((files.map (fun filePath =>
      (filePath, everyShouldExecute filePath 0 self.backers))).map (fun g => g.2.2)).flatten,
    ?_, ?_, ?_, ?_⟩
  · exact gate_calls self.backers files
  · simp only [ExecuteFileBackerManager.process, gate_executed, didExecuteCalls, executedFiles]
    rw [tasks_all]
  · simp only [ExecuteFileBackerManager.process, gate_skipped, skippedFiles]
  · simp only [ExecuteFileBackerManager.process, gate_executed, gate_skipped, executedFiles,
      skippedFiles]
    rw [tasks_all, tasks_filterMap]


theorem filterMap_eq_nil_of_forall {α β : Type} (f : α → Option β) (l : List α)
    (h : ∀ c ∈ l, f c = none) : l.filterMap f = [] := by
  induction l with
  | nil => rfl
  | cons x xs ih =>
    rw [List.filterMap_cons, h x (List.mem_cons_self _ _)]
    exact ih (fun c hc => h c (List.mem_cons_of_mem _ hc))

theorem filterMap_executedFile_map (l : List String) :
    (l.map Call.executeFile).filterMap Call.executedFile = l := by
  induction l with
  | nil => rfl
  | cons x xs ih => simp [List.filterMap_cons, Call.executedFile, ih]

theorem mem_didExecuteCalls (n : Nat) (settled : List (String × Option TextlintResult))
    (c : Call) (hc : c ∈ didExecuteCalls n settled) :
    ∃ i result, c = Call.didExecute i result ∧ i < n := by
  unfold didExecuteCalls at hc
  rw [List.mem_flatten] at hc
  obtain ⟨l, hl, hcl⟩ := hc
  rw [List.mem_map] at hl
  obtain ⟨task, _, rfl⟩ := hl
  cases h : task.2 with
  | none => rw [h] at hcl; simp at hcl
  | some result =>
    rw [h] at hcl
    simp only [List.mem_map, List.mem_range] at hcl
    obtain ⟨i, hi, rfl⟩ := hcl
    exact ⟨i, result, rfl, hi⟩

theorem filterMap_didExecuteResult_range (i n : Nat) (result : TextlintResult) :
    ((List.range n).map (fun k => Call.didExecute k result)).filterMap
      (Call.didExecuteResult i) = if i < n then [result] else [] := by
  induction n with
  | zero => simp
  | succ n ih =>
    rw [List.range_succ, List.map_append, List.filterMap_append, ih]
    by_cases h1 : i < n
    · have h2 : i < n + 1 := by omega
      have h3 : ¬ n = i := by omega
      simp [h1, h2, h3, Call.didExecuteResult]
    · by_cases h4 : i = n
      · subst h4
        simp [Call.didExecuteResult]
      · have h2 : ¬ i < n + 1 := by omega
        have h3 : ¬ n = i := fun h => h4 h.symm
        simp [h1, h2, h3, Call.didExecuteResult]

theorem filterMap_didExecuteResult_calls (i n : Nat)
    (settled : List (String × Option TextlintResult)) :
    (didExecuteCalls n settled).filterMap (Call.didExecuteResult i) =
      if i < n then settled.filterMap (fun task => task.2) else [] := by
  induction settled with
  | nil => simp [didExecuteCalls]
  | cons task rest ih =>
    obtain ⟨filePath, outcome⟩ := task
    cases outcome with
    | none =>
      have hcons : didExecuteCalls n ((filePath, none) :: rest) = didExecuteCalls n rest := by
        simp [didExecuteCalls]
      rw [hcons, ih]
      simp
    | some result =>
      have hcons : didExecuteCalls n ((filePath, some result) :: rest) =
          (List.range n).map (fun k => Call.didExecute k result) ++ didExecuteCalls n rest := by
        simp [didExecuteCalls]
      rw [hcons, List.filterMap_append, ih, filterMap_didExecuteResult_range]
      by_cases hi : i < n <;> simp [hi]



theorem mem_uniqueFrom (seen l : List String) (y : String) :
    y ∈ uniqueFrom seen l ↔ y ∈ l ∧ y ∉ seen := by
  induction l generalizing seen with
  | nil => simp [uniqueFrom]
  | cons x xs ih =>
    unfold uniqueFrom
    by_cases h : x ∈ seen
    · rw [if_pos h, ih, List.mem_cons]
      constructor
      · rintro ⟨h1, h2⟩; exact ⟨Or.inr h1, h2⟩
      · rintro ⟨h1 | h1, h2⟩
        · subst h1; exact absurd h h2
        · exact ⟨h1, h2⟩
    · rw [if_neg h, List.mem_cons, ih, List.mem_cons, List.mem_cons]
      constructor
      · rintro (h1 | ⟨h1, h2⟩)
        · subst h1; exact ⟨Or.inl rfl, h⟩
        · exact ⟨Or.inr h1, fun h3 => h2 (Or.inr h3)⟩
      · rintro ⟨h1 | h1, h2⟩
        · exact Or.inl h1
        · by_cases hyx : y = x
          · exact Or.inl hyx
          · exact Or.inr ⟨h1, fun h3 => h3.elim hyx h2⟩

theorem nodup_uniqueFrom (seen l : List String) : (uniqueFrom seen l).Nodup := by
  induction l generalizing seen with
  | nil => simp [uniqueFrom]
  | cons x xs ih =>
    unfold uniqueFrom
    by_cases h : x ∈ seen
    · rw [if_pos h]; exact ih seen
    · rw [if_neg h, List.nodup_cons]
      refine ⟨?_, ih _⟩
      rw [mem_uniqueFrom]
      rintro ⟨_, h2⟩
      exact h2 (List.mem_cons_self _ _)

theorem uniqueFrom_congr (seen seen' l : List String) (h : ∀ x, x ∈ seen ↔ x ∈ seen') :
    uniqueFrom seen l = uniqueFrom seen' l := by
  induction l generalizing seen seen' with
  | nil => rfl
  | cons x xs ih =>
    unfold uniqueFrom
    by_cases hx : x ∈ seen
    · rw [if_pos hx, if_pos ((h x).1 hx)]; exact ih _ _ h
    · rw [if_neg hx, if_neg (fun h' => hx ((h x).2 h'))]
      congr 1
      apply ih
      intro y
      simp only [List.mem_cons, h y]

theorem uniqueFrom_cons_of_mem (seen xs : List String) (x : String) (h : x ∈ seen) :
    uniqueFrom seen (x :: xs) = uniqueFrom seen xs := by
  rw [uniqueFrom, if_pos h]

theorem uniqueFrom_cons_of_not_mem (seen xs : List String) (x : String) (h : x ∉ seen) :
    uniqueFrom seen (x :: xs) = x :: uniqueFrom (x :: seen) xs := by
  rw [uniqueFrom, if_neg h]

theorem uniqueFrom_append (seen a b : List String) :
    uniqueFrom seen (a ++ b) = uniqueFrom seen a ++ uniqueFrom (a ++ seen) b := by
  induction a generalizing seen with
  | nil => rfl
  | cons x xs ih =>
    rw [List.cons_append]
    by_cases hx : x ∈ seen
    · rw [uniqueFrom_cons_of_mem _ _ _ hx, uniqueFrom_cons_of_mem _ _ _ hx, ih]
      congr 1
      apply uniqueFrom_congr
      intro y
      simp only [List.mem_append, List.mem_cons]
      constructor
      · rintro (h | h)
        · exact Or.inl (Or.inr h)
        · exact Or.inr h
      · rintro ((h | h) | h)
        · subst h; exact Or.inr hx
        · exact Or.inl h
        · exact Or.inr h
    · rw [uniqueFrom_cons_of_not_mem _ _ _ hx, uniqueFrom_cons_of_not_mem _ _ _ hx, ih,
        List.cons_append]
      congr 2
      apply uniqueFrom_congr
      intro y
      simp only [List.mem_append, List.mem_cons]
      tauto

/-- Two arrays concatenated with duplicates removed keeping the first occurrence: no value
twice, the values of both arrays, the values of the first array before the values that are in
the second array only. -/
theorem uniqueFrom_concat_spec (arr1 arr2 : List String) :
    (uniqueFrom [] (arr1 ++ arr2)).Nodup ∧
      (∀ x, x ∈ uniqueFrom [] (arr1 ++ arr2) ↔ x ∈ arr1 ∨ x ∈ arr2) ∧
      ∃ front back, uniqueFrom [] (arr1 ++ arr2) = front ++ back ∧
        (∀ x, x ∈ front ↔ x ∈ arr1) ∧ ∀ x, x ∈ back ↔ x ∈ arr2 ∧ x ∉ arr1 := by
  refine ⟨nodup_uniqueFrom _ _, ?_, uniqueFrom [] arr1, uniqueFrom (arr1 ++ []) arr2,
    uniqueFrom_append [] arr1 arr2, ?_, ?_⟩
  · intro x
    simp [mem_uniqueFrom]
  · intro x
    simp [mem_uniqueFrom]
  · intro x
    simp [mem_uniqueFrom]

/-- A value that does not occur in the array makes no difference among the values seen. -/
theorem uniqueFrom_cons_seen (seen l : List String) (y : String) (hy : y ∉ l) :
    uniqueFrom (y :: seen) l = uniqueFrom seen l := by
  induction l generalizing seen with
  | nil => rfl
  | cons x xs ih =>
    have hxy : x ≠ y := fun h => hy (h ▸ List.mem_cons_self _ _)
    have hys : y ∉ xs := fun h => hy (List.mem_cons_of_mem _ h)
    by_cases hx : x ∈ seen
    · rw [uniqueFrom_cons_of_mem _ _ _ (List.mem_cons_of_mem _ hx),
        uniqueFrom_cons_of_mem _ _ _ hx, ih seen hys]
    · have hx' : x ∉ y :: seen := by
        simp only [List.mem_cons, not_or]
        exact ⟨hxy, hx⟩
      rw [uniqueFrom_cons_of_not_mem _ _ _ hx', uniqueFrom_cons_of_not_mem _ _ _ hx]
      congr 1
      rw [uniqueFrom_congr (x :: y :: seen) (y :: x :: seen) xs
        (by intro z; simp only [List.mem_cons]; tauto)]
      exact ih (x :: seen) hys

/-- The own keys of the index object of `unique-concat` after the items of an array are
stored: the keys it had, then the new names other than `__proto__`, each once, in the order
in which they are first stored. -/
theorem foldl_indexAssign (l ownKeys : List String) :
    l.foldl indexAssign ownKeys = ownKeys ++ uniqueFrom ("__proto__" :: ownKeys) l := by
  induction l generalizing ownKeys with
  | nil => simp [uniqueFrom]
  | cons x xs ih =>
    rw [List.foldl_cons, ih]
    unfold indexAssign
    by_cases hp : x = "__proto__"
    · rw [if_pos hp, uniqueFrom_cons_of_mem _ _ _ (by rw [hp]; exact List.mem_cons_self _ _)]
    · rw [if_neg hp]
      by_cases hx : x ∈ ownKeys
      · rw [if_pos hx, uniqueFrom_cons_of_mem _ _ _ (List.mem_cons_of_mem _ hx)]
      · have hx' : x ∉ "__proto__" :: ownKeys := by
          simp only [List.mem_cons, not_or]
          exact ⟨hp, hx⟩
        rw [if_neg hx, uniqueFrom_cons_of_not_mem _ _ _ hx', List.append_assoc,
          List.singleton_append]
        congr 2
        apply uniqueFrom_congr
        intro z
        simp only [List.mem_cons, List.mem_append, List.mem_singleton]
        tauto

/-- The array returned by `concat` of `unique-concat`, in terms of the names stored. -/
theorem uniqueConcat_eq (arr1 arr2 : List String) :
    uniqueConcat arr1 arr2 =
      ((uniqueFrom ["__proto__"] (arr1 ++ arr2)).filter
          (fun key => (arrayIndex key).isSome)).insertionSort
        (fun a b => (arrayIndex a).getD 0 ≤ (arrayIndex b).getD 0) ++
      (uniqueFrom ["__proto__"] (arr1 ++ arr2)).filter (fun key => (arrayIndex key).isNone) := by
  unfold uniqueConcat enumerateKeys
  rw [foldl_indexAssign, List.nil_append]

/-- What `concat` of `unique-concat` returns: no value twice; the values of both arrays other
than `__proto__`; first the values that are array indices, in ascending numeric order, then
the other values in the order in which they first occur; and, when no value is an array index
or `__proto__`, the two arrays concatenated with duplicates removed keeping the first
occurrence. -/
theorem uniqueConcat_spec (arr1 arr2 : List String) :
    (uniqueConcat arr1 arr2).Nodup ∧
      (∀ x, x ∈ uniqueConcat arr1 arr2 ↔ (x ∈ arr1 ∨ x ∈ arr2) ∧ x ≠ "__proto__") ∧
      (∃ indices, uniqueConcat arr1 arr2 =
          indices ++ (uniqueFrom ["__proto__"] (arr1 ++ arr2)).filter
            (fun key => (arrayIndex key).isNone) ∧
        indices.Perm ((uniqueFrom ["__proto__"] (arr1 ++ arr2)).filter
          (fun key => (arrayIndex key).isSome)) ∧
        indices.Pairwise (fun a b => (arrayIndex a).getD 0 ≤ (arrayIndex b).getD 0)) ∧
      ((∀ x ∈ arr1 ++ arr2, arrayIndex x = none ∧ x ≠ "__proto__") →
        uniqueConcat arr1 arr2 = uniqueFrom [] (arr1 ++ arr2) ∧
        ∃ front back, uniqueConcat arr1 arr2 = front ++ back ∧
          (∀ x, x ∈ front ↔ x ∈ arr1) ∧ ∀ x, x ∈ back ↔ x ∈ arr2 ∧ x ∉ arr1) := by
  have hperm := List.perm_insertionSort
    (fun a b : String => (arrayIndex a).getD 0 ≤ (arrayIndex b).getD 0)
    ((uniqueFrom ["__proto__"] (arr1 ++ arr2)).filter (fun key => (arrayIndex key).isSome))
  have hnodup := nodup_uniqueFrom ["__proto__"] (arr1 ++ arr2)
  refine ⟨?_, ?_, ?_, ?_⟩
  · rw [uniqueConcat_eq, List.nodup_append]
    refine ⟨hperm.nodup_iff.2 (hnodup.filter _), hnodup.filter _, ?_⟩
    intro x hx1 hx2
    have h1 := (List.mem_filter.1 (hperm.mem_iff.1 hx1)).2
    have h2 := (List.mem_filter.1 hx2).2
    cases h : arrayIndex x <;> simp [h] at h1 h2
  · intro x
    rw [uniqueConcat_eq, List.mem_append, hperm.mem_iff, List.mem_filter, List.mem_filter,
      mem_uniqueFrom, List.mem_append, List.mem_singleton]
    cases h : arrayIndex x <;> simp
  · refine ⟨_, uniqueConcat_eq arr1 arr2, hperm, ?_⟩
    haveI : IsTotal String (fun a b => (arrayIndex a).getD 0 ≤ (arrayIndex b).getD 0) :=
      ⟨fun a b => Nat.le_total _ _⟩
    haveI : IsTrans String (fun a b => (arrayIndex a).getD 0 ≤ (arrayIndex b).getD 0) :=
      ⟨fun a b c hab hbc => Nat.le_trans hab hbc⟩
    exact List.sorted_insertionSort _ _
  · intro hall
    have hproto : "__proto__" ∉ arr1 ++ arr2 := fun h => (hall _ h).2 rfl
    have hsome : (uniqueFrom ["__proto__"] (arr1 ++ arr2)).filter
        (fun key => (arrayIndex key).isSome) = [] := by
      rw [List.filter_eq_nil_iff]
      intro x hx
      rw [(hall x ((mem_uniqueFrom _ _ _).1 hx).1).1]
      simp
    have hnone : (uniqueFrom ["__proto__"] (arr1 ++ arr2)).filter
        (fun key => (arrayIndex key).isNone) = uniqueFrom ["__proto__"] (arr1 ++ arr2) := by
      rw [List.filter_eq_self]
      intro x hx
      rw [(hall x ((mem_uniqueFrom _ _ _).1 hx).1).1]
      rfl
    have heq : uniqueConcat arr1 arr2 = uniqueFrom [] (arr1 ++ arr2) := by
      rw [uniqueConcat_eq, hsome, hnone, uniqueFrom_cons_seen [] _ _ hproto]
      rfl
    refine ⟨heq, ?_⟩
    rw [heq]
    exact (uniqueFrom_concat_spec arr1 arr2).2.2

/-- The fields of a `Config` that the constructor returns. -/
theorem Config.create_ok (env : ConfigEnv) (options : TextlintConfig) (cfg : Config)
    (h : Config.create env options = Except.ok cfg) :
    cfg.rules = options.rules.getD [] ∧
      cfg.disabledRules = options.disabledRules.getD [] ∧
      cfg.filterRules = options.filterRules.getD [] ∧
      cfg.disabledFilterRules = options.disabledFilterRules.getD [] ∧
      cfg.presets = options.presets.getD [] ∧
      cfg.plugins = options.plugins.getD [] ∧
      cfg.formatterName = truthyString options.formatterName ∧
      cfg.quiet = options.quiet.getD false ∧
      cfg.color = options.color.getD true ∧
      cfg.cache = options.cache.getD false ∧
      cfg.cacheLocation = options.cacheLocation.getD env.defaultCacheLocation := by
  unfold Config.create at h
  simp only at h
  split at h
  · cases h
  · split at h
    · cases h
    · split at h
      · cases h
      · split at h
        · cases h
        · cases h
          exact ⟨rfl, rfl, rfl, rfl, rfl, rfl, rfl, rfl, rfl, rfl, rfl⟩

/-- When the constructor returns: the config file, if any, is an absolute path, the presets and
plugins resolve, and the cache location is not a directory. -/
theorem Config.create_isOk (env : ConfigEnv) (options : TextlintConfig)
    (h1 : ∀ file, options.configFile = some file → file ≠ "" → env.isAbsolute file = true)
    (h2 : env.presetsResolve (options.presets.getD []) = true)
    (h3 : (env.loadAvailableExtensions (options.plugins.getD [])).isSome = true)
    (h4 : env.isDirectory (options.cacheLocation.getD env.defaultCacheLocation) = false) :
    ∃ cfg, Config.create env options = Except.ok cfg := by
  unfold Config.create
  simp only
  have h1' : (truthyString options.configFile).any (fun file => !env.isAbsolute file) = false := by
    cases hc : options.configFile with
    | none => rfl
    | some file =>
      by_cases hf : file = ""
      · subst hf; rfl
      · have := h1 file hc hf
        simp [truthyString, Option.filter, hf, this]
  rw [h1']
  simp only [Bool.false_eq_true, if_false, h2, Bool.not_true]
  cases h : env.loadAvailableExtensions (options.plugins.getD []) with
  | none => rw [h] at h3; simp at h3
  | some ext =>
    simp only [h4, Bool.false_eq_true, if_false]
    exact ⟨_, rfl⟩



theorem extnameStep_startDot (st : ExtnameLoop) (code : Char) (hcode : code ≠ '.')
    (h : st.startDot = -1) : (extnameStep st code).startDot = -1 := by
  unfold extnameStep
  by_cases hd : st.done = true
  · simp [hd, h]
  · by_cases hs : code = '/'
    · by_cases hm : st.matchedSlash = true <;> simp [hd, hs, hm, h]
    · by_cases he : st.stop = -1 <;> simp [hd, hs, hcode, he, h]

theorem extname_foldl_startDot (l : List Char) (hl : '.' ∉ l) :
    ∀ st : ExtnameLoop, st.startDot = -1 → (l.foldl extnameStep st).startDot = -1 := by
  induction l with
  | nil => intro st h; exact h
  | cons c cs ih =>
    intro st h
    rw [List.foldl_cons]
    apply ih (fun hc => hl (List.mem_cons_of_mem _ hc))
    apply extnameStep_startDot _ _ _ h
    rintro rfl
    exact hl (List.mem_cons_self _ _)

/-- `path.extname` of a name that contains no `.` is the empty string. -/
theorem extname_of_no_dot (path : JSString) (h : '.' ∉ path) : extname path = [] := by
  unfold extname
  have := extname_foldl_startDot path.reverse (by simpa using h)
    { i := (path.length : Int) - 1, startDot := -1, startPart := 0, stop := -1,
      matchedSlash := true, preDotState := 0, done := false } rfl
  simp only [this, true_or, if_true]


/-- After `didExecute` for a result without message, whatever metadata the store holds for the
file, recorded or handed out, carry the current config hash. -/
theorem CacheBackerState.didExecute_no_message_stamped (self : CacheBackerState)
    (result : TextlintResult) (henabled : self.isEnabled = true) (hmsg : result.messages = []) :
    (∀ meta, (self.didExecute result).fileCache.cache result.filePath = some meta →
        meta.props.hashOfConfig = some self.hashOfConfig) ∧
      (∀ meta, (self.didExecute result).fileCache.normalizedEntries result.filePath = some meta →
        meta.props.hashOfConfig = some self.hashOfConfig) ∧
      (self.didExecute result).fileCache.fs = self.fileCache.fs := by
  cases hfs : self.fileCache.fs result.filePath with
  | some fstat =>
    obtain ⟨_, _, h3, h4, h5⟩ := self.didExecute_of_no_message result henabled hmsg fstat hfs
    refine ⟨?_, ?_, h3⟩
    · intro meta hm
      rw [h4] at hm
      cases hc : self.fileCache.cache result.filePath with
      | none => rw [hc] at hm; simp at hm
      | some m =>
        rw [hc] at hm
        simp only [Option.map_some', Option.some.injEq] at hm
        rw [← hm]
    · intro meta hm
      rw [h5] at hm
      cases hm
      rfl
  | none =>
    have hstate : self.didExecute result =
        { self with fileCache := self.fileCache.removeEntry result.filePath } := by
      unfold CacheBackerState.didExecute
      simp only [henabled, Bool.not_true, Bool.false_eq_true, if_false, hmsg, List.length_nil,
        gt_iff_lt, lt_self_iff_false]
      unfold FileEntryCache.getFileDescriptor
      simp [hfs]
    rw [hstate]
    refine ⟨?_, ?_, rfl⟩ <;> intro meta hm <;> simp [FileEntryCache.removeEntry] at hm


/-! ## The round trip of the applied fixes -/

theorem head_ne_of_not_mem (c : Char) (l : JSString) (h : c ∉ l) : l.head? ≠ some c := by
  cases l with
  | nil => simp
  | cons x xs =>
    intro hx
    simp only [List.head?_cons, Option.some.injEq] at hx
    exact h (hx ▸ List.mem_cons_self _ _)

/-- The `SourceCode` made of a text that is an optional BOM followed by a text that does not
begin with a BOM. -/
theorem SourceCode.create_prefix (hasBOM : Bool) (text : JSString)
    (h : text.head? ≠ some BOM) :
    SourceCode.create ((if hasBOM then [BOM] else []) ++ text) = ⟨text, hasBOM⟩ := by
  cases hasBOM with
  | true => simp [SourceCode.create]
  | false => simp [SourceCode.create, h]

/-- The output of `applyFixes` for one message whose fix lies in the text and does not begin
with a BOM: the range is replaced and the BOM of the source is kept. -/
theorem applyFixes_single_output_of (sortFn : SortFn) (hs : IsSort sortFn) (text : JSString)
    (hasBOM : Bool) (m : TextlintMessage) (f : TextlintFixCommand) (hf : m.fix = some f)
    (h0 : 0 ≤ f.range.1) (hse : f.range.1 ≤ f.range.2) (hlen : f.range.2 ≤ text.length)
    (hbom : f.text.head? ≠ some BOM) :
    (applyFixes sortFn ⟨text, hasBOM⟩ [m]).output =
      (if hasBOM then [BOM] else []) ++
        (text.take f.range.1.toNat ++ f.text ++ text.drop f.range.2.toNat) := by
  have hsome : ∀ x ∈ [m], x.fix.isSome = true := by
    intro x hx; rw [List.mem_singleton] at hx; subst hx; simp [hf]
  obtain ⟨h1, _, _, h4, _⟩ := applyFixesLoop_separated sortFn hs text hasBOM [m] [f] hsome
    (by simp [hf]) (List.pairwise_singleton _ _)
    (by intro g hg; rw [List.mem_singleton] at hg; subst hg; exact ⟨h0, hse, hlen⟩)
    (by intro g hg; rw [List.mem_singleton] at hg; subst hg; exact hbom)
  rw [applyFixes_of_fix _ _ _ (by simp [hf])]
  simp only [h1, h4]
  simp [replaceRanges, replaceFrom]

theorem take_append_take_drop (text : JSString) (s e : Nat) (h : s ≤ e) :
    text.take s ++ (text.take e).drop s = text.take e := by
  have h1 : text.take s = (text.take e).take s := by
    rw [List.take_take, min_eq_left h]
  rw [h1, List.take_append_drop]

/-- One step of `sequentiallyApplyFixes` with the rewritten copy of an applied fix: where the
text holds the replacement `ins` at offset `s`, followed by the original text from offset `e`
on, the step puts back the original text between `s` and `e`. -/
theorem restore_step (sortFn : SortFn) (hs : IsSort sortFn) (text : JSString) (hasBOM : Bool)
    (q s e : Nat) (R ins : JSString) (copy : TextlintMessage)
    (hse : s ≤ e) (heq : e ≤ q) (hq : q ≤ text.length)
    (htext : BOM ∉ text) (hins : BOM ∉ ins) (hR : BOM ∉ R)
    (hcopy : copy.fix = some ⟨((s : Int), (s : Int) + ins.length), (text.take e).drop s⟩) :
    (applyFixes sortFn (SourceCode.create ((if hasBOM then [BOM] else []) ++
        (text.take s ++ (ins ++ ((text.take q).drop e ++ R))))) [copy]).output =
      (if hasBOM then [BOM] else []) ++ (text.take q ++ R) := by
  have hmem : BOM ∉ text.take s ++ (ins ++ ((text.take q).drop e ++ R)) := by
    simp only [List.mem_append, not_or]
    exact ⟨fun h => htext (List.mem_of_mem_take h), hins,
      fun h => htext (List.mem_of_mem_take (List.mem_of_mem_drop h)), hR⟩
  have hls : (text.take s).length = s := by rw [List.length_take]; omega
  rw [SourceCode.create_prefix hasBOM _ (head_ne_of_not_mem BOM _ hmem),
    applyFixes_single_output_of sortFn hs _ hasBOM copy _ hcopy (by simp) (by simp)
      (by simp only [List.length_append, hls]; push_cast; omega)
      (head_ne_of_not_mem BOM _
        (fun h => htext (List.mem_of_mem_take (List.mem_of_mem_drop h))))]
  congr 1
  have h1 : ((s : Int) + (ins.length : Int)).toNat = s + ins.length := by omega
  simp only [Int.toNat_ofNat, h1]
  have h2 : (text.take s ++ (ins ++ ((text.take q).drop e ++ R))).take s = text.take s := by
    rw [List.take_append_of_le_length (by omega), List.take_of_length_le (by omega)]
  have h3 : (text.take s ++ (ins ++ ((text.take q).drop e ++ R))).drop (s + ins.length) =
      (text.take q).drop e ++ R := by
    rw [← List.append_assoc]
    have hl : (text.take s ++ ins).length = s + ins.length := by
      rw [List.length_append, hls]
    rw [← hl, List.drop_left]
  rw [h2, h3, ← List.append_assoc, take_append_take_drop text s e hse,
    take_append_take_drop text e q heq]

/-- Loop invariant behind the round trip: the array still holds the original text up to an
offset `q` at or after the cursor, and `sequentiallyApplyFixes` with the copies made so far,
last copy first, turns what the array spells into the original text. -/
theorem applyFix_restorable (sortFn : SortFn) (hs : IsSort sortFn) (text : JSString)
    (hasBOM : Bool) (htext : BOM ∉ text) (st : FixLoop) (problem : TextlintMessage)
    (hp : ∃ f, problem.fix = some f ∧ 0 ≤ f.range.1 ∧ f.range.1 ≤ f.range.2 ∧
      f.range.2 ≤ text.length ∧ BOM ∉ f.text)
    (h : ∃ (q : Nat) (rest : List JSString), q ≤ text.length ∧ st.lastFixPos ≤ (q : Int) + 1 ∧
      st.chars = (text.take q).map (fun c => [c]) ++ rest ∧ BOM ∉ rest.flatten ∧
      st.prefixBOM = (if hasBOM then [BOM] else []) ∧
      st.applyingMessages.reverse.foldl
          (fun text message => (applyFixes sortFn (SourceCode.create text) [message]).output)
          ((if hasBOM then [BOM] else []) ++ (text.take q ++ rest.flatten)) =
        (if hasBOM then [BOM] else []) ++ text) :
    ∃ (q : Nat) (rest : List JSString), q ≤ text.length ∧
      (applyFix st problem).lastFixPos ≤ (q : Int) + 1 ∧
      (applyFix st problem).chars = (text.take q).map (fun c => [c]) ++ rest ∧
      BOM ∉ rest.flatten ∧
      (applyFix st problem).prefixBOM = (if hasBOM then [BOM] else []) ∧
      (applyFix st problem).applyingMessages.reverse.foldl
          (fun text message => (applyFixes sortFn (SourceCode.create text) [message]).output)
          ((if hasBOM then [BOM] else []) ++ (text.take q ++ rest.flatten)) =
        (if hasBOM then [BOM] else []) ++ text := by
  obtain ⟨f, hf, h0, hse, hlen, hbom⟩ := hp
  obtain ⟨q, rest, hq, hlast, hc, hrest, hpre, hseq⟩ := h
  by_cases hlt : f.range.2 < st.lastFixPos
  · obtain ⟨s, hs'⟩ : ∃ s : Nat, f.range.1 = (s : Int) := ⟨f.range.1.toNat, by omega⟩
    obtain ⟨e, he⟩ : ∃ e : Nat, f.range.2 = (e : Int) := ⟨f.range.2.toNat, by omega⟩
    have hse' : s ≤ e := by omega
    have heq' : e ≤ q := by omega
    have hstep := applyFix_accept st problem f hf hlt h0
      (fun h => head_ne_of_not_mem BOM _ hbom h.2)
    rw [hc, hs', he, splice_singles text q s e rest f.text hse' heq' hq] at hstep
    refine ⟨s, f.text :: (((text.take q).drop e).map (fun c => [c]) ++ rest), by omega,
      ?_, ?_, ?_, ?_, ?_⟩
    · rw [hstep]; simp only; omega
    · rw [hstep]
    · simp only [List.flatten_cons, List.flatten_append, flatten_map_singleton, List.mem_append,
        not_or]
      exact ⟨hbom, fun h => htext (List.mem_of_mem_take (List.mem_of_mem_drop h)), hrest⟩
    · rw [hstep]; exact hpre
    · rw [hstep]
      simp only [List.reverse_append, List.reverse_singleton, List.singleton_append,
        List.foldl_cons, List.flatten_cons, List.flatten_append, flatten_map_singleton]
      rw [restore_step sortFn hs text hasBOM q s e rest.flatten f.text _ hse' heq' hq htext hbom
        hrest rfl]
      exact hseq
  · obtain ⟨_, h2, _, h4, h5, h6⟩ := applyFix_of_not_lt st problem f hf hlt
    refine ⟨q, rest, hq, ?_, ?_, hrest, ?_, ?_⟩
    · rw [h2]; exact hlast
    · rw [h5]; exact hc
    · rw [h6]; exact hpre
    · rw [h4]; exact hseq

/-! ## The results of `process` -/

/-- Every file either passes the gate of `process` or is skipped. -/
theorem executed_skipped_perm (self : ExecuteFileBackerManager) (files : List String) :
    (executedFiles self files ++ skippedFiles self files).Perm files := by
  unfold executedFiles skippedFiles
  exact List.filter_append_perm _ files

/-- When every lint task is fulfilled, the fulfilled values are the outcomes of the tasks,
one for one. -/
theorem map_some_filterMap (executeFile : String → Option TextlintResult) (l : List String)
    (hok : ∀ filePath ∈ l, (executeFile filePath).isSome = true) :
    (l.filterMap executeFile).map some = l.map executeFile := by
  induction l with
  | nil => rfl
  | cons f fs ih =>
    have h := hok f (List.mem_cons_self _ _)
    cases hf : executeFile f with
    | none => simp [hf] at h
    | some r =>
      simp only [List.filterMap_cons, hf, List.map_cons]
      rw [ih (fun x hx => hok x (List.mem_cons_of_mem _ hx))]

/-! ## No message is lost by `applyFixes` -/

/-- The two arrays filled by the first `forEach` of `applyFixes` hold every message. -/
theorem partition_perm (messages : List TextlintMessage) :
    (messages.filter (fun problem => problem.fix.isNone) ++
      messages.filter (fun problem => problem.fix.isSome)).Perm messages := by
  induction messages with
  | nil => simp
  | cons m ms ih =>
    cases hf : m.fix with
    | none =>
      simp only [List.filter_cons, hf, Option.isNone_none, Option.isSome_none, if_true,
        Bool.false_eq_true, if_false, List.cons_append]
      exact ih.cons m
    | some f =>
      simp only [List.filter_cons, hf, Option.isNone_some, Option.isSome_some, if_true,
        Bool.false_eq_true, if_false]
      exact List.perm_middle.trans (ih.cons m)

/-- The loop body puts the problem in exactly one of `accepted` and `remainingMessages`, after
what they hold. -/
theorem applyFix_keeps (st : FixLoop) (problem : TextlintMessage)
    (hp : problem.fix.isSome = true) :
    ((applyFix st problem).accepted ++ (applyFix st problem).remainingMessages).Perm
      (problem :: (st.accepted ++ st.remainingMessages)) := by
  cases hf : problem.fix with
  | none => simp [hf] at hp
  | some f =>
    by_cases hlt : f.range.2 < st.lastFixPos
    · obtain ⟨h1, _, h3, _⟩ := applyFix_of_lt st problem f hf hlt
      rw [h1, h3, List.append_assoc]
      exact (List.perm_middle.trans (List.Perm.refl _))
    · obtain ⟨h1, _, h3, _⟩ := applyFix_of_not_lt st problem f hf hlt
      rw [h1, h3, ← List.append_assoc]
      exact List.perm_append_singleton _ _

/-- The loop of `applyFixes` puts every fix message in exactly one of `accepted` and
`remainingMessages`. -/
theorem foldl_applyFix_keeps (l : List TextlintMessage)
    (hl : ∀ m ∈ l, m.fix.isSome = true) :
    ∀ st : FixLoop, ((l.foldl applyFix st).accepted ++
      (l.foldl applyFix st).remainingMessages).Perm
        (st.accepted ++ st.remainingMessages ++ l) := by
  induction l with
  | nil => intro st; simp
  | cons x xs ih =>
    intro st
    simp only [List.foldl_cons]
    refine (ih (fun m hm => hl m (List.mem_cons_of_mem _ hm)) (applyFix st x)).trans ?_
    refine ((applyFix_keeps st x (hl x (List.mem_cons_self _ _))).append_right xs).trans ?_
    simp only [List.cons_append]
    exact List.perm_middle.symm

/-- At the end of the loop of `applyFixes`, `accepted` and `remainingMessages` together hold
every message exactly once. -/
theorem applyFixesLoop_keeps (sortFn : SortFn) (hs : IsSort sortFn) (sourceCode : SourceCode)
    (messages : List TextlintMessage) :
    ((applyFixesLoop sortFn sourceCode messages).accepted ++
      (applyFixesLoop sortFn sourceCode messages).remainingMessages).Perm messages := by
  unfold applyFixesLoop
  simp only
  refine (foldl_applyFix_keeps _ (fun m hm => ((mem_sort_fixes hs messages m).1 hm).2) _).trans ?_
  simp only [List.nil_append]
  exact ((hs.perm compareFixes _).append_left _).trans (partition_perm messages)

/-! ## The claims -/

/-- C1 (amended). For every source and every list of messages whose fix ranges satisfy
`start ≤ end` and `0 ≤ end`, no two fixes accepted by `applyFixes` have overlapping half-open
ranges `[start, end)` in the coordinates of the original text, whatever the order of the
messages and whatever the engine sort. -/
theorem C1_accepted_fixes_do_not_overlap (sortFn : SortFn) (hs : IsSort sortFn)
    (sourceCode : SourceCode) (messages : List TextlintMessage)
    (hrange : ∀ m ∈ messages,
      fixSatisfies (fun f => f.range.1 ≤ f.range.2 ∧ 0 ≤ f.range.2) m) :
    (acceptedFixes sortFn sourceCode messages).Pairwise (fun a b => ¬ fixesOverlap a b) := by
  unfold acceptedFixes
  split
  · unfold applyFixesLoop
    refine (foldl_applyFix_inv
      (fun st => st.accepted.Pairwise (fun a b => ¬ fixesOverlap a b) ∧
        ∀ a ∈ st.accepted, ∀ fa, a.fix = some fa →
          st.lastFixPos ≤ fa.range.1 ∨ st.lastFixPos ≤ 0) _ ?_ _ ?_).1
    · intro st x hx h
      exact applyFix_noOverlap st x (hrange x ((mem_sort_fixes hs messages x).1 hx).1) h
    · exact ⟨List.Pairwise.nil, fun a ha => by simp at ha⟩
  · exact List.Pairwise.nil

/-- Witness of C1 (amended): of the overlapping fixes `[5,10]` and `[8,12]` and the fix
`[0,3]`, the accepted ones do not overlap. -/
theorem C1_accepted_fixes_do_not_overlap_witness :
    (acceptedFixes insertionSort ⟨"0123456789abcdef".toList, false⟩
      [fixMessage 1 6 5 10 "X", fixMessage 1 9 8 12 "Y", fixMessage 1 1 0 3 "Z"]).Pairwise
      (fun a b => ¬ fixesOverlap a b) :=
  C1_accepted_fixes_do_not_overlap insertionSort insertionSort_isSort
    ⟨"0123456789abcdef".toList, false⟩
    [fixMessage 1 6 5 10 "X", fixMessage 1 9 8 12 "Y", fixMessage 1 1 0 3 "Z"] (by decide)

/-- C1 as stated fails: the fixes `[-3,-1]` and `[-2,-1]` satisfy `start ≤ end`, overlap, and
are both accepted, in either input order and under either engine sort (once the first is
applied the cursor is clamped to `0`, and `-1 < 0`). -/
theorem C1_counterexample :
    (∀ m ∈ [fixMessage 1 1 (-3) (-1) "X", fixMessage 1 2 (-2) (-1) "Y"],
      fixSatisfies (fun f => f.range.1 ≤ f.range.2) m) ∧
    fixesOverlap (fixMessage 1 1 (-3) (-1) "X") (fixMessage 1 2 (-2) (-1) "Y") ∧
    acceptedFixes insertionSort ⟨"abcdef".toList, false⟩
      [fixMessage 1 1 (-3) (-1) "X", fixMessage 1 2 (-2) (-1) "Y"] =
      [fixMessage 1 1 (-3) (-1) "X", fixMessage 1 2 (-2) (-1) "Y"] ∧
    acceptedFixes insertionSort ⟨"abcdef".toList, false⟩
      [fixMessage 1 2 (-2) (-1) "Y", fixMessage 1 1 (-3) (-1) "X"] =
      [fixMessage 1 2 (-2) (-1) "Y", fixMessage 1 1 (-3) (-1) "X"] ∧
    acceptedFixes runInsertionSort ⟨"abcdef".toList, false⟩
      [fixMessage 1 1 (-3) (-1) "X", fixMessage 1 2 (-2) (-1) "Y"] =
      [fixMessage 1 2 (-2) (-1) "Y", fixMessage 1 1 (-3) (-1) "X"] ∧
    acceptedFixes runInsertionSort ⟨"abcdef".toList, false⟩
      [fixMessage 1 2 (-2) (-1) "Y", fixMessage 1 1 (-3) (-1) "X"] =
      [fixMessage 1 1 (-3) (-1) "X", fixMessage 1 2 (-2) (-1) "Y"] ∧
    ¬ (acceptedFixes insertionSort ⟨"abcdef".toList, false⟩
      [fixMessage 1 1 (-3) (-1) "X", fixMessage 1 2 (-2) (-1) "Y"]).Pairwise
      (fun a b => ¬ fixesOverlap a b) := by
  decide

/-- C2. For a source without BOM and a non-empty list of messages that all carry a fix, whose
fixes lie in the text (`0 ≤ start ≤ end ≤ length`), are pairwise strictly separated (`asc` is
their arrangement from left to right, each end less than the next start) and whose replacement
texts do not begin with a BOM, `applyFixes` (messages in any order, any engine sort that meets
`IsSort`) applies every fix, returns `fixed = true` and no remaining message, and its output is
the text with every range replaced by its replacement text. -/
theorem C2_separated_fixes_all_applied (sortFn : SortFn) (hs : IsSort sortFn) (text : JSString)
    (messages : List TextlintMessage) (asc : List TextlintFixCommand)
    (hne : messages ≠ [])
    (hfix : ∀ m ∈ messages, m.fix.isSome = true)
    (hperm : (messages.filterMap (fun m => m.fix)).Perm asc)
    (hsep : asc.Pairwise (fun a b => a.range.2 < b.range.1))
    (hrange : ∀ f ∈ asc, 0 ≤ f.range.1 ∧ f.range.1 ≤ f.range.2 ∧ f.range.2 ≤ text.length)
    (hbom : ∀ f ∈ asc, f.text.head? ≠ some BOM) :
    (acceptedFixes sortFn ⟨text, false⟩ messages).Perm messages ∧
      (applyFixes sortFn ⟨text, false⟩ messages).applyingMessages.length = messages.length ∧
      (applyFixes sortFn ⟨text, false⟩ messages).fixed = true ∧
      (applyFixes sortFn ⟨text, false⟩ messages).remainingMessages = [] ∧
      (applyFixes sortFn ⟨text, false⟩ messages).output = replaceRanges text asc := by
  obtain ⟨h1, h2, h3, h4, h5⟩ :=
    applyFixesLoop_separated sortFn hs text false messages asc hfix hperm hsep hrange hbom
  have hfil := (filter_isSome_of_all messages hfix).1
  have hlen : (messages.filter (fun problem => problem.fix.isSome)).length ≠ 0 := by
    rw [hfil]; simpa using hne
  refine ⟨?_, ?_, ?_, ?_, ?_⟩
  · simp only [acceptedFixes, hlen, ne_eq, not_false_eq_true, if_true, h2]
    exact hs.perm _ _
  · simp only [applyFixes, hlen, ne_eq, not_false_eq_true, if_true, List.length_reverse, h5]
  · simp only [applyFixes, hlen, ne_eq, not_false_eq_true, if_true]
  · simp only [applyFixes, hlen, ne_eq, not_false_eq_true, if_true, h3]
    exact sort_nil hs _
  · simp only [applyFixes, hlen, ne_eq, not_false_eq_true, if_true, h4, h1]
    simp

/-- Witness of C2: the edit `[0,5] -> "HELLO"` on `"hello world"` gives `"HELLO world"`, and
three separated edits given out of order on `"abcdef"` give `"XXbcYeZf"`. -/
theorem C2_separated_fixes_all_applied_witness :
    ((applyFixes insertionSort ⟨"hello world".toList, false⟩
        [fixMessage 1 1 0 5 "HELLO"]).fixed = true ∧
      (applyFixes insertionSort ⟨"hello world".toList, false⟩
        [fixMessage 1 1 0 5 "HELLO"]).remainingMessages = [] ∧
      (applyFixes insertionSort ⟨"hello world".toList, false⟩
        [fixMessage 1 1 0 5 "HELLO"]).output = "HELLO world".toList) ∧
    (applyFixes insertionSort ⟨"abcdef".toList, false⟩
        [fixMessage 1 4 3 4 "Y", fixMessage 1 6 5 5 "Z", fixMessage 1 1 0 1 "XX"]).output
      = "XXbcYeZf".toList := by
  have h1 := C2_separated_fixes_all_applied insertionSort insertionSort_isSort
    "hello world".toList [fixMessage 1 1 0 5 "HELLO"] [⟨(0, 5), "HELLO".toList⟩]
    (by decide) (by decide) (by decide) (by decide) (by decide) (by decide)
  have h2 := C2_separated_fixes_all_applied insertionSort insertionSort_isSort
    "abcdef".toList
    [fixMessage 1 4 3 4 "Y", fixMessage 1 6 5 5 "Z", fixMessage 1 1 0 1 "XX"]
    [⟨(0, 1), "XX".toList⟩, ⟨(3, 4), "Y".toList⟩, ⟨(5, 5), "Z".toList⟩]
    (by decide) (by decide) (by decide) (by decide) (by decide) (by decide)
  exact ⟨⟨h1.2.2.1, h1.2.2.2.1, h1.2.2.2.2.trans (by decide)⟩, h2.2.2.2.2.trans (by decide)⟩

/-- C3 (amended). `fixed` is true if and only if at least one message carries a fix.
Whenever a fix was accepted (`applyingMessages` is non-empty) `fixed` is true; and when every
fix ends at or before the end of the text, `fixed` is true if and only if at least one fix
was accepted. -/
theorem C3_fixed_iff_some_fix (sortFn : SortFn) (hs : IsSort sortFn)
    (sourceCode : SourceCode) (messages : List TextlintMessage) :
    ((applyFixes sortFn sourceCode messages).fixed = true ↔
        ∃ m ∈ messages, m.fix.isSome = true) ∧
      ((applyFixes sortFn sourceCode messages).applyingMessages ≠ [] →
        (applyFixes sortFn sourceCode messages).fixed = true) ∧
      ((∀ m ∈ messages, fixSatisfies (fun f => f.range.2 ≤ sourceCode.text.length) m) →
        ((applyFixes sortFn sourceCode messages).fixed = true ↔
          (applyFixes sortFn sourceCode messages).applyingMessages ≠ [])) := by
  by_cases h : (messages.filter (fun problem => problem.fix.isSome)).length ≠ 0
  · rw [applyFixes_of_fix sortFn sourceCode messages h]
    refine ⟨⟨fun _ => (filter_isSome_length_ne_zero messages).1 h, fun _ => rfl⟩,
      fun _ => rfl, fun hend => ⟨fun _ => ?_, fun _ => rfl⟩⟩
    have h1 := applyFixesLoop_accepted_ne_nil sortFn hs sourceCode messages h hend
    have h2 := applyFixesLoop_ghost sortFn sourceCode messages
    simp only [ne_eq, List.reverse_eq_nil_iff]
    intro h3
    rw [h3] at h2
    simp only [List.map_nil] at h2
    exact h1 (List.map_eq_nil_iff.1 h2.symm)
  · rw [applyFixes_of_no_fix sortFn sourceCode messages h]
    refine ⟨⟨fun h1 => by simp at h1, fun h1 => ?_⟩, fun h1 => by simp at h1,
      fun _ => ⟨fun h1 => by simp at h1, fun h1 => by simp at h1⟩⟩
    exact absurd ((filter_isSome_length_ne_zero messages).2 h1) h

/-- Witness of C3 (amended): with the fixes `[5,10]` and `[8,12]` on a text of length 16,
`fixed` is true and a fix was accepted. -/
theorem C3_fixed_iff_some_fix_witness :
    (applyFixes insertionSort ⟨"0123456789abcdef".toList, false⟩
        [fixMessage 1 6 5 10 "X", fixMessage 1 9 8 12 "Y", plainMessage 1 1]).fixed = true ∧
      (applyFixes insertionSort ⟨"0123456789abcdef".toList, false⟩
        [fixMessage 1 6 5 10 "X", fixMessage 1 9 8 12 "Y", plainMessage 1 1]).applyingMessages
        ≠ [] := by
  have h := C3_fixed_iff_some_fix insertionSort insertionSort_isSort
    ⟨"0123456789abcdef".toList, false⟩
    [fixMessage 1 6 5 10 "X", fixMessage 1 9 8 12 "Y", plainMessage 1 1]
  have hfixed := h.1.2 ⟨fixMessage 1 6 5 10 "X", by decide, by decide⟩
  exact ⟨hfixed, (h.2.2 (by decide)).1 hfixed⟩

/-- C3 as stated fails: on the text `"abc"` the only fix, `[5,10]`, ends beyond the text and is
rejected, yet `fixed` is true while `applyingMessages` is empty. -/
theorem C3_counterexample :
    (applyFixes insertionSort ⟨"abc".toList, false⟩ [fixMessage 1 1 5 10 "X"]).fixed = true ∧
      (applyFixes insertionSort ⟨"abc".toList, false⟩
        [fixMessage 1 1 5 10 "X"]).applyingMessages = [] ∧
      (applyFixes runInsertionSort ⟨"abc".toList, false⟩ [fixMessage 1 1 5 10 "X"]).fixed
        = true ∧
      (applyFixes runInsertionSort ⟨"abc".toList, false⟩
        [fixMessage 1 1 5 10 "X"]).applyingMessages = [] := by
  decide

/-- C4 (amended). Given a BOM-flagged source and the single edit `{range:[-1,0],
text:"\uFEFFX"}`, the start `-1` clears the BOM prefix, but the replacement text begins with
a BOM, which is consumed to set the prefix again: the output is the BOM, then `X`, then the
text. The same edit with the replacement text `"X"` drops the BOM: the output is `X` followed
by the text. -/
theorem C4_bom_edit_output (sortFn : SortFn) (hs : IsSort sortFn) (text : JSString)
    (m : TextlintMessage) :
    (applyFixes sortFn ⟨text, true⟩
        [{ m with fix := some { range := (-1, 0), text := [BOM, 'X'] } }]).output
        = BOM :: 'X' :: text ∧
      (applyFixes sortFn ⟨text, true⟩
        [{ m with fix := some { range := (-1, 0), text := ['X'] } }]).output
        = 'X' :: text := by
  constructor
  · rw [applyFixes_of_fix _ _ _ (by simp), applyFixesLoop_single sortFn hs _ _ (by simp)]
    have h : (0 : Int) < (text.length : Int) + 1 := by omega
    simp [applyFix, h, splice, flatten_map_singleton]
  · rw [applyFixes_of_fix _ _ _ (by simp), applyFixesLoop_single sortFn hs _ _ (by simp)]
    have h : (0 : Int) < (text.length : Int) + 1 := by omega
    have hX : ¬ ('X' = BOM) := by decide
    simp [applyFix, h, splice, flatten_map_singleton, hX]

/-- Witness of C4 (amended): on the BOM-flagged text `"abc"` the edit with the text
`"\uFEFFX"` gives the BOM followed by `"Xabc"`, and the edit with the text `"X"` gives
`"Xabc"`. -/
theorem C4_bom_edit_output_witness :
    (applyFixes insertionSort ⟨"abc".toList, true⟩
        [{ plainMessage 1 1 with fix := some { range := (-1, 0), text := [BOM, 'X'] } }]).output
        = BOM :: 'X' :: "abc".toList ∧
      (applyFixes insertionSort ⟨"abc".toList, true⟩
        [{ plainMessage 1 1 with fix := some { range := (-1, 0), text := ['X'] } }]).output
        = 'X' :: "abc".toList :=
  C4_bom_edit_output insertionSort insertionSort_isSort "abc".toList (plainMessage 1 1)

/-- C4 as stated fails: on the BOM-flagged text `"abc"` the output for the edit
`{range:[-1,0], text:"\uFEFFX"}` still begins with the BOM, not with `X`. -/
theorem C4_counterexample :
    (applyFixes insertionSort ⟨"abc".toList, true⟩
        [{ plainMessage 1 1 with fix := some { range := (-1, 0), text := [BOM, 'X'] } }]).output
        = [BOM, 'X', 'a', 'b', 'c'] ∧
      (applyFixes insertionSort ⟨"abc".toList, true⟩
        [{ plainMessage 1 1 with fix := some { range := (-1, 0), text := [BOM, 'X'] } }]).output.head?
        ≠ some 'X' ∧
      (applyFixes runInsertionSort ⟨"abc".toList, true⟩
        [{ plainMessage 1 1 with fix := some { range := (-1, 0), text := [BOM, 'X'] } }]).output.head?
        = some BOM := by
  decide

/-- C5 (amended). For every source without BOM (flag off, text not beginning with a BOM) and
every list of messages that all carry a fix lying in the text whose replacement text does not
begin with a BOM, listed from the end of the text to its start with each fix ending strictly
before the start of the ones listed before it, `sequentiallyApplyFixes` returns the same
output text as `applyFixes` applied to the list in one batch. -/
theorem C5_sequential_eq_batch_right_to_left (sortFn : SortFn) (hs : IsSort sortFn)
    (text : JSString) (messages : List TextlintMessage)
    (htext : text.head? ≠ some BOM)
    (hfix : ∀ m ∈ messages, m.fix.isSome = true)
    (hrange : ∀ m ∈ messages, fixInText text.length m)
    (hbom : ∀ m ∈ messages, fixTextNoBOM m)
    (hdesc : messages.Pairwise (fun x y => fixBefore y x)) :
    sequentiallyApplyFixes sortFn ⟨text, false⟩ messages =
      (applyFixes sortFn ⟨text, false⟩ messages).output := by
  have hall := exists_fix_of_hyps text.length messages hfix hrange hbom
  have hdesc' : messages.Pairwise (fun x y => ∀ fx fy, x.fix = some fx → y.fix = some fy →
      fy.range.2 < fx.range.1) :=
    hdesc.imp (fun h fx fy hx hy => (fixBefore_some hy hx).1 h)
  have hseq := sequential_descending sortFn hs text messages text text.length le_rfl le_rfl rfl
    (Or.inr htext) hall hdesc'
  unfold sequentiallyApplyFixes
  simp only
  rw [hseq, List.drop_length, List.append_nil]
  by_cases hne : messages = []
  · subst hne
    rw [applyFixes_of_no_fix _ _ _ (by simp)]
    simp [replaceFrom]
  · have hasc : (messages.reverse.filterMap (fun m => m.fix)).Pairwise
        (fun a b => a.range.2 < b.range.1) := by
      rw [List.pairwise_filterMap, List.pairwise_reverse]
      exact hdesc'.imp (fun h fy hy fx hx => h fx fy (by simpa using hx) (by simpa using hy))
    have hmem : ∀ f ∈ messages.reverse.filterMap (fun m => m.fix),
        ∃ m ∈ messages, m.fix = some f := by
      intro f hf
      obtain ⟨m, hm, hmf⟩ := List.mem_filterMap.1 hf
      exact ⟨m, List.mem_reverse.1 hm, hmf⟩
    obtain ⟨h1, _, _, h4, _⟩ := applyFixesLoop_separated sortFn hs text false messages
      (messages.reverse.filterMap (fun m => m.fix)) hfix
      ((List.reverse_perm messages).symm.filterMap _) hasc
      (by
        intro f hf
        obtain ⟨m, hm, hmf⟩ := hmem f hf
        obtain ⟨f', hf', h⟩ := hall m hm
        rw [hmf] at hf'; cases hf'
        exact ⟨h.1, h.2.1, h.2.2.1⟩)
      (by
        intro f hf
        obtain ⟨m, hm, hmf⟩ := hmem f hf
        obtain ⟨f', hf', h⟩ := hall m hm
        rw [hmf] at hf'; cases hf'
        exact h.2.2.2)
    have hlen : (messages.filter (fun problem => problem.fix.isSome)).length ≠ 0 := by
      rw [(filter_isSome_of_all messages hfix).1]; simpa using hne
    rw [applyFixes_of_fix _ _ _ hlen]
    simp only [h1, h4]
    simp [replaceRanges]

/-- Witness of C5 (amended): on `"abcdef"` the edits `[5,5] -> "Z"`, `[3,4] -> "Y"` and
`[0,1] -> "XX"`, listed from right to left, give `"XXbcYeZf"` one at a time as in one batch. -/
theorem C5_sequential_eq_batch_right_to_left_witness :
    sequentiallyApplyFixes insertionSort ⟨"abcdef".toList, false⟩
        [fixMessage 1 6 5 5 "Z", fixMessage 1 4 3 4 "Y", fixMessage 1 1 0 1 "XX"]
      = (applyFixes insertionSort ⟨"abcdef".toList, false⟩
        [fixMessage 1 6 5 5 "Z", fixMessage 1 4 3 4 "Y", fixMessage 1 1 0 1 "XX"]).output ∧
    sequentiallyApplyFixes insertionSort ⟨"abcdef".toList, false⟩
        [fixMessage 1 6 5 5 "Z", fixMessage 1 4 3 4 "Y", fixMessage 1 1 0 1 "XX"]
      = "XXbcYeZf".toList :=
  ⟨C5_sequential_eq_batch_right_to_left insertionSort insertionSort_isSort "abcdef".toList
      [fixMessage 1 6 5 5 "Z", fixMessage 1 4 3 4 "Y", fixMessage 1 1 0 1 "XX"]
      (by decide) (by decide) (by decide) (by decide) (by decide),
   by decide⟩

/-- C5 as stated fails. On `"abcdef"` the non-overlapping edits `[0,1] -> "XX"` and
`[3,4] -> "Y"`, in that order, give `"XXbYdef"` one at a time (the second edit is applied to
the text already shifted by the first) and `"XXbcYef"` in one batch. The abutting, hence
non-overlapping, edits `[2,4] -> "Y"` and `[0,2] -> "X"` give `"XYef"` one at a time and
`"abYef"` in one batch, where `[0,2]` is rejected. -/
theorem C5_counterexample :
    ¬ fixesOverlap (fixMessage 1 1 0 1 "XX") (fixMessage 1 4 3 4 "Y") ∧
    sequentiallyApplyFixes insertionSort ⟨"abcdef".toList, false⟩
        [fixMessage 1 1 0 1 "XX", fixMessage 1 4 3 4 "Y"] = "XXbYdef".toList ∧
    (applyFixes insertionSort ⟨"abcdef".toList, false⟩
        [fixMessage 1 1 0 1 "XX", fixMessage 1 4 3 4 "Y"]).output = "XXbcYef".toList ∧
    sequentiallyApplyFixes runInsertionSort ⟨"abcdef".toList, false⟩
        [fixMessage 1 1 0 1 "XX", fixMessage 1 4 3 4 "Y"] = "XXbYdef".toList ∧
    (applyFixes runInsertionSort ⟨"abcdef".toList, false⟩
        [fixMessage 1 1 0 1 "XX", fixMessage 1 4 3 4 "Y"]).output = "XXbcYef".toList ∧
    ¬ fixesOverlap (fixMessage 1 3 2 4 "Y") (fixMessage 1 1 0 2 "X") ∧
    sequentiallyApplyFixes insertionSort ⟨"abcdef".toList, false⟩
        [fixMessage 1 3 2 4 "Y", fixMessage 1 1 0 2 "X"] = "XYef".toList ∧
    (applyFixes insertionSort ⟨"abcdef".toList, false⟩
        [fixMessage 1 3 2 4 "Y", fixMessage 1 1 0 2 "X"]).output = "abYef".toList := by
  decide

/-- C6 (amended). When at least one message carries a fix, the `remainingMessages` returned
by `applyFixes` are sorted by line and then by column; when no message carries a fix,
`remainingMessages` is the list of the messages in the order given, not sorted. -/
theorem C6_remaining_sorted_when_some_fix (sortFn : SortFn) (hs : IsSort sortFn)
    (sourceCode : SourceCode) (messages : List TextlintMessage) :
    ((∃ m ∈ messages, m.fix.isSome = true) →
        SortedByLocation (applyFixes sortFn sourceCode messages).remainingMessages) ∧
      ((∀ m ∈ messages, m.fix = none) →
        (applyFixes sortFn sourceCode messages).remainingMessages = messages) := by
  constructor
  · intro h
    rw [applyFixes_of_fix _ _ _ ((filter_isSome_length_ne_zero messages).2 h)]
    exact sortedByLocation_sort hs _
  · intro h
    have h1 : ¬ (messages.filter (fun problem => problem.fix.isSome)).length ≠ 0 := by
      rw [filter_isSome_length_ne_zero]
      rintro ⟨m, hm, hsome⟩
      rw [h m hm] at hsome
      simp at hsome
    rw [applyFixes_of_no_fix _ _ _ h1]
    exact List.filter_eq_self.2 (fun m hm => by rw [h m hm]; rfl)

/-- Witness of C6 (amended): with a fix among the messages the remaining messages come out
sorted; without any fix they come out as given. -/
theorem C6_remaining_sorted_when_some_fix_witness :
    SortedByLocation (applyFixes insertionSort ⟨"0123456789abcdef".toList, false⟩
        [plainMessage 3 1, fixMessage 2 2 8 12 "Y", plainMessage 1 7,
          fixMessage 1 1 5 10 "X"]).remainingMessages ∧
      (applyFixes insertionSort ⟨"abc".toList, false⟩
        [plainMessage 2 1, plainMessage 1 1]).remainingMessages
        = [plainMessage 2 1, plainMessage 1 1] :=
  ⟨(C6_remaining_sorted_when_some_fix insertionSort insertionSort_isSort
      ⟨"0123456789abcdef".toList, false⟩
      [plainMessage 3 1, fixMessage 2 2 8 12 "Y", plainMessage 1 7,
        fixMessage 1 1 5 10 "X"]).1 ⟨fixMessage 1 1 5 10 "X", by decide, by decide⟩,
   (C6_remaining_sorted_when_some_fix insertionSort insertionSort_isSort
      ⟨"abc".toList, false⟩ [plainMessage 2 1, plainMessage 1 1]).2 (by decide)⟩

/-- C6 as stated fails: two messages without fix, given as line 2 then line 1, are returned
in that order, which is not sorted by line. -/
theorem C6_counterexample :
    (applyFixes insertionSort ⟨"abc".toList, false⟩
        [plainMessage 2 1, plainMessage 1 1]).remainingMessages
        = [plainMessage 2 1, plainMessage 1 1] ∧
      ¬ SortedByLocation (applyFixes insertionSort ⟨"abc".toList, false⟩
        [plainMessage 2 1, plainMessage 1 1]).remainingMessages ∧
      ¬ SortedByLocation (applyFixes runInsertionSort ⟨"abc".toList, false⟩
        [plainMessage 2 1, plainMessage 1 1]).remainingMessages := by
  decide

/-- C7, the code at the failing inputs. For the overlapping fixes `[5,10] -> "X"` and
`[8,12] -> "Y"` the comparator of `fixes.sort` answers `-1` for both orders of its arguments.
With the straight insertion sort the pair given as `[5,10]`, `[8,12]` keeps its order, and with
the run-based sort the pair given as `[8,12]`, `[5,10]` is reversed: in both cases `[5,10]`,
the fix with the smaller end, is processed first and accepted, and `[8,12]` is rejected. -/
theorem C7_overlapping_pair_smaller_end_accepted :
    compareFixes (fixMessage 1 6 5 10 "X") (fixMessage 1 9 8 12 "Y") = -1 ∧
    compareFixes (fixMessage 1 9 8 12 "Y") (fixMessage 1 6 5 10 "X") = -1 ∧
    acceptedFixes insertionSort ⟨"0123456789abcdef".toList, false⟩
        [fixMessage 1 6 5 10 "X", fixMessage 1 9 8 12 "Y"] = [fixMessage 1 6 5 10 "X"] ∧
    (applyFixes insertionSort ⟨"0123456789abcdef".toList, false⟩
        [fixMessage 1 6 5 10 "X", fixMessage 1 9 8 12 "Y"]).remainingMessages
      = [fixMessage 1 9 8 12 "Y"] ∧
    (applyFixes insertionSort ⟨"0123456789abcdef".toList, false⟩
        [fixMessage 1 6 5 10 "X", fixMessage 1 9 8 12 "Y"]).output = "01234Xabcdef".toList ∧
    acceptedFixes runInsertionSort ⟨"0123456789abcdef".toList, false⟩
        [fixMessage 1 9 8 12 "Y", fixMessage 1 6 5 10 "X"] = [fixMessage 1 6 5 10 "X"] ∧
    (applyFixes runInsertionSort ⟨"0123456789abcdef".toList, false⟩
        [fixMessage 1 9 8 12 "Y", fixMessage 1 6 5 10 "X"]).remainingMessages
      = [fixMessage 1 9 8 12 "Y"] ∧
    (applyFixes runInsertionSort ⟨"0123456789abcdef".toList, false⟩
        [fixMessage 1 9 8 12 "Y", fixMessage 1 6 5 10 "X"]).output = "01234Xabcdef".toList := by
  decide

/-- C8. For every source without BOM and every two fixes `A = [a, b]` and `B = [b, c]` with
`0 ≤ a < b < c ≤ length` (A abuts B from the left), in either input order and for every engine
sort meeting `IsSort`, `applyFixes` accepts B, rejects A into `remainingMessages`, and outputs
the text with only `[b, c)` replaced. -/
theorem C8_abutting_left_fix_rejected (sortFn : SortFn) (hs : IsSort sortFn) (text : JSString)
    (a b c : Nat) (hab : a < b) (hbc : b < c) (hc : c ≤ text.length)
    (mA mB : TextlintMessage) (tA tB : JSString) (l : List TextlintMessage)
    (hl : l = [{ mA with fix := some { range := (a, b), text := tA } },
               { mB with fix := some { range := (b, c), text := tB } }] ∨
          l = [{ mB with fix := some { range := (b, c), text := tB } },
               { mA with fix := some { range := (a, b), text := tA } }]) :
    acceptedFixes sortFn ⟨text, false⟩ l =
        [{ mB with fix := some { range := (b, c), text := tB } }] ∧
      (applyFixes sortFn ⟨text, false⟩ l).applyingMessages.length = 1 ∧
      (applyFixes sortFn ⟨text, false⟩ l).remainingMessages =
        [{ mA with fix := some { range := (a, b), text := tA } }] ∧
      (applyFixes sortFn ⟨text, false⟩ l).fixed = true ∧
      (applyFixes sortFn ⟨text, false⟩ l).output = text.take b ++ tB ++ text.drop c := by
  have hsort := sort_abutting sortFn hs
    { mA with fix := some { range := (a, b), text := tA } }
    { mB with fix := some { range := (b, c), text := tB } }
    { range := (a, b), text := tA } { range := (b, c), text := tB } rfl rfl
    (by simp only; omega) rfl (by simp only; omega) l hl
  have hfil : l.filter (fun problem => problem.fix.isSome) = l := by
    rcases hl with rfl | rfl <;> simp
  have hnone : l.filter (fun problem => problem.fix.isNone) = [] := by
    rcases hl with rfl | rfl <;> simp
  have hlen : (l.filter (fun problem => problem.fix.isSome)).length ≠ 0 := by
    rw [hfil]; rcases hl with rfl | rfl <;> simp
  have hB := applyFix_accept
    { chars := text.map (fun ch => [ch]), lastFixPos := (text.length : Int) + 1,
      prefixBOM := [], applyingMessages := [], remainingMessages := [], accepted := [] }
    { mB with fix := some { range := (b, c), text := tB } } { range := (b, c), text := tB } rfl
    (by simp only; omega) (by simp only; omega) (by simp only; omega)
  have hsp := splice_singles text text.length b c [] tB (by omega) hc le_rfl
  simp only [List.take_length, List.append_nil] at hsp
  simp only [hsp] at hB
  have hloop : applyFixesLoop sortFn ⟨text, false⟩ l =
      applyFix (applyFix
        { chars := text.map (fun ch => [ch]), lastFixPos := (text.length : Int) + 1,
          prefixBOM := [], applyingMessages := [], remainingMessages := [], accepted := [] }
        { mB with fix := some { range := (b, c), text := tB } })
        { mA with fix := some { range := (a, b), text := tA } } := by
    simp only [applyFixesLoop, hfil, hnone, hsort, List.foldl_cons, List.foldl_nil]
    rfl
  obtain ⟨h1, _, h3, h4, h5, h6⟩ := applyFix_of_not_lt
    (applyFix
      { chars := text.map (fun ch => [ch]), lastFixPos := (text.length : Int) + 1,
        prefixBOM := [], applyingMessages := [], remainingMessages := [], accepted := [] }
      { mB with fix := some { range := (b, c), text := tB } })
    { mA with fix := some { range := (a, b), text := tA } } { range := (a, b), text := tA } rfl
    (by rw [hB]; simp)
  rw [← hloop] at h1 h3 h4 h5 h6
  rw [hB] at h1 h3 h4 h5 h6
  simp only [List.nil_append] at h1 h3 h4 h5 h6
  refine ⟨?_, ?_, ?_, ?_, ?_⟩
  · rw [acceptedFixes, if_pos hlen, h1]
  · rw [applyFixes_of_fix _ _ _ hlen]
    simp only [List.length_reverse, h4, List.length_singleton]
  · rw [applyFixes_of_fix _ _ _ hlen]
    simp only [h3, sort_singleton hs]
  · rw [applyFixes_of_fix _ _ _ hlen]
  · rw [applyFixes_of_fix _ _ _ hlen]
    simp only [h5, h6, List.nil_append, List.flatten_append, List.flatten_cons,
      flatten_map_singleton, List.append_assoc]

/-- Witness of C8: on `"abcdef"` with `A = [0,2] -> "X"` and `B = [2,4] -> "Y"`, given as
A then B, B is accepted, A is rejected and the output is `"abYef"`. -/
theorem C8_abutting_left_fix_rejected_witness :
    acceptedFixes insertionSort ⟨"abcdef".toList, false⟩
        [fixMessage 1 1 0 2 "X", fixMessage 1 3 2 4 "Y"] = [fixMessage 1 3 2 4 "Y"] ∧
      (applyFixes insertionSort ⟨"abcdef".toList, false⟩
        [fixMessage 1 1 0 2 "X", fixMessage 1 3 2 4 "Y"]).remainingMessages
        = [fixMessage 1 1 0 2 "X"] ∧
      (applyFixes insertionSort ⟨"abcdef".toList, false⟩
        [fixMessage 1 1 0 2 "X", fixMessage 1 3 2 4 "Y"]).output = "abYef".toList := by
  have h := C8_abutting_left_fix_rejected insertionSort insertionSort_isSort "abcdef".toList
    0 2 4 (by decide) (by decide) (by decide) (fixMessage 1 1 0 2 "X") (fixMessage 1 3 2 4 "Y")
    "X".toList "Y".toList [fixMessage 1 1 0 2 "X", fixMessage 1 3 2 4 "Y"] (Or.inl rfl)
  exact ⟨h.1, h.2.2.1, h.2.2.2.2.trans (by decide)⟩

/-- C9 (amended). `applyFixes` keeps no record of the edits applied by an earlier run: run
again on the output text of a first run with the same, now stale, message, it accepts the fix
again if and only if the end offset of the fix is at most the length of the current text,
whether or not the first run applied it. -/
theorem C9_second_run_accepts_by_offsets (sortFn : SortFn) (hs : IsSort sortFn)
    (sourceCode : SourceCode) (m : TextlintMessage) (f : TextlintFixCommand)
    (hf : m.fix = some f) (hasBOM : Bool) :
    acceptedFixes sortFn ⟨(applyFixes sortFn sourceCode [m]).output, hasBOM⟩ [m] = [m] ↔
      f.range.2 ≤ ((applyFixes sortFn sourceCode [m]).output).length :=
  acceptedFixes_single_iff sortFn hs _ m f hf

/-- Witness of C9 (amended): the edit `[0,1] -> "XY"` on `"ab"` is accepted by a second run on
the output `"XYb"`, since `1 ≤ 3`. -/
theorem C9_second_run_accepts_by_offsets_witness :
    acceptedFixes insertionSort
        ⟨(applyFixes insertionSort ⟨"ab".toList, false⟩ [fixMessage 1 1 0 1 "XY"]).output, false⟩
        [fixMessage 1 1 0 1 "XY"] = [fixMessage 1 1 0 1 "XY"] :=
  (C9_second_run_accepts_by_offsets insertionSort insertionSort_isSort ⟨"ab".toList, false⟩
    (fixMessage 1 1 0 1 "XY") ⟨(0, 1), "XY".toList⟩ rfl false).2 (by decide)

/-- C9 as stated fails: the edit `[0,1] -> "XY"` on `"ab"` is applied by the first run, which
gives `"XYb"`; the offsets `[0,1]` no longer describe the replaced `"a"`, yet a second run on
`"XYb"` with the same message accepts the edit again and gives `"XYYb"`. -/
theorem C9_counterexample :
    acceptedFixes insertionSort ⟨"ab".toList, false⟩ [fixMessage 1 1 0 1 "XY"]
      = [fixMessage 1 1 0 1 "XY"] ∧
    (applyFixes insertionSort ⟨"ab".toList, false⟩ [fixMessage 1 1 0 1 "XY"]).output
      = "XYb".toList ∧
    acceptedFixes insertionSort
        ⟨(applyFixes insertionSort ⟨"ab".toList, false⟩ [fixMessage 1 1 0 1 "XY"]).output, false⟩
        [fixMessage 1 1 0 1 "XY"] = [fixMessage 1 1 0 1 "XY"] ∧
    (applyFixes insertionSort
        ⟨(applyFixes insertionSort ⟨"ab".toList, false⟩ [fixMessage 1 1 0 1 "XY"]).output, false⟩
        [fixMessage 1 1 0 1 "XY"]).output = "XYYb".toList ∧
    (applyFixes runInsertionSort
        ⟨(applyFixes runInsertionSort ⟨"ab".toList, false⟩
          [fixMessage 1 1 0 1 "XY"]).output, false⟩
        [fixMessage 1 1 0 1 "XY"]).output = "XYYb".toList := by
  decide

/-- C10. `shouldExecute` returns true whenever the cache is disabled. When the cache is
enabled it returns false if and only if the descriptor of the file reports unchanged content
and the config hash stored in the descriptor's metadata equals the current config hash; a
descriptor without metadata counts as a differing hash, so the result is true. -/
theorem C10_shouldExecute (self : CacheBacker) (filePath : String) :
    (self.isEnabled = false → self.shouldExecute filePath = true) ∧
      (self.isEnabled = true →
        (self.shouldExecute filePath = false ↔
          (self.fileCache filePath).changed = false ∧
            ∃ meta, (self.fileCache filePath).meta = some meta ∧
              meta.hashOfConfig = some self.hashOfConfig)) ∧
      (self.isEnabled = true → (self.fileCache filePath).meta = none →
        self.shouldExecute filePath = true) := by
  refine ⟨?_, ?_, ?_⟩
  · intro h
    simp [CacheBacker.shouldExecute, h]
  · intro h
    cases hm : (self.fileCache filePath).meta with
    | none => simp [CacheBacker.shouldExecute, h, hm]
    | some meta => simp [CacheBacker.shouldExecute, h, hm]
  · intro h hm
    simp [CacheBacker.shouldExecute, h, hm]

/-- Witness of C10: an enabled cache with an unchanged file stamped with the current hash
`"h1"` gives false; a disabled one gives true; an enabled one whose descriptor has no
metadata gives true. -/
theorem C10_shouldExecute_witness :
    CacheBacker.shouldExecute
        ⟨true, fun _ => ⟨false, some ⟨some "h1"⟩⟩, "h1"⟩ "a.md" = false ∧
      CacheBacker.shouldExecute
        ⟨false, fun _ => ⟨false, some ⟨some "h1"⟩⟩, "h1"⟩ "a.md" = true ∧
      CacheBacker.shouldExecute ⟨true, fun _ => ⟨false, none⟩, "h1"⟩ "a.md" = true :=
  ⟨((C10_shouldExecute ⟨true, fun _ => ⟨false, some ⟨some "h1"⟩⟩, "h1"⟩ "a.md").2.1 rfl).2
      ⟨rfl, ⟨some "h1"⟩, rfl, rfl⟩,
   (C10_shouldExecute ⟨false, fun _ => ⟨false, some ⟨some "h1"⟩⟩, "h1"⟩ "a.md").1 rfl,
   (C10_shouldExecute ⟨true, fun _ => ⟨false, none⟩, "h1"⟩ "a.md").2.2 rfl rfl⟩

/-- C11. With the cache enabled, `didExecute` for a result that carries one or more messages
removes the entry of the file from the store in memory, and `shouldExecute` of the same backer
is true for the file from then on. The removal reaches the cache file only when `afterAll`
saves: when the descriptor of some other file is handed out, the saved cache has no entry for
the file and `shouldExecute` of every backer constructed from it is true; when no other
descriptor is handed out, `reconcile` returns before saving, the cache file is as it was, and
a backer constructed from it in the next run answers as if `didExecute` had not been called. -/
theorem C11_removal_is_saved_only_with_another_descriptor (self : CacheBackerState)
    (result : TextlintResult) (henabled : self.isEnabled = true)
    (hmsg : result.messages ≠ []) :
    (self.didExecute result).fileCache.cache result.filePath = none ∧
      (self.didExecute result).fileCache.normalizedEntries result.filePath = none ∧
      (self.didExecute result).view.shouldExecute result.filePath = true ∧
      (self.didExecute result).afterAll.view.shouldExecute result.filePath = true ∧
      ((∃ name ∈ self.fileCache.entryNames, name ≠ result.filePath) →
        (self.didExecute result).afterAll.fileCache.saved result.filePath = none ∧
        ∀ hash fs, (CacheBackerState.create true hash
          (self.didExecute result).afterAll.fileCache.saved fs).view.shouldExecute
            result.filePath = true) ∧
      ((∀ name ∈ self.fileCache.entryNames, name = result.filePath) →
        (self.didExecute result).afterAll.fileCache.saved = self.fileCache.saved ∧
        ∀ hash fs, (CacheBackerState.create true hash
          (self.didExecute result).afterAll.fileCache.saved fs).view.shouldExecute
            result.filePath =
          (CacheBackerState.create true hash self.fileCache.saved fs).view.shouldExecute
            result.filePath) := by
  obtain ⟨h1, h2, h3, h4, h5⟩ := self.didExecute_of_messages result henabled hmsg
  obtain ⟨e1, e2⟩ := self.didExecute_of_messages_entries result henabled hmsg
  obtain ⟨a1, a2, a3, a4⟩ := (self.didExecute result).afterAll_cache result.filePath
  have hsaved := (self.didExecute result).afterAll_saved
  have hafter : (self.didExecute result).afterAll.fileCache.cache result.filePath = none := by
    rw [a4]
    cases hfs : (self.didExecute result).fileCache.fs result.filePath with
    | none => rfl
    | some fstat => simp [h5, h4]
  refine ⟨h4, h5, ?_, ?_, ?_, ?_⟩
  · rw [CacheBackerState.shouldExecute_eq, h4]
    cases (self.didExecute result).fileCache.fs result.filePath <;> simp
  · rw [CacheBackerState.shouldExecute_eq, hafter]
    cases (self.didExecute result).afterAll.fileCache.fs result.filePath <;> simp
  · rintro ⟨name, hname, hne⟩
    have hk : ¬ (self.didExecute result).fileCache.entryNames.length = 0 := by
      rw [e1]
      intro h0
      have hmem : name ∈ self.fileCache.entryNames.filter (fun name => name ≠ result.filePath) :=
        List.mem_filter.2 ⟨hname, by simpa using hne⟩
      rw [List.length_eq_zero.1 h0] at hmem
      cases hmem
    have hnone : (self.didExecute result).afterAll.fileCache.saved result.filePath = none := by
      rw [hsaved, if_neg hk, hafter]
    refine ⟨hnone, ?_⟩
    intro hash fs
    rw [CacheBackerState.create_shouldExecute, hnone]
    cases fs result.filePath <;> rfl
  · intro hall
    have hk : (self.didExecute result).fileCache.entryNames.length = 0 := by
      rw [e1, List.length_eq_zero, List.filter_eq_nil_iff]
      intro name hname
      simp [hall name hname]
    have hsame : (self.didExecute result).afterAll.fileCache.saved = self.fileCache.saved := by
      rw [hsaved, if_pos hk, e2]
    refine ⟨hsame, ?_⟩
    intro hash fs
    rw [hsame]

/-- Witness of C11, the failing run: the cache file holds `a.md`, unchanged, under the hash
`"h1"`, so a new backer skips the file. `didExecute` with one message for `a.md` removes the
entry in memory and the same backer would lint the file, but `afterAll` does not write the
cache file, and the backer of the next run, with the same hash, skips the file again. -/
theorem C11_removal_is_saved_only_with_another_descriptor_witness :
    (CacheBackerState.create true "h1" (exampleSaved (some ⟨⟨10, 5⟩, ⟨some "h1"⟩⟩))
        exampleFs).view.shouldExecute "a.md" = false ∧
      ((CacheBackerState.create true "h1" (exampleSaved (some ⟨⟨10, 5⟩, ⟨some "h1"⟩⟩))
        exampleFs).didExecute ⟨"a.md", [plainMessage 1 1]⟩).afterAll.view.shouldExecute "a.md"
        = true ∧
      (CacheBackerState.create true "h1"
        ((CacheBackerState.create true "h1" (exampleSaved (some ⟨⟨10, 5⟩, ⟨some "h1"⟩⟩))
          exampleFs).didExecute ⟨"a.md", [plainMessage 1 1]⟩).afterAll.fileCache.saved
        exampleFs).view.shouldExecute "a.md" = false :=
  ⟨by decide,
   (C11_removal_is_saved_only_with_another_descriptor
      (CacheBackerState.create true "h1" (exampleSaved (some ⟨⟨10, 5⟩, ⟨some "h1"⟩⟩)) exampleFs)
      ⟨"a.md", [plainMessage 1 1]⟩ rfl (by decide)).2.2.2.1,
   (((C11_removal_is_saved_only_with_another_descriptor
      (CacheBackerState.create true "h1" (exampleSaved (some ⟨⟨10, 5⟩, ⟨some "h1"⟩⟩)) exampleFs)
      ⟨"a.md", [plainMessage 1 1]⟩ rfl (by decide)).2.2.2.2.2
        (by intro name hname; cases hname)).2 "h1" exampleFs).trans (by decide)⟩

/-- C12. With the cache enabled, `didExecute` for a result without message stamps the
metadata object of the file's descriptor with the current config hash: for a file that can be
read the descriptor handed out carries the hash, `afterAll` records it with the current size
and modification time and saves it to the cache file, `shouldExecute` is then false, and so is
`shouldExecute` of a backer constructed from the cache file with the same config hash while
the file is unchanged. Every later `shouldExecute` of an
enabled backer with the same config hash, on a store whose recorded metadata for the file are
those left by `didExecute` or by the `afterAll` that follows, returns false whenever the
descriptor reports unchanged content for the file. -/
theorem C12_no_message_stamps_hash (self : CacheBackerState) (result : TextlintResult)
    (henabled : self.isEnabled = true) (hmsg : result.messages = [])
    (later : CacheBackerState)
    (hlater : later.fileCache.cache result.filePath =
        (self.didExecute result).fileCache.cache result.filePath ∨
      later.fileCache.cache result.filePath =
        (self.didExecute result).afterAll.fileCache.cache result.filePath)
    (hhash : later.hashOfConfig = self.hashOfConfig) (hen : later.isEnabled = true) :
    (∀ fstat, self.fileCache.fs result.filePath = some fstat →
        (∃ meta, (self.didExecute result).fileCache.normalizedEntries result.filePath =
            some meta ∧ meta.props.hashOfConfig = some self.hashOfConfig) ∧
          (self.didExecute result).afterAll.fileCache.cache result.filePath =
            some { stat := fstat, props := { hashOfConfig := some self.hashOfConfig } } ∧
          (self.didExecute result).afterAll.view.shouldExecute result.filePath = false ∧
          (self.didExecute result).afterAll.fileCache.saved result.filePath =
            some { stat := fstat, props := { hashOfConfig := some self.hashOfConfig } } ∧
          ∀ fs, fs result.filePath = some fstat →
            (CacheBackerState.create true self.hashOfConfig
              (self.didExecute result).afterAll.fileCache.saved fs).view.shouldExecute
                result.filePath = false) ∧
      ((later.fileCache.fs result.filePath).isSome = true →
        (later.fileCache.getFileDescriptor result.filePath).1.changed = false →
        later.view.shouldExecute result.filePath = false) := by
  obtain ⟨s1, s2, s3⟩ := self.didExecute_no_message_stamped result henabled hmsg
  obtain ⟨a1, a2, a3, a4⟩ := (self.didExecute result).afterAll_cache result.filePath
  constructor
  · intro fstat hfile
    obtain ⟨h1, h2, h3, h4, h5⟩ := self.didExecute_of_no_message result henabled hmsg fstat hfile
    have hk : ¬ (self.didExecute result).fileCache.entryNames.length = 0 := by
      intro h0
      have hmem := self.didExecute_of_no_message_entries result henabled hmsg fstat hfile
      rw [List.length_eq_zero.1 h0] at hmem
      cases hmem
    have hafter : (self.didExecute result).afterAll.fileCache.cache result.filePath =
        some { stat := fstat, props := { hashOfConfig := some self.hashOfConfig } } := by
      rw [a4, h3, hfile, h5]
      simp only [if_neg hk]
    have hsaved : (self.didExecute result).afterAll.fileCache.saved result.filePath =
        some { stat := fstat, props := { hashOfConfig := some self.hashOfConfig } } := by
      rw [(self.didExecute result).afterAll_saved, if_neg hk, hafter]
    refine ⟨⟨_, h5, rfl⟩, hafter, ?_, hsaved, ?_⟩
    · rw [CacheBackerState.shouldExecute_eq, hafter, a3, h3, hfile, a1, h1, a2, h2]
      simp
    · intro fs hfs
      rw [CacheBackerState.create_shouldExecute, hfs, hsaved]
      simp
  · intro hexists hunchanged
    have hstamped : ∀ meta, later.fileCache.cache result.filePath = some meta →
        meta.props.hashOfConfig = some self.hashOfConfig := by
      intro meta hm
      rcases hlater with hl | hl
      · exact s1 meta (hl ▸ hm)
      · rw [hl, a4] at hm
        cases hfs : (self.didExecute result).fileCache.fs result.filePath with
        | none => rw [hfs] at hm; simp at hm
        | some fstat =>
          rw [hfs] at hm
          by_cases hk : (self.didExecute result).fileCache.entryNames.length = 0
          · simp only [if_pos hk] at hm
            exact s1 meta hm
          · simp only [if_neg hk] at hm
            cases hn : (self.didExecute result).fileCache.normalizedEntries result.filePath with
            | none => rw [hn] at hm; exact s1 meta hm
            | some m =>
              rw [hn] at hm
              simp only [Option.some.injEq] at hm
              rw [← hm]
              exact s2 m hn
    cases hfs : later.fileCache.fs result.filePath with
    | none => rw [hfs] at hexists; simp at hexists
    | some fstat =>
      cases hc : later.fileCache.cache result.filePath with
      | none =>
        simp [FileEntryCache.getFileDescriptor, hfs, hc] at hunchanged
      | some meta =>
        have hm := hstamped meta hc
        simp only [FileEntryCache.getFileDescriptor, hfs, hc] at hunchanged
        rw [CacheBackerState.shouldExecute_eq, hfs, hc, hen, hhash]
        simp only [Bool.not_true, Bool.false_eq_true, if_false, hunchanged, hm, ne_eq,
          not_true_eq_false, decide_False, Bool.or_self]

/-- Witness of C12: nothing is recorded for `a.md`, so `shouldExecute` is true; after
`didExecute` without message and `afterAll` it is false. -/
theorem C12_no_message_stamps_hash_witness :
    (CacheBackerState.view ⟨true, exampleStore none, "h1"⟩).shouldExecute "a.md" = true ∧
      ((CacheBackerState.didExecute ⟨true, exampleStore none, "h1"⟩
          ⟨"a.md", []⟩).afterAll.view.shouldExecute "a.md" = false) :=
  ⟨by decide,
   (C12_no_message_stamps_hash ⟨true, exampleStore none, "h1"⟩ ⟨"a.md", []⟩ rfl rfl
      (CacheBackerState.didExecute ⟨true, exampleStore none, "h1"⟩ ⟨"a.md", []⟩).afterAll
      (Or.inr rfl) rfl rfl).2 (by decide) (by decide)⟩

/-- C13. For every file list, backer chain and lint function, `process` calls the lint
function on exactly the files for which every registered backer's `shouldExecute` returns
true, in the order of the list; every other file is not passed to the lint function and gets
the placeholder `{filePath, messages: []}` in `unExecutedResults`; and when no lint task is
rejected the promise is fulfilled with the lint results followed by these placeholders. -/
theorem C13_lint_iff_every_backer_agrees (self : ExecuteFileBackerManager)
    (completion : List (String × Option TextlintResult) → List (String × Option TextlintResult))
    (files : List String) (executeFile : String → Option TextlintResult) :
    (self.process completion files executeFile).calls.filterMap Call.executedFile =
        files.filter (fun filePath =>
          self.backers.all (fun backer => backer.shouldExecute filePath)) ∧
      (∀ filePath, Call.executeFile filePath ∈ (self.process completion files executeFile).calls ↔
        filePath ∈ files ∧ ∀ backer ∈ self.backers, backer.shouldExecute filePath = true) ∧
      (self.process completion files executeFile).unExecutedResults =
        (files.filter (fun filePath =>
          !self.backers.all (fun backer => backer.shouldExecute filePath))).map
          (fun filePath => { filePath := filePath, messages := [] }) ∧
      ((∀ filePath ∈ executedFiles self files, (executeFile filePath).isSome = true) →
        (self.process completion files executeFile).results =
          some ((executedFiles self files).filterMap executeFile ++
            (skippedFiles self files).map
              (fun filePath => { filePath := filePath, messages := [] }))) := by
  obtain ⟨gateCalls, hgate, hcalls, hun, hres⟩ := process_eq self completion files executeFile
  have hfm : (self.process completion files executeFile).calls.filterMap Call.executedFile =
      executedFiles self files := by
    have h1 : gateCalls.filterMap Call.executedFile = [] := by
      apply filterMap_eq_nil_of_forall
      intro c hc
      obtain ⟨k, filePath, rfl⟩ := hgate c hc
      rfl
    have h2 : (didExecuteCalls self.backers.length
        (completion ((executedFiles self files).map
          (fun filePath => (filePath, executeFile filePath))))).filterMap
        Call.executedFile = [] := by
      apply filterMap_eq_nil_of_forall
      intro c hc
      obtain ⟨k, result, rfl, _⟩ := mem_didExecuteCalls _ _ c hc
      rfl
    have h3 : (if (executedFiles self files).all (fun filePath => (executeFile filePath).isSome)
        then (List.range self.backers.length).map Call.afterAll else []).filterMap
        Call.executedFile = [] := by
      apply filterMap_eq_nil_of_forall
      intro c hc
      split at hc
      · simp only [List.mem_map] at hc
        obtain ⟨k, _, rfl⟩ := hc
        rfl
      · simp at hc
    rw [hcalls, List.filterMap_append, List.filterMap_append, List.filterMap_append, h1, h2, h3,
      filterMap_executedFile_map]
    simp
  refine ⟨hfm, ?_, hun, ?_⟩
  · intro filePath
    have hiff : Call.executeFile filePath ∈ (self.process completion files executeFile).calls ↔
        filePath ∈ (self.process completion files executeFile).calls.filterMap
          Call.executedFile := by
      rw [List.mem_filterMap]
      constructor
      · intro h; exact ⟨_, h, rfl⟩
      · rintro ⟨c, hc, hcf⟩
        cases c <;> simp [Call.executedFile] at hcf
        subst hcf
        exact hc
    rw [hiff, hfm, executedFiles, List.mem_filter, List.all_eq_true]
  · intro hok
    rw [hres, if_pos (List.all_eq_true.2 hok)]
    rfl

/-- Witness of C13: of `a.md`, `b.md`, `c.md` the first backer skips `b.md`; the lint function
is called on `a.md` and `c.md`, and `b.md` gets the placeholder, last in the results. -/
theorem C13_lint_iff_every_backer_agrees_witness :
    (ExecuteFileBackerManager.process ⟨exampleBackers⟩ List.reverse ["a.md", "b.md", "c.md"]
        exampleLint).calls.filterMap Call.executedFile = ["a.md", "c.md"] ∧
      (ExecuteFileBackerManager.process ⟨exampleBackers⟩ List.reverse ["a.md", "b.md", "c.md"]
        exampleLint).results =
        some [⟨"a.md", [plainMessage 1 1]⟩, ⟨"c.md", []⟩, ⟨"b.md", []⟩] :=
  ⟨(C13_lint_iff_every_backer_agrees ⟨exampleBackers⟩ List.reverse ["a.md", "b.md", "c.md"]
      exampleLint).1.trans (by decide),
   ((C13_lint_iff_every_backer_agrees ⟨exampleBackers⟩ List.reverse ["a.md", "b.md", "c.md"]
      exampleLint).2.2.2 (by decide)).trans (by decide)⟩

/-- C14. In `process`, whatever the order in which the lint tasks settle, `didExecute` of each
registered backer is called exactly once for each lint task that is fulfilled, with the result
of that task, and for nothing else: the results passed to the backer are, up to their order,
the lint results of the files that passed the gate. When every lint task succeeds that is one
call for each executed file, and none for a skipped file. -/
theorem C14_didExecute_once_per_executed_file (self : ExecuteFileBackerManager)
    (completion : List (String × Option TextlintResult) → List (String × Option TextlintResult))
    (hcompletion : ∀ tasks, (completion tasks).Perm tasks)
    (files : List String) (executeFile : String → Option TextlintResult)
    (i : Nat) (hi : i < self.backers.length) :
    ((self.process completion files executeFile).calls.filterMap (Call.didExecuteResult i)).Perm
        ((executedFiles self files).filterMap executeFile) ∧
      ((∀ filePath ∈ executedFiles self files, (executeFile filePath).isSome = true) →
        ((self.process completion files executeFile).calls.filterMap
          (Call.didExecuteResult i)).length = (executedFiles self files).length) := by
  obtain ⟨gateCalls, hgate, hcalls, _, _⟩ := process_eq self completion files executeFile
  have hfm : (self.process completion files executeFile).calls.filterMap
      (Call.didExecuteResult i) =
      (completion ((executedFiles self files).map
        (fun filePath => (filePath, executeFile filePath)))).filterMap (fun task => task.2) := by
    have h1 : gateCalls.filterMap (Call.didExecuteResult i) = [] := by
      apply filterMap_eq_nil_of_forall
      intro c hc
      obtain ⟨k, filePath, rfl⟩ := hgate c hc
      rfl
    have h2 : ((executedFiles self files).map Call.executeFile).filterMap
        (Call.didExecuteResult i) = [] := by
      apply filterMap_eq_nil_of_forall
      intro c hc
      simp only [List.mem_map] at hc
      obtain ⟨f, _, rfl⟩ := hc
      rfl
    have h3 : (if (executedFiles self files).all (fun filePath => (executeFile filePath).isSome)
        then (List.range self.backers.length).map Call.afterAll else []).filterMap
        (Call.didExecuteResult i) = [] := by
      apply filterMap_eq_nil_of_forall
      intro c hc
      split at hc
      · simp only [List.mem_map] at hc
        obtain ⟨k, _, rfl⟩ := hc
        rfl
      · simp at hc
    rw [hcalls, List.filterMap_append, List.filterMap_append, List.filterMap_append, h1, h2, h3,
      filterMap_didExecuteResult_calls, if_pos hi]
    simp
  have hperm : ((self.process completion files executeFile).calls.filterMap
      (Call.didExecuteResult i)).Perm ((executedFiles self files).filterMap executeFile) := by
    rw [hfm, ← tasks_filterMap]
    exact (hcompletion _).filterMap _
  refine ⟨hperm, fun hok => ?_⟩
  rw [hperm.length_eq]
  have : ∀ l : List String, (∀ filePath ∈ l, (executeFile filePath).isSome = true) →
      (l.filterMap executeFile).length = l.length := by
    intro l
    induction l with
    | nil => intro _; rfl
    | cons f fs ih =>
      intro h
      have h1 := h f (List.mem_cons_self _ _)
      cases hf : executeFile f with
      | none => rw [hf] at h1; simp at h1
      | some r =>
        rw [List.filterMap_cons, hf]
        simp only [List.length_cons]
        rw [ih (fun g hg => h g (List.mem_cons_of_mem _ hg))]
  exact this _ hok

/-- Witness of C14: `a.md` and `c.md` are executed and `c.md` settles first; the backer at
position 1 gets the result of `c.md`, then that of `a.md`, and none for the skipped `b.md`. -/
theorem C14_didExecute_once_per_executed_file_witness :
    (ExecuteFileBackerManager.process ⟨exampleBackers⟩ List.reverse ["a.md", "b.md", "c.md"]
        exampleLint).calls.filterMap (Call.didExecuteResult 1) =
        [⟨"c.md", []⟩, ⟨"a.md", [plainMessage 1 1]⟩] ∧
      ((ExecuteFileBackerManager.process ⟨exampleBackers⟩ List.reverse ["a.md", "b.md", "c.md"]
        exampleLint).calls.filterMap (Call.didExecuteResult 1)).Perm
        ((executedFiles ⟨exampleBackers⟩ ["a.md", "b.md", "c.md"]).filterMap exampleLint) :=
  ⟨by decide,
   (C14_didExecute_once_per_executed_file ⟨exampleBackers⟩ List.reverse
      (fun tasks => List.reverse_perm tasks) ["a.md", "b.md", "c.md"] exampleLint 1
      (by decide)).1⟩

/-- C15. In `process`, when every lint task succeeds, the calls end with one call of
`afterAll` for every registered backer, in registration order, and no call of `afterAll` is
made before: every call of `didExecute` of the run precedes them. -/
theorem C15_afterAll_once_in_order_at_the_end (self : ExecuteFileBackerManager)
    (completion : List (String × Option TextlintResult) → List (String × Option TextlintResult))
    (files : List String) (executeFile : String → Option TextlintResult)
    (hok : ∀ filePath ∈ executedFiles self files, (executeFile filePath).isSome = true) :
    ∃ before, (self.process completion files executeFile).calls =
        before ++ (List.range self.backers.length).map Call.afterAll ∧
      (∀ c ∈ before, c.isAfterAll = false) ∧
      (self.process completion files executeFile).calls.filter Call.isDidExecute =
        before.filter Call.isDidExecute := by
  obtain ⟨gateCalls, hgate, hcalls, _, _⟩ := process_eq self completion files executeFile
  rw [if_pos (List.all_eq_true.2 hok)] at hcalls
  refine ⟨_, hcalls, ?_, ?_⟩
  · intro c hc
    rcases List.mem_append.1 hc with hc | hc
    · rcases List.mem_append.1 hc with hc | hc
      · obtain ⟨k, filePath, rfl⟩ := hgate c hc
        rfl
      · simp only [List.mem_map] at hc
        obtain ⟨f, _, rfl⟩ := hc
        rfl
    · obtain ⟨k, result, rfl, _⟩ := mem_didExecuteCalls _ _ c hc
      rfl
  · rw [hcalls, List.filter_append]
    have : ((List.range self.backers.length).map Call.afterAll).filter Call.isDidExecute = [] := by
      rw [List.filter_eq_nil_iff]
      intro c hc
      simp only [List.mem_map] at hc
      obtain ⟨k, _, rfl⟩ := hc
      simp [Call.isDidExecute]
    rw [this, List.append_nil]

/-- Witness of C15: with two backers the calls end with `afterAll` of the backer at position
0, then of the backer at position 1. -/
theorem C15_afterAll_once_in_order_at_the_end_witness :
    ∃ before, (ExecuteFileBackerManager.process ⟨exampleBackers⟩ List.reverse
        ["a.md", "b.md", "c.md"] exampleLint).calls =
        before ++ [Call.afterAll 0, Call.afterAll 1] ∧
      (∀ c ∈ before, c.isAfterAll = false) ∧
      (ExecuteFileBackerManager.process ⟨exampleBackers⟩ List.reverse
        ["a.md", "b.md", "c.md"] exampleLint).calls.filter Call.isDidExecute =
        before.filter Call.isDidExecute :=
  C15_afterAll_once_in_order_at_the_end ⟨exampleBackers⟩ List.reverse
    ["a.md", "b.md", "c.md"] exampleLint (by decide)

/-- C16 (amended). For every call-site list and every config-file list of a list field
(`rules`, `disabledRules`, `filterRules`, `disabledFilterRules`, `presets`, `plugins`), the
`Config` that `initWithAutoLoading` returns holds the list that `concat` of `unique-concat`
makes of them. That list has no duplicate and holds the entries of both lists other than
`__proto__`; the entries that are array indices come first, in ascending numeric order, and
the other entries follow in the order in which they first occur, call-site list first. When
no entry is an array index or `__proto__`, the merged list is the call-site entries followed
by the file entries with duplicates removed keeping the first occurrence, so that every
call-site entry precedes every entry that is in the file only. -/
theorem C16_list_fields_merged_by_own_keys (env : ConfigEnv) (options : TextlintConfig)
    (loaded : LoadedConfigFile) (cfg : Config)
    (h : Config.initWithAutoLoading env options loaded = Except.ok cfg) :
    (cfg.rules = uniqueConcat (options.rules.getD []) loaded.rulesAvailable ∧
      cfg.disabledRules = uniqueConcat (options.disabledRules.getD []) loaded.rulesDisable ∧
      cfg.filterRules = uniqueConcat (options.filterRules.getD []) loaded.filterRulesAvailable ∧
      cfg.disabledFilterRules =
        uniqueConcat (options.disabledFilterRules.getD []) loaded.filterRulesDisable ∧
      cfg.presets = uniqueConcat (options.presets.getD []) loaded.presets ∧
      cfg.plugins = uniqueConcat (options.plugins.getD []) loaded.plugins) ∧
    ∀ callSite file : List String,
      (uniqueConcat callSite file).Nodup ∧
        (∀ x, x ∈ uniqueConcat callSite file ↔
          (x ∈ callSite ∨ x ∈ file) ∧ x ≠ "__proto__") ∧
        (∃ indices, uniqueConcat callSite file =
            indices ++ (uniqueFrom ["__proto__"] (callSite ++ file)).filter
              (fun key => (arrayIndex key).isNone) ∧
          indices.Perm ((uniqueFrom ["__proto__"] (callSite ++ file)).filter
            (fun key => (arrayIndex key).isSome)) ∧
          indices.Pairwise (fun a b => (arrayIndex a).getD 0 ≤ (arrayIndex b).getD 0)) ∧
        ((∀ x ∈ callSite ++ file, arrayIndex x = none ∧ x ≠ "__proto__") →
          uniqueConcat callSite file = uniqueFrom [] (callSite ++ file) ∧
          ∃ front back, uniqueConcat callSite file = front ++ back ∧
            (∀ x, x ∈ front ↔ x ∈ callSite) ∧ ∀ x, x ∈ back ↔ x ∈ file ∧ x ∉ callSite) := by
  unfold Config.initWithAutoLoading at h
  obtain ⟨h1, h2, h3, h4, h5, h6, _⟩ := Config.create_ok env _ cfg h
  exact ⟨⟨h1, h2, h3, h4, h5, h6⟩, uniqueConcat_spec⟩

/-- Witness of C16 (amended): the call-site rules `["b","a"]` with the file rules `["a","c"]`
give the rules `["b","a","c"]`. -/
theorem C16_list_fields_merged_by_own_keys_witness :
    ∃ cfg, Config.initWithAutoLoading exampleEnv { rules := some ["b", "a"] }
        { rulesAvailable := ["a", "c"] } = Except.ok cfg ∧ cfg.rules = ["b", "a", "c"] := by
  obtain ⟨cfg, hcfg⟩ := Config.create_isOk exampleEnv
    { rules := some (uniqueConcat ["b", "a"] ["a", "c"])
      disabledRules := some (uniqueConcat [] [])
      filterRules := some (uniqueConcat [] [])
      disabledFilterRules := some (uniqueConcat [] [])
      plugins := some (uniqueConcat [] [])
      presets := some (uniqueConcat [] [])
      configFile := none }
    (by intro file hf; cases hf) rfl rfl rfl
  have hinit : Config.initWithAutoLoading exampleEnv { rules := some ["b", "a"] }
      { rulesAvailable := ["a", "c"] } = Except.ok cfg := hcfg
  exact ⟨cfg, hinit,
    (C16_list_fields_merged_by_own_keys exampleEnv { rules := some ["b", "a"] }
      { rulesAvailable := ["a", "c"] } cfg hinit).1.1.trans (by decide)⟩

/-- C16 as stated fails. The call-site rules `["b","2"]` with the file rules `["1","x"]` give
the rules `["1","2","b","x"]`: the file entry `"1"` precedes both call-site entries, and the
call-site entries are not in the order given. The call-site rules `["__proto__","a"]` with the
file rules `["b"]` give `["a","b"]`: the call-site entry `__proto__` is lost. -/
theorem C16_counterexample :
    (∃ cfg, Config.initWithAutoLoading exampleEnv { rules := some ["b", "2"] }
        { rulesAvailable := ["1", "x"] } = Except.ok cfg ∧
      cfg.rules = ["1", "2", "b", "x"] ∧ cfg.rules ≠ ["b", "2", "1", "x"]) ∧
    (∃ cfg, Config.initWithAutoLoading exampleEnv { rules := some ["__proto__", "a"] }
        { rulesAvailable := ["b"] } = Except.ok cfg ∧
      cfg.rules = ["a", "b"] ∧ "__proto__" ∉ cfg.rules) := by
  constructor
  · obtain ⟨cfg, hcfg⟩ := Config.create_isOk exampleEnv
      { rules := some (uniqueConcat ["b", "2"] ["1", "x"])
        disabledRules := some (uniqueConcat [] [])
        filterRules := some (uniqueConcat [] [])
        disabledFilterRules := some (uniqueConcat [] [])
        plugins := some (uniqueConcat [] [])
        presets := some (uniqueConcat [] [])
        configFile := none }
      (by intro file hf; cases hf) rfl rfl rfl
    have hrules : cfg.rules = ["1", "2", "b", "x"] :=
      (Config.create_ok exampleEnv _ cfg hcfg).1.trans (by decide)
    exact ⟨cfg, hcfg, hrules, by rw [hrules]; decide⟩
  · obtain ⟨cfg, hcfg⟩ := Config.create_isOk exampleEnv
      { rules := some (uniqueConcat ["__proto__", "a"] ["b"])
        disabledRules := some (uniqueConcat [] [])
        filterRules := some (uniqueConcat [] [])
        disabledFilterRules := some (uniqueConcat [] [])
        plugins := some (uniqueConcat [] [])
        presets := some (uniqueConcat [] [])
        configFile := none }
      (by intro file hf; cases hf) rfl rfl rfl
    have hrules : cfg.rules = ["a", "b"] :=
      (Config.create_ok exampleEnv _ cfg hcfg).1.trans (by decide)
    exact ⟨cfg, hcfg, hrules, by rw [hrules]; decide⟩

/-- C17 (amended). For `quiet`, `color`, `cache` and `cacheLocation`, every call-site value
other than `undefined`, the boolean `false` and the empty string included, is the value that
the constructed `Config` holds, and `undefined` falls back to the default. For `formatterName`
the constructed `Config` holds the call-site value only when it is a non-empty string; the
empty string, like `undefined`, gives the default `undefined`. -/
theorem C17_scalar_fields (env : ConfigEnv) (options : TextlintConfig) (cfg : Config)
    (h : Config.create env options = Except.ok cfg) :
    cfg.quiet = options.quiet.getD false ∧
      cfg.color = options.color.getD true ∧
      cfg.cache = options.cache.getD false ∧
      cfg.cacheLocation = options.cacheLocation.getD env.defaultCacheLocation ∧
      (∀ name, options.formatterName = some name → name ≠ "" →
        cfg.formatterName = some name) ∧
      (options.formatterName = some "" ∨ options.formatterName = none →
        cfg.formatterName = none) := by
  obtain ⟨_, _, _, _, _, _, h7, h8, h9, h10, h11⟩ := Config.create_ok env options cfg h
  refine ⟨h8, h9, h10, h11, ?_, ?_⟩
  · intro name hn hne
    rw [h7, hn]
    simp [truthyString, Option.filter, hne]
  · rintro (hn | hn) <;> rw [h7, hn] <;> rfl

/-- Witness of C17 (amended): the call-site values `quiet = false`, `color = false`,
`cache = true`, `cacheLocation = ""` and `formatterName = "json"` are the values of the
constructed `Config`. -/
theorem C17_scalar_fields_witness :
    ∃ cfg, Config.create exampleEnv
        { quiet := some false, color := some false, cache := some true,
          cacheLocation := some "", formatterName := some "json" } = Except.ok cfg ∧
      cfg.quiet = false ∧ cfg.color = false ∧ cfg.cache = true ∧ cfg.cacheLocation = "" ∧
      cfg.formatterName = some "json" := by
  obtain ⟨cfg, hcfg⟩ := Config.create_isOk exampleEnv
    { quiet := some false, color := some false, cache := some true,
      cacheLocation := some "", formatterName := some "json" }
    (by intro file hf; cases hf) rfl rfl rfl
  have h := C17_scalar_fields exampleEnv _ cfg hcfg
  exact ⟨cfg, hcfg, h.1, h.2.1, h.2.2.1, h.2.2.2.1, h.2.2.2.2.1 "json" rfl (by decide)⟩

/-- C17 as stated fails: with the call-site value `formatterName = ""`, which is not
`undefined`, the constructor returns a `Config` whose `formatterName` is the default
`undefined`, not the empty string. -/
theorem C17_counterexample :
    ∃ cfg, Config.create exampleEnv { formatterName := some "" } = Except.ok cfg ∧
      cfg.formatterName = none ∧ cfg.formatterName ≠ some "" := by
  obtain ⟨cfg, hcfg⟩ := Config.create_isOk exampleEnv { formatterName := some "" }
    (by intro file hf; cases hf) rfl rfl rfl
  have h7 := (Config.create_ok exampleEnv _ cfg hcfg).2.2.2.2.2.2.1
  have hnone : cfg.formatterName = none := h7.trans rfl
  exact ⟨cfg, hcfg, hnone, by rw [hnone]; simp⟩

/-- C18 (amended). `executeOnText` takes the extension hint either with its leading dot, and
then uses it as it is, or as a name from which `path.extname` derives the extension. For every
extension name `e` that contains no dot (for example `"md"`), no extension is derived:
`executeOnText(text, e)` throws `should specify the extension` and does not lint, whereas
`executeOnText(text, "." + e)` lints the text with the extension `"." + e` and returns the
list of that single result. -/
theorem C18_extension_without_dot_is_rejected
    (execText : JSString → JSString → Option TextlintResult) (text e : JSString)
    (h : '.' ∉ e) :
    executeOnText execText text (some e) =
        Except.error "should specify the extension.\nex) .md" ∧
      executeOnText execText text (some ('.' :: e)) =
        Except.ok ((execText text ('.' :: e)).map (fun result => [result])) := by
  constructor
  · unfold executeOnText
    have hhead : ¬ (e.head? = some '.') := by
      intro hh
      cases e with
      | nil => simp at hh
      | cons c cs =>
        simp only [List.head?_cons, Option.some.injEq] at hh
        exact h (by rw [hh]; exact List.mem_cons_self _ _)
    simp [hhead, extname_of_no_dot e h]
  · unfold executeOnText
    simp

/-- Witness of C18 (amended): the hint `"md"` makes `executeOnText` throw; the hints `".md"`
and `"README.md"` make it lint with the extension `".md"`; without hint the extension is
`".txt"`. -/
theorem C18_extension_without_dot_is_rejected_witness :
    executeOnText (fun _ ext => some ⟨String.mk ext, []⟩) "text".toList (some "md".toList) =
        Except.error "should specify the extension.\nex) .md" ∧
      executeOnText (fun _ ext => some ⟨String.mk ext, []⟩) "text".toList (some ".md".toList) =
        Except.ok (some [⟨".md", []⟩]) ∧
      executeOnText (fun _ ext => some ⟨String.mk ext, []⟩) "text".toList
        (some "README.md".toList) = Except.ok (some [⟨".md", []⟩]) ∧
      executeOnText (fun _ ext => some ⟨String.mk ext, []⟩) "text".toList none =
        Except.ok (some [⟨".txt", []⟩]) :=
  ⟨(C18_extension_without_dot_is_rejected (fun _ ext => some ⟨String.mk ext, []⟩)
      "text".toList "md".toList (by decide)).1,
   (C18_extension_without_dot_is_rejected (fun _ ext => some ⟨String.mk ext, []⟩)
      "text".toList "md".toList (by decide)).2,
   by decide, by decide⟩

/-- C18 as stated fails: for the extension name `"md"`, `executeOnText(text, "md")` throws,
while `executeOnText(text, ".md")` returns the list of the single result. -/
theorem C18_counterexample :
    executeOnText (fun _ ext => some ⟨String.mk ext, []⟩) "text".toList (some "md".toList) =
        Except.error "should specify the extension.\nex) .md" ∧
      executeOnText (fun _ ext => some ⟨String.mk ext, []⟩) "text".toList (some ".md".toList) =
        Except.ok (some [⟨".md", []⟩]) ∧
      executeOnText (fun _ ext => some ⟨String.mk ext, []⟩) "text".toList (some "md".toList) ≠
        executeOnText (fun _ ext => some ⟨String.mk ext, []⟩) "text".toList
          (some ".md".toList) := by
  decide

/-- C19. For every list of lint results, `isErrorResults` returns true if and only if some
message of some result has the severity 2 (`SeverityLevel.error`); results whose messages all
have the severity 0 or 1 give false. -/
theorem C19_isErrorResults_iff (results : List TextlintResult) :
    (isErrorResults results = true ↔
        ∃ result ∈ results, ∃ message ∈ result.messages, message.severity = 2) ∧
      ((∀ result ∈ results, ∀ message ∈ result.messages,
          message.severity = 0 ∨ message.severity = 1) →
        isErrorResults results = false) ∧
      SeverityLevel.error = 2 := by
  have hiff : isErrorResults results = true ↔
      ∃ result ∈ results, ∃ message ∈ result.messages, message.severity = 2 := by
    simp [isErrorResults, isErrorMessage, SeverityLevel.error, List.any_eq_true]
  refine ⟨hiff, ?_, rfl⟩
  intro hall
  rw [← Bool.not_eq_true, hiff]
  rintro ⟨result, hr, message, hm, h2⟩
  rcases hall result hr message hm with h | h <;> omega

/-- Witness of C19: the results `[{messages:[{severity:1}]}, {messages:[{severity:2}]}]` give
true; without the message of severity 2 they give false. -/
theorem C19_isErrorResults_iff_witness :
    isErrorResults [⟨"a.md", [plainMessage 1 1]⟩,
        ⟨"b.md", [{ plainMessage 1 1 with severity := 2 }]⟩] = true ∧
      isErrorResults [⟨"a.md", [plainMessage 1 1]⟩, ⟨"b.md", []⟩] = false :=
  ⟨(C19_isErrorResults_iff _).1.2
      ⟨⟨"b.md", [{ plainMessage 1 1 with severity := 2 }]⟩, by decide,
        { plainMessage 1 1 with severity := 2 }, by decide, rfl⟩,
   (C19_isErrorResults_iff _).2.1 (by decide)⟩

/-- C20, the code on every constructed engine. `resetRules` empties the rules of
`this.textlint` and `ruleMap`, then reads `this.filerRuleMap`, a property that the constructor
never assigns (it assigns `filterRuleMap`), and throws a `TypeError`: the call does not
complete, and `filterRuleMap` keeps all its rules. -/
theorem C20_resetRules_throws (rules filterRules : List (String × String)) :
    (TextLintEngineCore.create rules filterRules).resetRules.2 =
        some "TypeError: this.filerRuleMap is undefined" ∧
      (TextLintEngineCore.create rules filterRules).resetRules.1.ruleMap.rules = [] ∧
      (TextLintEngineCore.create rules filterRules).resetRules.1.filterRuleMap =
        (TextLintEngineCore.create rules filterRules).filterRuleMap ∧
      (TextLintEngineCore.create [("no-todo", "rule")]
        [("comments", "filter")]).resetRules.1.filterRuleMap.rules =
        [("comments", "filter")] := by
  refine ⟨rfl, rfl, rfl, by decide⟩

/-- C21. Round trip of the applied fixes. For every source whose text holds no BOM character
and every list of messages whose fixes lie in the text (`0 <= start <= end <= text length`)
and whose replacement texts hold no BOM character, `sequentiallyApplyFixes` on a source whose
text is the output of `applyFixes`, given the `applyingMessages` of that run, returns the
original text, behind its BOM when the original source is flagged as having one. -/
theorem C21_round_trip (sortFn : SortFn) (hs : IsSort sortFn) (sourceCode : SourceCode)
    (messages : List TextlintMessage) (hasBOM : Bool)
    (htext : BOM ∉ sourceCode.text)
    (hrange : ∀ m ∈ messages, fixInText sourceCode.text.length m)
    (hbom : ∀ m ∈ messages, fixSatisfies (fun f => BOM ∉ f.text) m) :
    sequentiallyApplyFixes sortFn
        ⟨(applyFixes sortFn sourceCode messages).output, hasBOM⟩
        (applyFixes sortFn sourceCode messages).applyingMessages =
      (if sourceCode.hasBOM then [BOM] else []) ++ sourceCode.text ∧
    (sourceCode.hasBOM = false →
      sequentiallyApplyFixes sortFn
          ⟨(applyFixes sortFn sourceCode messages).output, hasBOM⟩
          (applyFixes sortFn sourceCode messages).applyingMessages = sourceCode.text) := by
  have hmain : sequentiallyApplyFixes sortFn
        ⟨(applyFixes sortFn sourceCode messages).output, hasBOM⟩
        (applyFixes sortFn sourceCode messages).applyingMessages =
      (if sourceCode.hasBOM then [BOM] else []) ++ sourceCode.text := by
    by_cases h : (messages.filter (fun problem => problem.fix.isSome)).length ≠ 0
    · rw [applyFixes_of_fix sortFn sourceCode messages h]
      unfold sequentiallyApplyFixes
      simp only
      have hinv : ∃ (q : Nat) (rest : List JSString), q ≤ sourceCode.text.length ∧
          (applyFixesLoop sortFn sourceCode messages).lastFixPos ≤ (q : Int) + 1 ∧
          (applyFixesLoop sortFn sourceCode messages).chars =
            (sourceCode.text.take q).map (fun c => [c]) ++ rest ∧
          BOM ∉ rest.flatten ∧
          (applyFixesLoop sortFn sourceCode messages).prefixBOM =
            (if sourceCode.hasBOM then [BOM] else []) ∧
          (applyFixesLoop sortFn sourceCode messages).applyingMessages.reverse.foldl
              (fun text message =>
                (applyFixes sortFn (SourceCode.create text) [message]).output)
              ((if sourceCode.hasBOM then [BOM] else []) ++
                (sourceCode.text.take q ++ rest.flatten)) =
            (if sourceCode.hasBOM then [BOM] else []) ++ sourceCode.text := by
        unfold applyFixesLoop
        simp only
        refine foldl_applyFix_inv
          (fun st => ∃ (q : Nat) (rest : List JSString), q ≤ sourceCode.text.length ∧
            st.lastFixPos ≤ (q : Int) + 1 ∧
            st.chars = (sourceCode.text.take q).map (fun c => [c]) ++ rest ∧
            BOM ∉ rest.flatten ∧
            st.prefixBOM = (if sourceCode.hasBOM then [BOM] else []) ∧
            st.applyingMessages.reverse.foldl
                (fun text message =>
                  (applyFixes sortFn (SourceCode.create text) [message]).output)
                ((if sourceCode.hasBOM then [BOM] else []) ++
                  (sourceCode.text.take q ++ rest.flatten)) =
              (if sourceCode.hasBOM then [BOM] else []) ++ sourceCode.text) _ ?_ _ ?_
        · intro st x hx hst
          have hxm := (mem_sort_fixes hs messages x).1 hx
          refine applyFix_restorable sortFn hs sourceCode.text sourceCode.hasBOM htext st x ?_ hst
          cases hf : x.fix with
          | none => rw [hf] at hxm; simp at hxm
          | some f =>
            have h1 := hrange x hxm.1
            have h2 := hbom x hxm.1
            simp only [fixInText, fixSatisfies_some hf] at h1 h2
            exact ⟨f, rfl, h1.1, h1.2.1, h1.2.2, h2⟩
        · refine ⟨sourceCode.text.length, [], le_rfl, le_rfl, ?_, ?_, rfl, ?_⟩
          · simp
          · simp
          · simp
      obtain ⟨q, rest, _, _, hc, _, hpre, hseq⟩ := hinv
      rw [hpre, hc, List.flatten_append, flatten_map_singleton]
      exact hseq
    · rw [applyFixes_of_no_fix sortFn sourceCode messages h]
      rfl
  refine ⟨hmain, ?_⟩
  intro hb
  rw [hmain, hb]
  rfl

/-- Witness of C21: on `"abcdef"` the fixes `[4,6] -> "X"` and `[0,2] -> "YYY"` are applied
and `[3,5] -> "W"`, which overlaps the first, is rejected; the output is `"YYYcdX"`, and the
two rewritten copies turn it back into `"abcdef"`. -/
theorem C21_round_trip_witness :
    sequentiallyApplyFixes insertionSort
        ⟨(applyFixes insertionSort ⟨"abcdef".toList, false⟩
          [fixMessage 1 5 4 6 "X", fixMessage 1 1 0 2 "YYY", fixMessage 1 4 3 5 "W"]).output,
          false⟩
        (applyFixes insertionSort ⟨"abcdef".toList, false⟩
          [fixMessage 1 5 4 6 "X", fixMessage 1 1 0 2 "YYY",
            fixMessage 1 4 3 5 "W"]).applyingMessages = "abcdef".toList ∧
      (applyFixes insertionSort ⟨"abcdef".toList, false⟩
          [fixMessage 1 5 4 6 "X", fixMessage 1 1 0 2 "YYY", fixMessage 1 4 3 5 "W"]).output
        = "YYYcdX".toList ∧
      (applyFixes insertionSort ⟨"abcdef".toList, false⟩
          [fixMessage 1 5 4 6 "X", fixMessage 1 1 0 2 "YYY",
            fixMessage 1 4 3 5 "W"]).applyingMessages.map (fun m => m.fix)
        = [some ⟨(0, 3), "ab".toList⟩, some ⟨(4, 5), "ef".toList⟩] :=
  ⟨(C21_round_trip insertionSort insertionSort_isSort ⟨"abcdef".toList, false⟩
      [fixMessage 1 5 4 6 "X", fixMessage 1 1 0 2 "YYY", fixMessage 1 4 3 5 "W"] false
      (by decide) (by decide) (by decide)).2 rfl,
   by decide, by decide⟩


/-- C22. For every file list, backer chain and lint function whose tasks all succeed, the
promise returned by `process` is fulfilled with exactly one result per input file: the lint
results of the executed files in the order of the input, followed by the placeholders of the
skipped files in the order of the input. The value is the same for every order in which the
lint tasks settle. -/
theorem C22_results_in_input_order (self : ExecuteFileBackerManager)
    (completion : List (String × Option TextlintResult) → List (String × Option TextlintResult))
    (files : List String) (executeFile : String → Option TextlintResult)
    (hok : ∀ filePath ∈ executedFiles self files, (executeFile filePath).isSome = true) :
    ∃ results : List TextlintResult,
      (self.process completion files executeFile).results = some results ∧
      results.length = files.length ∧
      results.map some =
        (files.filter (fun filePath =>
          self.backers.all (fun backer => backer.shouldExecute filePath))).map executeFile ++
        (files.filter (fun filePath =>
          !self.backers.all (fun backer => backer.shouldExecute filePath))).map
          (fun filePath => some { filePath := filePath, messages := [] }) ∧
      (executedFiles self files ++ skippedFiles self files).Perm files ∧
      ∀ completion', (self.process completion' files executeFile).results = some results := by
  have hres : ∀ c, (self.process c files executeFile).results =
      some ((executedFiles self files).filterMap executeFile ++
        (skippedFiles self files).map ExecuteFileBackerManager.createFakeResult) := by
    intro c
    obtain ⟨_, _, _, _, h⟩ := process_eq self c files executeFile
    rw [h, if_pos (List.all_eq_true.2 hok)]
  have hmap := map_some_filterMap executeFile (executedFiles self files) hok
  refine ⟨_, hres completion, ?_, ?_, executed_skipped_perm self files, hres⟩
  · have h1 := congrArg List.length hmap
    simp only [List.length_map] at h1
    rw [List.length_append, h1, List.length_map, ← List.length_append,
      (executed_skipped_perm self files).length_eq]
  · rw [List.map_append, hmap, List.map_map]
    rfl

/-- Witness of C22: of `a.md`, `b.md`, `c.md` the first backer skips `b.md`; whether `c.md`
settles before `a.md` or after it, the results are those of `a.md` and `c.md` followed by the
placeholder of `b.md`. -/
theorem C22_results_in_input_order_witness :
    ∃ results : List TextlintResult,
      (ExecuteFileBackerManager.process ⟨exampleBackers⟩ List.reverse ["a.md", "b.md", "c.md"]
        exampleLint).results = some results ∧
      results = [⟨"a.md", [plainMessage 1 1]⟩, ⟨"c.md", []⟩, ⟨"b.md", []⟩] ∧
      (ExecuteFileBackerManager.process ⟨exampleBackers⟩ id ["a.md", "b.md", "c.md"]
        exampleLint).results = some results := by
  obtain ⟨results, h1, _, h3, _, h5⟩ := C22_results_in_input_order ⟨exampleBackers⟩ List.reverse
    ["a.md", "b.md", "c.md"] exampleLint (by decide)
  refine ⟨results, h1, ?_, h5 id⟩
  have h : (ExecuteFileBackerManager.process ⟨exampleBackers⟩ List.reverse
      ["a.md", "b.md", "c.md"] exampleLint).results =
      some [⟨"a.md", [plainMessage 1 1]⟩, ⟨"c.md", []⟩, ⟨"b.md", []⟩] := by decide
  rw [h1] at h
  exact Option.some.inj h


/-- C23. No message is lost by `applyFixes`: the number of `applyingMessages` plus the number
of `remainingMessages` is the number of input messages; the accepted problems (of which
`applyingMessages` holds the rewritten copies, in the order of the text) and the
`remainingMessages` together are the input messages, each as often as it is given, so that
every message without a fix and every rejected fix message is in `remainingMessages`; and the
`messages` field is the input list in its order. -/
theorem C23_no_message_lost (sortFn : SortFn) (hs : IsSort sortFn) (sourceCode : SourceCode)
    (messages : List TextlintMessage) :
    (applyFixes sortFn sourceCode messages).applyingMessages.length +
        (applyFixes sortFn sourceCode messages).remainingMessages.length = messages.length ∧
      (acceptedFixes sortFn sourceCode messages ++
        (applyFixes sortFn sourceCode messages).remainingMessages).Perm messages ∧
      (applyFixes sortFn sourceCode messages).applyingMessages.map withoutFix =
        (acceptedFixes sortFn sourceCode messages).reverse.map withoutFix ∧
      (∀ m ∈ messages, m.fix = none →
        m ∈ (applyFixes sortFn sourceCode messages).remainingMessages) ∧
      (∀ m ∈ messages, m ∉ acceptedFixes sortFn sourceCode messages →
        m ∈ (applyFixes sortFn sourceCode messages).remainingMessages) ∧
      (applyFixes sortFn sourceCode messages).messages = messages := by
  have hperm : (acceptedFixes sortFn sourceCode messages ++
      (applyFixes sortFn sourceCode messages).remainingMessages).Perm messages := by
    by_cases h : (messages.filter (fun problem => problem.fix.isSome)).length ≠ 0
    · rw [applyFixes_of_fix sortFn sourceCode messages h, acceptedFixes, if_pos h]
      exact ((hs.perm compareMessagesByLocation _).append_left _).trans
        (applyFixesLoop_keeps sortFn hs sourceCode messages)
    · rw [applyFixes_of_no_fix sortFn sourceCode messages h, acceptedFixes, if_neg h]
      have h0 : messages.filter (fun problem => problem.fix.isSome) = [] :=
        List.length_eq_zero.1 (not_not.1 h)
      have := partition_perm messages
      rw [h0, List.append_nil] at this
      simpa using this
  have hacc : ∀ m ∈ acceptedFixes sortFn sourceCode messages, m.fix.isSome = true := by
    intro m hm
    unfold acceptedFixes at hm
    split at hm
    · have hsub : ∀ x ∈ (applyFixesLoop sortFn sourceCode messages).accepted,
          x.fix.isSome = true := by
        unfold applyFixesLoop
        simp only
        refine foldl_applyFix_inv (fun st => ∀ x ∈ st.accepted, x.fix.isSome = true) _ ?_ _ ?_
        · intro st x hx hst y hy
          have hxs := ((mem_sort_fixes hs messages x).1 hx).2
          cases hf : x.fix with
          | none => simp [hf] at hxs
          | some f =>
            by_cases hlt : f.range.2 < st.lastFixPos
            · rw [(applyFix_of_lt st x f hf hlt).1, List.mem_append, List.mem_singleton] at hy
              rcases hy with hy | hy
              · exact hst y hy
              · rw [hy]; exact hxs
            · rw [(applyFix_of_not_lt st x f hf hlt).1] at hy
              exact hst y hy
        · intro x hx; simp at hx
      exact hsub m hm
    · simp at hm
  have hlen := congrArg List.length (applyingMessages_eq_accepted sortFn sourceCode messages)
  simp only [List.length_map, List.length_reverse] at hlen
  refine ⟨?_, hperm, applyingMessages_eq_accepted sortFn sourceCode messages, ?_, ?_, ?_⟩
  · rw [hlen, ← List.length_append, hperm.length_eq]
  · intro m hm hnone
    rcases List.mem_append.1 (hperm.mem_iff.2 hm) with h | h
    · have := hacc m h
      rw [hnone] at this
      simp at this
    · exact h
  · intro m hm hna
    rcases List.mem_append.1 (hperm.mem_iff.2 hm) with h | h
    · exact absurd h hna
    · exact h
  · by_cases h : (messages.filter (fun problem => problem.fix.isSome)).length ≠ 0
    · rw [applyFixes_of_fix sortFn sourceCode messages h]
    · rw [applyFixes_of_no_fix sortFn sourceCode messages h]

/-- Witness of C23: of two overlapping fixes and a message without fix on `"abcdef"`, the fix
`[1,3]` is processed first and applied, and the plain message and the fix `[2,5]` remain. -/
theorem C23_no_message_lost_witness :
    (applyFixes insertionSort ⟨"abcdef".toList, false⟩
        [fixMessage 2 1 1 3 "X", plainMessage 1 1, fixMessage 1 3 2 5 "Y"]).applyingMessages.length
      + (applyFixes insertionSort ⟨"abcdef".toList, false⟩
        [fixMessage 2 1 1 3 "X", plainMessage 1 1, fixMessage 1 3 2 5 "Y"]).remainingMessages.length
      = 3 ∧
    (applyFixes insertionSort ⟨"abcdef".toList, false⟩
        [fixMessage 2 1 1 3 "X", plainMessage 1 1, fixMessage 1 3 2 5 "Y"]).remainingMessages
      = [plainMessage 1 1, fixMessage 1 3 2 5 "Y"] ∧
    (applyFixes insertionSort ⟨"abcdef".toList, false⟩
        [fixMessage 2 1 1 3 "X", plainMessage 1 1, fixMessage 1 3 2 5 "Y"]).messages
      = [fixMessage 2 1 1 3 "X", plainMessage 1 1, fixMessage 1 3 2 5 "Y"] :=
  ⟨(C23_no_message_lost insertionSort insertionSort_isSort ⟨"abcdef".toList, false⟩
      [fixMessage 2 1 1 3 "X", plainMessage 1 1, fixMessage 1 3 2 5 "Y"]).1,
   by decide,
   (C23_no_message_lost insertionSort insertionSort_isSort ⟨"abcdef".toList, false⟩
      [fixMessage 2 1 1 3 "X", plainMessage 1 1, fixMessage 1 3 2 5 "Y"]).2.2.2.2.2⟩

end Textlint
